import Mathlib

/-!
# Verification of the go-hamt hash array mapped trie

This file gives a shallow embedding, in Lean 4, of the HAMT library found in
the repository (packages `hamt32` and `hamt64`): the persistent
(copy-on-write) flavor `HamtFunctional` of `hamt32/hamt_functional.go` and
`hamt32/hamt_common.go`, and the transient (in-place) flavor `Hamt` of the
`hamt64` package.  Machine integers are modelled as `Nat`; Go's `interface{}`
values are modelled as `Option Nat` with `none` standing for Go's `nil`;
Go's multiple return values become tuples; a `log.Panicf`/`panic` is
modelled by an `Option`-valued function returning `none`.

The leaf and table implementations (`flatLeaf`, `collisionLeaf`,
`fixedTable`/`fullTable`, `sparseTable`/`compressedTable`) are not part of
the provided sources; they are modelled from the specification (sections 3,
4.2 and 4.3), which describes both table variants as exposing one logical
contract (`get`, `set`, `insert`, `replace`, `remove`, `nentries`,
`entries`).  A table is therefore represented by its logical content: an
association list from slot index to child node, together with its variant
tag (`fixed`), its depth and its hash path; the bitmap-plus-packed-array
encoding of a sparse table is represented by that same logical content.
-/

namespace GoHamt

/-- Width parameters of one of the two parallel implementations: `bits` is
the number of hash bits consumed per level (`IndexBits`/`nBits`) and
`depthLimit` the number of levels (`DepthLimit`). -/
structure Params where
  bits : Nat
  depthLimit : Nat
deriving DecidableEq, Repr

/-- Parameters of the `hamt32` package: `IndexBits = 5`,
`DepthLimit = 32 / 5 = 6` (file `part_000`). -/
def p32 : Params := ⟨5, 6⟩

/-- Parameters of the `hamt64` package: `nBits = 6` and ten levels for a
60-bit hash (`nBits*(maxDepth+1) == 60`). -/
def p64 : Params := ⟨6, 10⟩

/-- Maximum number of entries of a table, `IndexLimit = 1 << IndexBits`
(also called `tableCapacity` in `hamt64`). -/
def Params.indexLimit (p : Params) : Nat := 2 ^ p.bits

/-- Maximum value of a depth variable, `maxDepth = DepthLimit - 1`. -/
def Params.maxDepth (p : Params) : Nat := p.depthLimit - 1

/-- Modulus that a hash value is reduced to: a hash value carries exactly
`depthLimit` digits of `bits` bits each (the source folds the extra
`remainder` bits of the raw hash away, cf. the `remainder` constant of
`part_000`). -/
def Params.hashMod (p : Params) : Nat := p.indexLimit ^ p.depthLimit

/-- The `Index` operation of a hash value: the `bits`-bit digit of `hv` at
`depth`, i.e. `(hv >> (depth*bits)) & (indexLimit-1)`. -/
def Params.index (p : Params) (hv depth : Nat) : Nat :=
  hv / p.indexLimit ^ depth % p.indexLimit

/-- UpgradeThreshold of `hamt32` (`part_000`): `IndexLimit / 2 = 16`. -/
def UpgradeThreshold : Nat := p32.indexLimit / 2

/-- DowngradeThreshold of `hamt32` (`part_000`): `IndexLimit * 3 / 8 = 12`. -/
def DowngradeThreshold : Nat := p32.indexLimit * 3 / 8

/-- upgradeThreshold of `hamt64` (`part_001`): `tableCapacity / 2 = 32`. -/
def upgradeThreshold64 : Nat := p64.indexLimit / 2

/-- downgradeThreshold of `hamt64` (`part_001`): `tableCapacity / 8 = 8`. -/
def downgradeThreshold64 : Nat := p64.indexLimit / 8

/-- Go `interface{}` values stored in the map, `none` standing for Go `nil`.
A `nil` value may be stored under a key. -/
abbrev Val := Option Nat

/-- The key abstraction `iKey`: an immutable byte string (abstracted to a
`Nat`) together with its precomputed hash value.  `newKey` computes the
hash; equality of keys is structural. -/
structure IKey where
  bs : Nat
  hv : Nat
deriving DecidableEq, Repr

/-- Construction of an `iKey` from a byte string: the host-supplied hash
function `hashF` is applied and folded down to `depthLimit` digits. -/
def Params.newKey (p : Params) (hashF : Nat → Nat) (bs : Nat) : IKey :=
  ⟨bs, hashF bs % p.hashMod⟩

/-- Leaf nodes: a `flatLeaf` carries one key/value pair, a `collisionLeaf`
carries the common hash value and the list of its key/value pairs
(modelled from the spec, section 4.2). -/
inductive Leaf where
  | flat (k : IKey) (v : Val)
  | collision (hv : Nat) (kvs : List (IKey × Val))
deriving DecidableEq, Repr

/-- Hash value of a leaf (`leafI.Hash()`). -/
def Leaf.hash : Leaf → Nat
  | .flat k _ => k.hv
  | .collision hv _ => hv

/-- Number of key/value pairs stored in a leaf. -/
def Leaf.count : Leaf → Nat
  | .flat _ _ => 1
  | .collision _ kvs => kvs.length

/-- Leaf lookup (`leafI.get`): `flatLeaf` compares the key, a
`collisionLeaf` does a linear search.  Returns the Go pair
`(interface{}, bool)`. -/
def Leaf.get (l : Leaf) (k : IKey) : Val × Bool :=
  match l with
  | .flat k0 v0 => if k0 = k then (v0, true) else (none, false)
  | .collision _ kvs =>
      match kvs.find? (fun kv => kv.1 = k) with
      | some kv => (kv.2, true)
      | none => (none, false)

/-- Replace the value of key `k` in a collision list, keeping the order of
the other pairs. -/
def replaceKV (k : IKey) (v : Val) : List (IKey × Val) → List (IKey × Val)
  | [] => []
  | kv :: rest => if kv.1 = k then (k, v) :: rest else kv :: replaceKV k v rest

/-- Leaf insertion (`leafI.put`), modelled from the spec, section 4.2: on a
key match the value is replaced (`added = false`); otherwise a `flatLeaf`
grows into a `collisionLeaf` and a `collisionLeaf` appends
(`added = true`). -/
def Leaf.put (l : Leaf) (k : IKey) (v : Val) : Leaf × Bool :=
  match l with
  | .flat k0 v0 =>
      if k0 = k then (.flat k v, false)
      else (.collision k0.hv [(k0, v0), (k, v)], true)
  | .collision hv kvs =>
      if kvs.any (fun kv => kv.1 = k) then (.collision hv (replaceKV k v kvs), false)
      else (.collision hv (kvs ++ [(k, v)]), true)

/-- Leaf deletion (`leafI.del`), modelled from the spec, section 4.2:
returns `(replacement-or-nil, value, deleted)`.  A `collisionLeaf` whose
residual length is 1 shrinks to a `flatLeaf`. -/
def Leaf.del (l : Leaf) (k : IKey) : Option Leaf × Val × Bool :=
  match l with
  | .flat k0 v0 =>
      if k0 = k then (none, v0, true) else (some l, none, false)
  | .collision hv kvs =>
      match kvs.find? (fun kv => kv.1 = k) with
      | none => (some l, none, false)
      | some kv =>
          match kvs.filter (fun kv' => ¬(kv'.1 = k)) with
          | [] => (none, kv.2, true)
          | [(k1, v1)] => (some (.flat k1 v1), kv.2, true)
          | rest => (some (.collision hv rest), kv.2, true)

/-- Trie nodes (`nodeI`): a slot of a table holds a leaf or a table.  A
table (`tableI`) is represented by its variant tag (`fixed`: true for
`fixedTable`/`fullTable`, false for `sparseTable`/`compressedTable`), its
`depth`, its hash path prefix, and its logical content: the association
list of its non-empty slots. -/
inductive Node where
  | leaf (l : Leaf)
  | table (fixed : Bool) (depth : Nat) (hashPath : Nat) (slots : List (Nat × Node))
deriving Repr

/-- Slot lookup `tableI.get(idx)`: `none` is an empty slot. -/
def tget (n : Node) (idx : Nat) : Option Node :=
  match n with
  | .leaf _ => none
  | .table _ _ _ slots => (slots.find? (fun e => e.1 = idx)).map (·.2)

/-- Entry list of a table with the entry at `idx` replaced by `c`
(`tableI.replace`, used when slot `idx` is known non-empty). -/
def replaceSlot (idx : Nat) (c : Node) : List (Nat × Node) → List (Nat × Node)
  | [] => []
  | e :: rest => if e.1 = idx then (idx, c) :: rest else e :: replaceSlot idx c rest

/-- `tableI.insert(idx, c)`: slot `idx` is known to be empty. -/
def tinsert (n : Node) (idx : Nat) (c : Node) : Node :=
  match n with
  | .leaf _ => n
  | .table f d hp slots => .table f d hp ((idx, c) :: slots)

/-- `tableI.replace(idx, c)`: slot `idx` is known to be non-empty. -/
def treplace (n : Node) (idx : Nat) (c : Node) : Node :=
  match n with
  | .leaf _ => n
  | .table f d hp slots => .table f d hp (replaceSlot idx c slots)

/-- `tableI.remove(idx)`: slot `idx` is known to be non-empty. -/
def tremove (n : Node) (idx : Nat) : Node :=
  match n with
  | .leaf _ => n
  | .table f d hp slots => .table f d hp (slots.filter (fun e => ¬(e.1 = idx)))

/-- The `set(idx, n)` operation of the `hamt64` tables: inserts, replaces,
or (with an empty argument) removes. -/
def tset (n : Node) (idx : Nat) (c : Option Node) : Node :=
  match c with
  | none => tremove n idx
  | some c =>
      match tget n idx with
      | none => tinsert n idx c
      | some _ => treplace n idx c

/-- Number of non-empty slots, `tableI.nentries()`. -/
def tlen (n : Node) : Nat :=
  match n with
  | .leaf _ => 0
  | .table _ _ _ slots => slots.length

/-- Variant tag of a table node (true for a fixed/full table). -/
def tfixed (n : Node) : Bool :=
  match n with
  | .leaf _ => true
  | .table f _ _ _ => f

/-- Stored hash path of a table node (`tableI.Hash()`). -/
def thash (n : Node) : Nat :=
  match n with
  | .leaf l => l.hash
  | .table _ _ hp _ => hp


/-! ## Key/value count and structural well-formedness -/

mutual

/-- Total number of key/value pairs stored in a subtree (the quantity the
`Count` traversal accumulates in its `KeyVals` field). -/
def kvCount : Node → Nat
  | .leaf l => l.count
  | .table _ _ _ slots => kvCountSlots slots

/-- Total number of key/value pairs stored under a slot list. -/
def kvCountSlots : List (Nat × Node) → Nat
  | [] => 0
  | (_, n) :: rest => kvCount n + kvCountSlots rest

end

theorem kvCount_table (f : Bool) (d hp : Nat) (slots : List (Nat × Node)) :
    kvCount (.table f d hp slots) = kvCountSlots slots := rfl

theorem kvCount_leaf (l : Leaf) : kvCount (.leaf l) = l.count := rfl

theorem kvCountSlots_nil : kvCountSlots [] = 0 := rfl

theorem kvCountSlots_cons (e : Nat × Node) (r : List (Nat × Node)) :
    kvCountSlots (e :: r) = kvCount e.2 + kvCountSlots r := by
  obtain ⟨i, n⟩ := e
  rfl

/-- Count of an optional node. -/
def kvCountO : Option Node → Nat
  | none => 0
  | some n => kvCount n

theorem kvCountO_none : kvCountO none = 0 := rfl

theorem kvCountO_some (n : Node) : kvCountO (some n) = kvCount n := rfl

/-- Discriminator: is this node a leaf? -/
def isLeafNode : Node → Bool
  | .leaf _ => true
  | .table _ _ _ _ => false


/-- Well-formedness of the key/value pairs of a collision leaf at hash
`hv`: every key carries exactly that hash value and is consistent with the
host hash function, and the keys are pairwise distinct. -/
def collWF (p : Params) (hashF : Nat → Nat) (hv : Nat) : List (IKey × Val) → Bool
  | [] => true
  | (k, _) :: rest =>
      k.hv == hv && k.hv == hashF k.bs % p.hashMod &&
      !(rest.any (fun kv => kv.1.bs == k.bs)) && collWF p hashF hv rest

/-- Well-formedness of a leaf sitting at depth `depth` below the hash-path
prefix `pre` (a value `< indexLimit ^ depth` collecting the digits chosen
on the way down): the stored hash values agree with the position, with the
host hash function, and a collision leaf holds at least two pairs. -/
def leafWF (p : Params) (hashF : Nat → Nat) (l : Leaf) (depth pre : Nat) : Bool :=
  match l with
  | .flat k _ =>
      k.hv % p.indexLimit ^ depth == pre && k.hv < p.hashMod &&
      k.hv == hashF k.bs % p.hashMod
  | .collision hv kvs =>
      hv % p.indexLimit ^ depth == pre && hv < p.hashMod &&
      2 ≤ kvs.length && collWF p hashF hv kvs

mutual

/-- Structural well-formedness of a node at `depth` below prefix `pre`:
a table carries its own depth and exactly the prefix as its hash path,
stays within the depth limit, and its slots are well-formed. -/
def nodeWF (p : Params) (hashF : Nat → Nat) : Node → Nat → Nat → Bool
  | .leaf l, depth, pre => leafWF p hashF l depth pre
  | .table _ d hp slots, depth, pre =>
      d == depth && hp == pre && depth < p.depthLimit &&
      slotsWF p hashF slots depth pre

/-- Well-formedness of a slot list: indices are in range and distinct, and
each child is well-formed one level down, below the prefix extended by the
slot index. -/
def slotsWF (p : Params) (hashF : Nat → Nat) : List (Nat × Node) → Nat → Nat → Bool
  | [], _, _ => true
  | (i, n) :: rest, depth, pre =>
      i < p.indexLimit && !(rest.any (fun e => e.1 == i)) &&
      nodeWF p hashF n (depth + 1) (pre + i * p.indexLimit ^ depth) &&
      slotsWF p hashF rest depth pre

end

/-! ## The persistent flavor: `HamtFunctional` of package `hamt32` -/

/-- The `hamtBase`/`HamtFunctional` data structure: the root table (`none`
while the structure is empty), the pair count `nentries`, and the two
configuration flags derived from the table option. -/
structure HamtF where
  root : Option Node
  nentries : Nat
  grade : Bool
  startFixed : Bool
deriving Repr

/-- Table option constants of `hamt32` (`part_000`): `FixedTables = 0`,
`SparseTables = 1`, `HybridTables = 2`. -/
def FixedTables : Nat := 0

/-- SparseTables option of `hamt32`. -/
def SparseTables : Nat := 1

/-- HybridTables option of `hamt32`. -/
def HybridTables : Nat := 2

/-- Construction `NewFunctional(opt)` with `hamtBase.init(opt)`:
`HybridTables` sets `grade`, `FixedTables` sets `startFixed`. -/
def NewF (opt : Nat) : HamtF :=
  { root := none
    nentries := 0
    grade := opt == HybridTables
    startFixed := opt == FixedTables }

/-- `hamtBase.IsEmpty()`: the entry count is zero. -/
def HamtF.IsEmpty (h : HamtF) : Bool := h.nentries == 0

/-- The walk of `hamtBase.Get`: from table `n` at `depth`, read the slot at
the digit of the key's hash; an empty slot is a miss, a leaf is looked up,
a table is descended into.  A table child at `maxDepth` is a structural
error (`panic("SHOULD NOT HAPPEN")`), modelled as `none`; `fuel` counts the
remaining loop iterations (`depth = 0 .. maxDepth`), so running out of fuel
models the unreachable code after the loop. -/
def getLoop (p : Params) (k : IKey) : Nat → Nat → Node → Option (Val × Bool)
  | 0, _, _ => none
  | fuel + 1, depth, n =>
      match tget n (p.index k.hv depth) with
      | none => some (none, false)
      | some (.leaf l) => some (l.get k)
      | some (.table f d hp slots) =>
          if depth == p.maxDepth then none
          else getLoop p k fuel (depth + 1) (.table f d hp slots)

/-- `hamtBase.Get(key)`: the empty structure always misses, otherwise the
hash-indexed walk from the root. -/
def HamtF.Get (p : Params) (hashF : Nat → Nat) (h : HamtF) (bs : Nat) :
    Option (Val × Bool) :=
  if h.nentries == 0 then some (none, false)
  else
    match h.root with
    | none => none
    | some rt => getLoop p (p.newKey hashF bs) p.depthLimit 0 rt

/-- The loop of `hamtBase.find`: pushes every visited table onto `path`
(top of the stack first), and stops at an empty slot or a leaf, returning
the stack, the terminal leaf (or `none` for an empty slot) and the last
digit consumed.  A table child at `maxDepth` panics, modelled as `none`. -/
def findLoop (p : Params) (hv : Nat) :
    Nat → Nat → Node → List Node → Option (List Node × Option Leaf × Nat)
  | 0, _, _, _ => none
  | fuel + 1, depth, n, path =>
      let path' := n :: path
      let idx := p.index hv depth
      match tget n idx with
      | none => some (path', none, idx)
      | some (.leaf l) => some (path', some l, idx)
      | some (.table f d hp slots) =>
          if depth == p.maxDepth then none
          else findLoop p hv fuel (depth + 1) (.table f d hp slots) path'

/-- `hamtBase.find(k)`: the walk from the root (only called on a non-empty
structure; a missing root is a model artifact mapped to `none`). -/
def HamtF.find (p : Params) (h : HamtF) (k : IKey) :
    Option (List Node × Option Leaf × Nat) :=
  match h.root with
  | none => none
  | some rt => findLoop p k.hv p.depthLimit 0 rt []

/-- Merge a leaf and one extra pair into a collision leaf
(`newCollisionLeaf(append(leaf1.keyVals(), leaf2.keyVals()...))`). -/
def mergeLeaf (l : Leaf) (k : IKey) (v : Val) : Leaf :=
  match l with
  | .flat k0 v0 => .collision k0.hv [(k0, v0), (k, v)]
  | .collision hv kvs => .collision hv (kvs ++ [(k, v)])

/-- Construction of the interior table holding two leaves whose hashes
differ (`hamtBase.createTable`, delegating to `createFixedTable` or
`createSparseTable` by `startFixed`; modelled from the spec, section 4.4,
step "N is a Leaf whose stored hash differs"): the table at `depth` places
each leaf at its own digit; while the digits still collide it holds the
single deeper table, and at `maxDepth` equal digits merge into a collision
leaf.  The hash path is the prefix of the stored leaf's hash.  `fuel` is
`depthLimit - depth`; exhausted fuel (impossible for distinct hashes)
degenerates to a collision merge. -/
def createTable (p : Params) (sf : Bool) :
    Nat → Nat → Leaf → IKey → Val → Node
  | 0, depth, l1, k, v =>
      .table sf depth (l1.hash % p.indexLimit ^ depth)
        [(p.index l1.hash depth, .leaf (mergeLeaf l1 k v))]
  | fuel + 1, depth, l1, k, v =>
      let idx1 := p.index l1.hash depth
      let idx2 := p.index k.hv depth
      let hp := l1.hash % p.indexLimit ^ depth
      if idx1 == idx2 then
        let child : Node :=
          if depth == p.maxDepth then .leaf (mergeLeaf l1 k v)
          else createTable p sf fuel (depth + 1) l1 k v
        .table sf depth hp [(idx1, child)]
      else
        .table sf depth hp [(idx1, .leaf l1), (idx2, .leaf (.flat k v))]

/-- Root table creation (`createRootTable`, modelled from the spec: the
root is a FixedTable at depth 0) holding one fresh flat leaf. -/
def createRootTable (p : Params) (k : IKey) (v : Val) : Node :=
  .table true 0 0 [(p.index k.hv 0, .leaf (.flat k v))]

/-- `upgradeToFixedTable(hash, depth, entries)`: a fixed table with the
same depth, hash path and children (modelled from the spec, section 4.3). -/
def upgradeToFixedTable (n : Node) : Node :=
  match n with
  | .leaf _ => n
  | .table _ d hp slots => .table true d hp slots

/-- `downgradeToSparseTable(hash, depth, entries)`: a sparse table with the
same depth, hash path and children (modelled from the spec, section 4.3). -/
def downgradeToSparseTable (n : Node) : Node :=
  match n with
  | .leaf _ => n
  | .table _ d hp slots => .table false d hp slots


/-- `HamtFunctional.persist(oldTable, newTable, path)`: path-copying
reconstruction of the ancestor chain.  On an empty structure, or when
`oldTable` is the root — which, for the stacks produced by `find`, is the
case exactly when `path` is empty — the root is replaced outright.
Otherwise the parent is popped and copied, and the slot of `oldTable` in it
(the digit of `oldTable.Hash()` at the parent's depth, `path.len - 1`) is
removed when `newTable` is nil or replaced by `newTable`, recursing
upward with the old and new parent. -/
def persistF (p : Params) (h : HamtF) : Node → Option Node → List Node → HamtF
  | _, newT, [] => { h with root := if h.nentries == 0 then newT else newT }
  | oldT, newT, parent :: rest =>
      if h.nentries == 0 then { h with root := newT }
      else
        let parentIdx := p.index (thash oldT) rest.length
        let newParent :=
          match newT with
          | none => tremove parent parentIdx
          | some nt => treplace parent parentIdx nt
        persistF p h parent (some newParent) rest

/-- `HamtFunctional.Put(bs, v)`: on an empty structure a fresh root table
is created; otherwise the walk finds the terminal table `curTable` (the top
of the stack) and slot: an empty slot gets a fresh flat leaf (with an
upgrade when a graded table would reach `UpgradeThreshold`), a leaf with
the same hash absorbs the pair via `leaf.put`, and a leaf with a different
hash is pushed down into a freshly created subtree.  The entry count is
bumped iff a pair was added, and the ancestor chain is rebuilt with
`persist`.  Panics inside `find` propagate as `none`. -/
def HamtF.Put (p : Params) (hashF : Nat → Nat) (h : HamtF) (bs : Nat) (v : Val) :
    Option (HamtF × Bool) :=
  let k := p.newKey hashF bs
  if h.nentries == 0 then
    some ({ h with
              root := some (createRootTable p k v)
              nentries := h.nentries + 1 }, true)
  else
    match h.find p k with
    | none => none
    | some (path, leaf?, idx) =>
        match path with
        | [] => none
        | curTable :: rest =>
            let depth := rest.length
            let (newTable, added) :=
              match leaf? with
              | none =>
                  let nt0 :=
                    if h.grade && tlen curTable + 1 == UpgradeThreshold then
                      upgradeToFixedTable curTable
                    else curTable
                  (tinsert nt0 idx (.leaf (.flat k v)), true)
              | some leaf =>
                  if leaf.hash == k.hv then
                    let (newLeaf, added) := leaf.put k v
                    (treplace curTable idx (.leaf newLeaf), added)
                  else
                    (treplace curTable idx
                      (createTable p h.startFixed (p.depthLimit - (depth + 1))
                        (depth + 1) leaf k v), true)
            let nh := if added then { h with nentries := h.nentries + 1 } else h
            some (persistF p nh curTable (some newTable) rest, added)

/-- `HamtFunctional.Del(bs)`: an empty structure, an empty terminal slot,
or a leaf that does not hold the key return the original structure, `nil`
and `false`.  Otherwise the leaf shrinks via `leaf.del`; a surviving
replacement leaf is written back, a vanished flat leaf is removed from the
terminal table, which becomes nil when it empties and is downgraded when a
graded table lands exactly on `DowngradeThreshold`; the count is
decremented and the chain rebuilt with `persist`. -/
def HamtF.Del (p : Params) (hashF : Nat → Nat) (h : HamtF) (bs : Nat) :
    Option (HamtF × Val × Bool) :=
  if h.nentries == 0 then some (h, none, false)
  else
    let k := p.newKey hashF bs
    match h.find p k with
    | none => none
    | some (path, leaf?, idx) =>
        match path with
        | [] => none
        | curTable :: rest =>
            match leaf? with
            | none => some (h, none, false)
            | some leaf =>
                match leaf.del k with
                | (_, _, false) => some (h, none, false)
                | (newLeaf?, val, true) =>
                    let newTable : Option Node :=
                      match newLeaf? with
                      | some nl => some (treplace curTable idx (.leaf nl))
                      | none =>
                          let nt := tremove curTable idx
                          if tlen nt == 0 then none
                          else if h.grade && tlen nt == DowngradeThreshold then
                            some (downgradeToSparseTable nt)
                          else some nt
                    let nh := { h with nentries := h.nentries - 1 }
                    some (persistF p nh curTable newTable rest, val, true)

/-- Structures reachable by the public operations of the persistent
flavor: a fresh `NewFunctional(opt)` and the results of successful `Put`
and `Del` calls. -/
inductive ReachF (p : Params) (hashF : Nat → Nat) : HamtF → Prop
  | new (opt : Nat) : ReachF p hashF (NewF opt)
  | put {h h' : HamtF} {bs : Nat} {v : Val} {b : Bool} :
      ReachF p hashF h → h.Put p hashF bs v = some (h', b) → ReachF p hashF h'
  | del {h h' : HamtF} {bs : Nat} {v : Val} {b : Bool} :
      ReachF p hashF h → h.Del p hashF bs = some (h', v, b) → ReachF p hashF h'

/-- Well-formedness of a whole persistent structure: the trie holds
exactly `nentries` pairs, and a non-empty structure has a well-formed
table as its root.  (All operations treat a structure with
`nentries == 0` as empty without looking at its root, so nothing more is
demanded of an empty structure's root.) -/
def hamtWF (p : Params) (hashF : Nat → Nat) (h : HamtF) : Bool :=
  (kvCountO h.root == h.nentries) &&
  (h.nentries == 0 ||
    (match h.root with
     | none => false
     | some rt => nodeWF p hashF rt 0 0 && !(isLeafNode rt)))

/-! ## The transient flavor: `Hamt` of package `hamt64` -/

/-- The transient `Hamt` data structure of the `hamt64` package: a nilable
root table, the entry count, and the `grade` / `fullinit` configuration
flags.  In-place mutation is modelled by explicit state passing: every
operation returns the updated structure. -/
structure Hamt64 where
  root : Option Node
  nentries : Nat
  grade : Bool
  fullinit : Bool
deriving Repr

/-- Table option constants of `hamt64` (`part_001`): `HybridTables = 0`,
`CompTablesOnly = 1`, `FullTablesOnly = 2`. -/
def HybridTables64 : Nat := 0

/-- CompTablesOnly option of `hamt64`. -/
def CompTablesOnly : Nat := 1

/-- FullTablesOnly option of `hamt64`. -/
def FullTablesOnly : Nat := 2

/-- `hamt64.New(opt)`: `CompTablesOnly` clears both flags, `FullTablesOnly`
sets `fullinit`, anything else is `HybridTables` and sets `grade`. -/
def New64 (opt : Nat) : Hamt64 :=
  if opt == CompTablesOnly then ⟨none, 0, false, false⟩
  else if opt == FullTablesOnly then ⟨none, 0, false, true⟩
  else ⟨none, 0, true, false⟩

/-- `Hamt.IsEmpty()` of `hamt64`: the root is nil. -/
def Hamt64.IsEmpty (h : Hamt64) : Bool := h.root.isNone

/-- `Hamt.Get` of `hamt64`: nil root misses, otherwise the same
hash-indexed walk as the `hamt32` `Get` (the loop bodies are identical). -/
def Hamt64.Get (hashF : Nat → Nat) (h : Hamt64) (bs : Nat) : Option (Val × Bool) :=
  match h.root with
  | none => some (none, false)
  | some rt => getLoop p64 (p64.newKey hashF bs) p64.depthLimit 0 rt

/-- First entry of a table's `entries()` list. -/
def entry0 (n : Node) : Option Node :=
  match n with
  | .leaf _ => none
  | .table _ _ _ slots => (slots.head?).map (·.2)

/-- The walking loop of `Hamt.Put` of `hamt64`, one recursive call per
level (the in-place mutation of the current table is modelled by writing
the updated table back into its parent slot on the way out, which is what
the pointer aliasing achieves in Go).  An empty slot takes a fresh flat
leaf and the table is upgraded when a graded compressed table reaches
`upgradeThreshold`; a leaf with an equal hash absorbs the pair via
`leaf.put` (whose replace case mutates the leaf in place, modelled by the
unconditional write-back); a leaf with a different hash at `maxDepth` is
impossible and panics (`none`), above it the two leaves are pushed into a
fresh subtree; a table child is descended into.  Exhausting the loop also
panics. -/
def put64Go (grade fullinit : Bool) (k : IKey) (v : Val) :
    Nat → Nat → Node → Option (Node × Bool)
  | 0, _, _ => none
  | fuel + 1, depth, t =>
      let idx := p64.index k.hv depth
      match tget t idx with
      | none =>
          let t1 := tset t idx (some (.leaf (.flat k v)))
          let t2 :=
            if grade && !tfixed t1 && upgradeThreshold64 ≤ tlen t1 then
              upgradeToFixedTable t1
            else t1
          some (t2, true)
      | some (.leaf l) =>
          if l.hash == k.hv then
            let (nl, ins) := l.put k v
            some (tset t idx (some (.leaf nl)), ins)
          else if depth == p64.maxDepth then none
          else
            some (tset t idx
              (some (createTable p64 fullinit (p64.depthLimit - (depth + 1))
                (depth + 1) l k v)), true)
      | some (.table f d hp slots) =>
          match put64Go grade fullinit k v fuel (depth + 1) (.table f d hp slots) with
          | none => none
          | some (t2, ins) => some (tset t idx (some t2), ins)

/-- `Hamt.Put` of `hamt64`: an empty structure gets a fresh root table
(modelled from the spec: the root is born a full table); otherwise the
walk updates the root in place and `nentries` is bumped iff a pair was
inserted. -/
def Hamt64.Put (hashF : Nat → Nat) (h : Hamt64) (bs : Nat) (v : Val) :
    Option (Hamt64 × Bool) :=
  let k := p64.newKey hashF bs
  match h.root with
  | none =>
      some ({ h with
                root := some (createRootTable p64 k v)
                nentries := h.nentries + 1 }, true)
  | some rt =>
      match put64Go h.grade h.fullinit k v p64.depthLimit 0 rt with
      | none => none
      | some (rt2, ins) =>
          some ({ h with
                    root := some rt2
                    nentries := h.nentries + (if ins then 1 else 0) }, ins)

/-- The walking loop of `Hamt.Del` of `hamt64`: `none` is a miss (an empty
slot, a leaf without the key, or — like the Go loop falling through — an
exhausted loop).  On a hit the terminal table sheds the deleted pair, is
downgraded when a graded full table shrinks to `downgradeThreshold` or
below, and the result is handed back up; each level above writes the
updated child back and then performs one step of the collapse loop: a
child table left with exactly one entry that is a leaf is replaced — at
the slot given by the child's stored hash path — by that leaf (a sole
table child is never collapsed). -/
def del64Go (grade : Bool) (k : IKey) :
    Nat → Nat → Node → Option (Node × Val)
  | 0, _, _ => none
  | fuel + 1, depth, t =>
      let idx := p64.index k.hv depth
      match tget t idx with
      | none => none
      | some (.leaf l) =>
          match l.del k with
          | (_, _, false) => none
          | (nl?, val, true) =>
              let t1 := tset t idx (nl?.map .leaf)
              let t2 :=
                if grade && nl?.isNone && tfixed t1 &&
                    tlen t1 ≤ downgradeThreshold64 then
                  downgradeToSparseTable t1
                else t1
              some (t2, val)
      | some (.table f d hp slots) =>
          match del64Go grade k fuel (depth + 1) (.table f d hp slots) with
          | none => none
          | some (t2, val) =>
              let q1 := tset t idx (some t2)
              let q2 :=
                if tlen t2 == 1 then
                  match entry0 t2 with
                  | some (.leaf l) =>
                      tset q1 (p64.index (thash t2) depth) (some (.leaf l))
                  | _ => q1
                else q1
              some (q2, val)

/-- `Hamt.Del` of `hamt64`: a nil root or a missing key return the
structure unchanged with `nil` and `false`; on a hit the count drops by
one and a root that has emptied becomes nil. -/
def Hamt64.Del (hashF : Nat → Nat) (h : Hamt64) (bs : Nat) :
    Hamt64 × Val × Bool :=
  match h.root with
  | none => (h, none, false)
  | some rt =>
      match del64Go h.grade (p64.newKey hashF bs) p64.depthLimit 0 rt with
      | none => (h, none, false)
      | some (rt2, val) =>
          ({ h with
               root := if tlen rt2 == 0 then none else some rt2
               nentries := h.nentries - 1 }, val, true)

/-- Structures reachable by the public operations of the transient flavor. -/
inductive Reach64 (hashF : Nat → Nat) : Hamt64 → Prop
  | new (opt : Nat) : Reach64 hashF (New64 opt)
  | put {h h' : Hamt64} {bs : Nat} {v : Val} {b : Bool} :
      Reach64 hashF h → h.Put hashF bs v = some (h', b) → Reach64 hashF h'
  | del {h h' : Hamt64} {bs : Nat} {v : Val} {b : Bool} :
      Reach64 hashF h → h.Del hashF bs = (h', v, b) → Reach64 hashF h'

/-- Well-formedness of a whole transient structure: the root, when
present, is a well-formed table at depth 0 and the trie holds exactly
`nentries` pairs. -/
def hamt64WF (hashF : Nat → Nat) (h : Hamt64) : Bool :=
  (kvCountO h.root == h.nentries) &&
  (match h.root with
   | none => true
   | some rt => nodeWF p64 hashF rt 0 0 && !(isLeafNode rt))

mutual

/-- Check that every non-root interior table of a subtree has either at
least two children, or exactly one child which is itself a table (`depth`
is the node's depth; the root at depth 0 is exempt). -/
def twoPlus : Node → Nat → Bool
  | .leaf _, _ => true
  | .table _ _ _ slots, depth =>
      (depth == 0 || 2 ≤ slots.length ||
        (slots.length == 1 && !(slots.head?.map (fun e => isLeafNode e.2)).getD true))
      && twoPlusSlots slots depth

/-- Slotwise form of `twoPlus`. -/
def twoPlusSlots : List (Nat × Node) → Nat → Bool
  | [], _ => true
  | (_, n) :: rest, depth => twoPlus n (depth + 1) && twoPlusSlots rest depth

end


/-! ## The `Count` statistics traversal -/

mutual

/-- The `KeyVals` counter accumulated by the `countFn` closure of
`hamtBase.Count` over the `visit` traversal: a `flatLeaf` contributes 1,
a `collisionLeaf` contributes `len(x.kvs)`, a table only recurses into
its children. -/
def visitKeyVals : Node → Nat
  | .leaf (.flat _ _) => 1
  | .leaf (.collision _ kvs) => kvs.length
  | .table _ _ _ slots => visitKeyValsSlots slots

/-- `visitKeyVals` accumulated over the children of a table. -/
def visitKeyValsSlots : List (Nat × Node) → Nat
  | [] => 0
  | (_, n) :: rest => visitKeyVals n + visitKeyValsSlots rest

end

/-- The `KeyVals` field of the `Counts` record returned by
`hamtBase.Count()`: the `visit` traversal from the root (an absent root
visits nothing). -/
def HamtF.CountKeyVals (h : HamtF) : Nat :=
  match h.root with
  | none => 0
  | some rt => visitKeyVals rt


/-! ## A heap model of the persistent flavor

The pure embedding above cannot talk about *sharing*: Go's
`HamtFunctional.Put` promises never to mutate any table reachable from the
old root, updating by path copying (`persist`) instead.  To state and check
that frame property we model the heap explicitly: tables live in an
append-only store addressed by allocation order, a table slot holds either
a leaf value or the address of a child table, and `Put` is re-expressed so
that every table it produces is a fresh allocation (`alloc` appends; no
store cell is ever overwritten in place — exactly the discipline of the Go
code, which writes only through pointers returned by `createTable` /
`persist`). -/

/-- A slot of a stored table: an immediate leaf, or the address of a child
table in the store. -/
inductive SNode where
  | leaf (l : Leaf)
  | ref (a : Nat)
deriving Repr, DecidableEq

/-- A table as stored on the heap: the fixed/sparse tag, depth, hash path
and the children (logical content of the fixed or sparse representation,
as for `Node`). -/
structure STable where
  fixed : Bool
  depth : Nat
  hashPath : Nat
  slots : List (Nat × SNode)
deriving Repr, DecidableEq

/-- The heap: tables in allocation order; an address is an index. -/
abbrev Store := List STable

/-- Read a table from the store. -/
def sget? (st : Store) (a : Nat) : Option STable := st.get? a

/-- Slot lookup in a stored table. -/
def stslot (t : STable) (idx : Nat) : Option SNode :=
  (t.slots.find? (fun e => e.1 = idx)).map (·.2)

/-- Allocate a fresh table: append it and return its address.  Existing
cells are never touched. -/
def alloc (st : Store) (t : STable) : Store × Nat := (st ++ [t], st.length)

/-- `replaceSlot` on heap slot lists. -/
def replaceSlotS (idx : Nat) (c : SNode) :
    List (Nat × SNode) → List (Nat × SNode)
  | [] => []
  | e :: rest => if e.1 = idx then (idx, c) :: rest else e :: replaceSlotS idx c rest

/-- Every table reference stored anywhere in `st` points below `n`. -/
def tClosed (t : STable) (n : Nat) : Bool :=
  t.slots.all (fun e => match e.2 with
    | .leaf _ => true
    | .ref a => a < n)

/-- The store is closed: every stored reference stays inside the store. -/
def srefsClosed (st : Store) : Bool :=
  st.all (fun t => tClosed t st.length)

/-- The `Get` walk over the store (same loop as `getLoop`; a dangling
address or a table child at `maxDepth` aborts with `none`). -/
def sgetLoop (st : Store) (p : Params) (k : IKey) :
    Nat → Nat → STable → Option (Val × Bool)
  | 0, _, _ => none
  | fuel + 1, depth, t =>
      match stslot t (p.index k.hv depth) with
      | none => some (none, false)
      | some (.leaf l) => some (l.get k)
      | some (.ref a) =>
          if depth == p.maxDepth then none
          else
            match sget? st a with
            | none => none
            | some t2 => sgetLoop st p k fuel (depth + 1) t2

/-- `Get` from a root address. -/
def sGet (st : Store) (p : Params) (hashF : Nat → Nat) (rootA : Nat)
    (bs : Nat) : Option (Val × Bool) :=
  match sget? st rootA with
  | none => none
  | some rt => sgetLoop st p (p.newKey hashF bs) p.depthLimit 0 rt

/-- The `find` walk over the store, collecting the address stack. -/
def sfindLoop (st : Store) (p : Params) (hv : Nat) :
    Nat → Nat → Nat → List Nat → Option (List Nat × Option Leaf × Nat)
  | 0, _, _, _ => none
  | fuel + 1, depth, a, path =>
      match sget? st a with
      | none => none
      | some t =>
          let path2 := a :: path
          let idx := p.index hv depth
          match stslot t idx with
          | none => some (path2, none, idx)
          | some (.leaf l) => some (path2, some l, idx)
          | some (.ref a2) =>
              if depth == p.maxDepth then none
              else sfindLoop st p hv fuel (depth + 1) a2 path2

/-- `createTable` over the store: the chain of fresh tables is allocated
bottom-up and the address of the topmost one is returned. -/
def screateTable (p : Params) (sf : Bool) :
    Store → Nat → Nat → Leaf → IKey → Val → Store × Nat
  | st, 0, depth, l1, k, v =>
      alloc st ⟨sf, depth, l1.hash % p.indexLimit ^ depth,
        [(p.index l1.hash depth, .leaf (mergeLeaf l1 k v))]⟩
  | st, fuel + 1, depth, l1, k, v =>
      let idx1 := p.index l1.hash depth
      let idx2 := p.index k.hv depth
      let hp := l1.hash % p.indexLimit ^ depth
      if idx1 == idx2 then
        if depth == p.maxDepth then
          alloc st ⟨sf, depth, hp, [(idx1, .leaf (mergeLeaf l1 k v))]⟩
        else
          let (st1, a) := screateTable p sf st fuel (depth + 1) l1 k v
          alloc st1 ⟨sf, depth, hp, [(idx1, .ref a)]⟩
      else
        alloc st ⟨sf, depth, hp, [(idx1, .leaf l1), (idx2, .leaf (.flat k v))]⟩

/-- `persist` over the store: each ancestor on the path is copied into a
fresh allocation whose slot for the old child holds the new child's
address (or is removed when the child disappeared); the address of the new
root is returned. -/
def spersist (p : Params) : Store → Nat → Option Nat → List Nat →
    Option (Store × Option Nat)
  | st, _, newA?, [] => some (st, newA?)
  | st, oldA, newA?, parent :: rest =>
      match sget? st parent, sget? st oldA with
      | some pt, some ot =>
          let idx := p.index ot.hashPath rest.length
          let slots2 :=
            match newA? with
            | none => pt.slots.filter (fun e => ¬(e.1 = idx))
            | some na => replaceSlotS idx (.ref na) pt.slots
          let (st1, na2) := alloc st { pt with slots := slots2 }
          spersist p st1 parent (some na2) rest
      | _, _ => none

/-- The terminal-table update of the heap `Put`: the three `leaf?` cases
of `HamtFunctional.Put` (fresh insert with optional upgrade, absorb into a
leaf of equal hash, push-down into a freshly created subtree), each
allocating the updated table instead of mutating it. -/
def sPutTerminal (p : Params) (grade sf : Bool) (st : Store) (cur : STable)
    (idx : Nat) (leaf? : Option Leaf) (k : IKey) (v : Val) (depth : Nat) :
    Store × Nat × Bool :=
  match leaf? with
  | none =>
      let nt0 :=
        if grade && cur.slots.length + 1 == UpgradeThreshold then
          { cur with fixed := true }
        else cur
      let (st1, na) := alloc st
        { nt0 with slots := (idx, .leaf (.flat k v)) :: nt0.slots }
      (st1, na, true)
  | some leaf =>
      if leaf.hash == k.hv then
        let (newLeaf, added) := leaf.put k v
        let (st1, na) := alloc st
          { cur with slots := replaceSlotS idx (.leaf newLeaf) cur.slots }
        (st1, na, added)
      else
        let (st0, ca) := screateTable p sf st
          (p.depthLimit - (depth + 1)) (depth + 1) leaf k v
        let (st1, na) := alloc st0
          { cur with slots := replaceSlotS idx (.ref ca) cur.slots }
        (st1, na, true)

/-- `HamtFunctional.Put` over the store: the walk finds the terminal
table's address, the updated terminal table and any pushed-down subtree
are fresh allocations, and `spersist` freshly re-allocates the ancestor
chain.  Returns the extended store, the new root's address and the
`added` flag.  No pre-existing cell is written. -/
def sPut (p : Params) (hashF : Nat → Nat) (st : Store) (rootA : Nat)
    (grade sf : Bool) (bs : Nat) (v : Val) :
    Option (Store × Nat × Bool) :=
  let k := p.newKey hashF bs
  match sfindLoop st p k.hv p.depthLimit 0 rootA [] with
  | none => none
  | some (path, leaf?, idx) =>
      match path with
      | [] => none
      | curA :: rest =>
          match sget? st curA with
          | none => none
          | some cur =>
              let (st1, na, added) :=
                sPutTerminal p grade sf st cur idx leaf? k v rest.length
              match spersist p st1 curA (some na) rest with
              | none => none
              | some (st2, some r2) => some (st2, r2, added)
              | some (st2, none) => some (st2, na, added)


/-! ## Arithmetic facts about hash digits -/

theorem indexLimit_pos (p : Params) : 0 < p.indexLimit :=
  Nat.pos_pow_of_pos _ (by norm_num)

theorem pow_iL_pos (p : Params) (d : Nat) : 0 < p.indexLimit ^ d :=
  Nat.pos_pow_of_pos _ (indexLimit_pos p)

theorem index_lt (p : Params) (hv d : Nat) : p.index hv d < p.indexLimit :=
  Nat.mod_lt _ (indexLimit_pos p)

theorem mod_pow_digit (p : Params) (hv d : Nat) :
    hv % p.indexLimit ^ (d + 1) =
      hv % p.indexLimit ^ d + p.index hv d * p.indexLimit ^ d := by
  rw [Nat.mod_pow_succ, Params.index, Nat.mul_comm]

theorem index_eq_of_mod_eq (p : Params) {a b d : Nat}
    (h : a % p.indexLimit ^ (d + 1) = b % p.indexLimit ^ (d + 1)) :
    p.index a d = p.index b d := by
  have key : ∀ x : Nat,
      p.index x d = x % (p.indexLimit ^ d * p.indexLimit) / p.indexLimit ^ d := by
    intro x
    rw [Nat.mod_mul_right_div_self, Params.index]
  rw [key a, key b, ← pow_succ, h]

theorem index_mod_pow (p : Params) (hv : Nat) {dd d : Nat} (h : dd < d) :
    p.index (hv % p.indexLimit ^ d) dd = p.index hv dd := by
  apply index_eq_of_mod_eq
  rw [Nat.mod_mod_of_dvd]
  exact pow_dvd_pow _ h

theorem mod_add_high (p : Params) {pre : Nat} (i : Nat) {d : Nat}
    (hpre : pre < p.indexLimit ^ d) :
    (pre + i * p.indexLimit ^ d) % p.indexLimit ^ d = pre := by
  rw [Nat.add_mul_mod_self_right, Nat.mod_eq_of_lt hpre]

theorem index_add_high (p : Params) {pre i d : Nat}
    (hpre : pre < p.indexLimit ^ d) (hi : i < p.indexLimit) :
    p.index (pre + i * p.indexLimit ^ d) d = i := by
  rw [Params.index, Nat.add_mul_div_right _ _ (pow_iL_pos p d),
    Nat.div_eq_of_lt hpre, Nat.zero_add, Nat.mod_eq_of_lt hi]

theorem hashMod_pow (p : Params) : p.hashMod = p.indexLimit ^ p.depthLimit := rfl

theorem hash_eq_of_mod_eq (p : Params) {a b : Nat}
    (ha : a < p.hashMod) (hb : b < p.hashMod)
    (h : a % p.indexLimit ^ p.depthLimit = b % p.indexLimit ^ p.depthLimit) :
    a = b := by
  rw [hashMod_pow] at ha hb
  rwa [Nat.mod_eq_of_lt ha, Nat.mod_eq_of_lt hb] at h

/-! ## Facts about collision lists and leaf operations -/

theorem ikey_eq {a b : IKey} (h1 : a.bs = b.bs) (h2 : a.hv = b.hv) : a = b := by
  cases a; cases b; simp_all

theorem collWF_keyFacts {p : Params} {hashF : Nat → Nat} {hv : Nat}
    {kvs : List (IKey × Val)} (h : collWF p hashF hv kvs = true) :
    ∀ kv ∈ kvs, kv.1.hv = hv ∧ kv.1.hv = hashF kv.1.bs % p.hashMod := by
  induction kvs with
  | nil => simp
  | cons e rest ih =>
      obtain ⟨k0, v0⟩ := e
      simp only [collWF, Bool.and_eq_true, beq_iff_eq] at h
      intro kv hkv
      rcases List.mem_cons.1 hkv with h1 | h1
      · subst h1; exact ⟨h.1.1.1, h.1.1.2⟩
      · exact ih h.2 kv h1

theorem collWF_fresh {p : Params} {hashF : Nat → Nat} {hv : Nat}
    {kvs : List (IKey × Val)} {k : IKey} (h : collWF p hashF hv kvs = true)
    (hc : k.hv = hashF k.bs % p.hashMod)
    (habs : ∀ kv ∈ kvs, ¬(kv.1 = k)) :
    ∀ kv ∈ kvs, ¬(kv.1.bs = k.bs) := by
  intro kv hkv heq
  have hf := collWF_keyFacts h kv hkv
  apply habs kv hkv
  have h2 : kv.1.hv = k.hv := by rw [hf.2, heq, ← hc]
  exact ikey_eq heq h2

theorem collWF_append {p : Params} {hashF : Nat → Nat} {hv : Nat}
    {kvs : List (IKey × Val)} {k : IKey} {v : Val}
    (h : collWF p hashF hv kvs = true)
    (hk : k.hv = hv) (hc : k.hv = hashF k.bs % p.hashMod)
    (habs : ∀ kv ∈ kvs, ¬(kv.1 = k)) :
    collWF p hashF hv (kvs ++ [(k, v)]) = true := by
  induction kvs with
  | nil =>
      have hc' : hv = hashF k.bs % p.hashMod := by rw [← hk, hc]
      simp [collWF, hk, hc']
  | cons e rest ih =>
      obtain ⟨k0, v0⟩ := e
      simp only [collWF, Bool.and_eq_true, beq_iff_eq] at h
      obtain ⟨⟨⟨hhv, hcons⟩, hdis⟩, hrest⟩ := h
      have fresh : ¬(k0.bs = k.bs) := by
        refine @collWF_fresh p hashF hv ((k0, v0) :: rest) k
          ?_ hc habs (k0, v0) (by simp)
        simp only [collWF, Bool.and_eq_true, beq_iff_eq]
        exact ⟨⟨⟨hhv, hcons⟩, hdis⟩, hrest⟩
      show collWF p hashF hv ((k0, v0) :: (rest ++ [(k, v)])) = true
      simp only [collWF, Bool.and_eq_true, beq_iff_eq]
      refine ⟨⟨⟨hhv, hcons⟩, ?_⟩, ih hrest (fun kv hkv => habs kv (by simp [hkv]))⟩
      have hdis2 : ∀ kv ∈ rest, ¬(kv.1.bs = k0.bs) := by simpa using hdis
      simp only [Bool.not_eq_true', Bool.or_eq_false_iff, List.any_eq_false,
        beq_eq_false_iff_ne, ne_eq]
      intro x hx
      rcases List.mem_append.1 hx with hx | hx
      · simpa using hdis2 x hx
      · have hxk : x = (k, v) := by simpa using hx
        subst hxk
        simpa using fun hcon => fresh hcon.symm

theorem collWF_iff {p : Params} {hashF : Nat → Nat} {hv : Nat}
    {kvs : List (IKey × Val)} :
    collWF p hashF hv kvs = true ↔
      (∀ kv ∈ kvs, kv.1.hv = hv ∧ kv.1.hv = hashF kv.1.bs % p.hashMod) ∧
      kvs.Pairwise (fun a b => ¬(a.1.bs = b.1.bs)) := by
  induction kvs with
  | nil => simp [collWF]
  | cons e rest ih =>
      obtain ⟨k0, v0⟩ := e
      simp only [collWF, Bool.and_eq_true, beq_iff_eq, ih, List.pairwise_cons,
        List.mem_cons, Bool.not_eq_true', List.any_eq_false, beq_eq_false_iff_ne,
        ne_eq]
      constructor
      · rintro ⟨⟨⟨h1, h2⟩, h3⟩, h4, h5⟩
        refine ⟨?_, ?_, h5⟩
        · rintro kv (rfl | hkv)
          · exact ⟨h1, h2⟩
          · exact h4 kv hkv
        · intro b hb hcon
          exact h3 b hb hcon.symm
      · rintro ⟨h1, h2, h3⟩
        refine ⟨⟨⟨(h1 _ (Or.inl rfl)).1, (h1 _ (Or.inl rfl)).2⟩, ?_⟩,
          fun kv hkv => h1 kv (Or.inr hkv), h3⟩
        intro b hb hcon
        exact h2 b hb hcon.symm

theorem replaceKV_keys (k : IKey) (v : Val) (kvs : List (IKey × Val)) :
    (replaceKV k v kvs).map Prod.fst = kvs.map Prod.fst := by
  induction kvs with
  | nil => rfl
  | cons e rest ih =>
      simp only [replaceKV]
      split
      · rename_i hek
        simp [← hek]
      · simp [ih]

theorem replaceKV_length (k : IKey) (v : Val) (kvs : List (IKey × Val)) :
    (replaceKV k v kvs).length = kvs.length := by
  have := congrArg List.length (replaceKV_keys k v kvs)
  simpa using this

theorem collWF_replaceKV {p : Params} {hashF : Nat → Nat} {hv : Nat}
    {kvs : List (IKey × Val)} {k : IKey} {v : Val}
    (h : collWF p hashF hv kvs = true)
    (hk : k.hv = hv) (hc : k.hv = hashF k.bs % p.hashMod) :
    collWF p hashF hv (replaceKV k v kvs) = true := by
  induction kvs with
  | nil => exact h
  | cons e rest ih =>
      obtain ⟨k0, v0⟩ := e
      rw [collWF_iff] at h
      obtain ⟨hfacts, hpw⟩ := h
      simp only [replaceKV]
      split
      · rename_i hek
        rw [collWF_iff]
        rw [List.pairwise_cons] at hpw
        constructor
        · intro kv hkv
          rcases List.mem_cons.1 hkv with rfl | hkv
          · exact ⟨hk, hc⟩
          · exact hfacts kv (List.mem_cons_of_mem _ hkv)
        · refine List.pairwise_cons.2 ⟨?_, hpw.2⟩
          intro b hb
          have := hpw.1 b hb
          simpa [show (k0 : IKey).bs = k.bs from congrArg IKey.bs hek] using this
      · rename_i hek
        rw [collWF_iff]
        have hrest : collWF p hashF hv rest = true := by
          rw [collWF_iff]
          exact ⟨fun kv hkv => hfacts kv (List.mem_cons_of_mem _ hkv),
            (List.pairwise_cons.1 hpw).2⟩
        have hih := ih hrest
        rw [collWF_iff] at hih
        constructor
        · intro kv hkv
          rcases List.mem_cons.1 hkv with rfl | hkv
          · exact hfacts _ (List.mem_cons_self _ _)
          · exact hih.1 kv hkv
        · refine List.pairwise_cons.2 ⟨?_, hih.2⟩
          intro b hb
          have hmem : b.1 ∈ rest.map Prod.fst := by
            have := congrArg (fun l => b.1 ∈ l) (replaceKV_keys k v rest)
            simp only [eq_iff_iff] at this
            exact this.1 (List.mem_map_of_mem _ hb)
          obtain ⟨b', hb', hbeq⟩ := List.mem_map.1 hmem
          intro hcon
          have := (List.pairwise_cons.1 hpw).1 b' hb'
          apply this
          rw [← hbeq] at hcon
          exact hcon

theorem collWF_filter {p : Params} {hashF : Nat → Nat} {hv : Nat}
    {kvs : List (IKey × Val)} (h : collWF p hashF hv kvs = true)
    (pred : IKey × Val → Bool) :
    collWF p hashF hv (kvs.filter pred) = true := by
  rw [collWF_iff] at h ⊢
  exact ⟨fun kv hkv => h.1 kv (List.mem_of_mem_filter hkv),
    h.2.sublist (List.filter_sublist kvs)⟩

theorem find?_key_eq {kvs : List (IKey × Val)} {k : IKey} {kv : IKey × Val}
    (h : kvs.find? (fun e => e.1 = k) = some kv) : kv.1 = k := by
  have := List.find?_some h
  simpa using this

theorem find?_key_mem {kvs : List (IKey × Val)} {k : IKey} {kv : IKey × Val}
    (h : kvs.find? (fun e => e.1 = k) = some kv) : kv ∈ kvs :=
  List.mem_of_find?_eq_some h

theorem filter_ne_of_not_mem {kvs : List (IKey × Val)} {k : IKey}
    (h : ∀ e ∈ kvs, ¬(e.1 = k)) :
    kvs.filter (fun e => ¬(e.1 = k)) = kvs := by
  apply List.filter_eq_self.2
  intro e he
  simpa using h e he

theorem collWF_filter_length {p : Params} {hashF : Nat → Nat} {hv : Nat}
    {kvs : List (IKey × Val)} {k : IKey} {kv : IKey × Val}
    (h : collWF p hashF hv kvs = true)
    (hf : kvs.find? (fun e => e.1 = k) = some kv) :
    (kvs.filter (fun e => ¬(e.1 = k))).length + 1 = kvs.length := by
  induction kvs with
  | nil => simp at hf
  | cons e rest ih =>
      rw [collWF_iff] at h
      by_cases hek : e.1 = k
      · have hrest : ∀ e' ∈ rest, ¬(e'.1 = k) := by
          intro e' he' hcon
          have hpw := (List.pairwise_cons.1 h.2).1 e' he'
          apply hpw
          rw [hek, hcon]
        have hfil := filter_ne_of_not_mem hrest
        simp only [List.filter_cons]
        simp [hek, hfil]
        intro a b hab hcon
        exact hrest (a, b) hab hcon
      · have hrest : collWF p hashF hv rest = true := by
          rw [collWF_iff]
          exact ⟨fun kv2 hkv2 => h.1 kv2 (List.mem_cons_of_mem _ hkv2),
            (List.pairwise_cons.1 h.2).2⟩
        have hf2 : rest.find? (fun e => e.1 = k) = some kv := by
          rw [List.find?_cons] at hf
          simpa [hek] using hf
        have hih := ih hrest hf2
        simp only [List.filter_cons]
        simp only [hek, decide_not, List.length_cons]
        rw [if_pos (by simp [hek])]
        simp only [List.length_cons]
        simp only [decide_not] at hih
        omega

theorem find?_replaceKV_self {kvs : List (IKey × Val)} {k : IKey} (v : Val)
    (h : kvs.any (fun kv => kv.1 = k) = true) :
    (replaceKV k v kvs).find? (fun e => e.1 = k) = some (k, v) := by
  induction kvs with
  | nil => simp at h
  | cons e rest ih =>
      simp only [replaceKV]
      split
      · rename_i hek
        simp [List.find?_cons]
      · rename_i hek
        have h2 : rest.any (fun kv => kv.1 = k) = true := by
          simp only [List.any_cons, Bool.or_eq_true] at h
          rcases h with h | h
          · exact absurd (by simpa using h) hek
          · exact h
        rw [List.find?_cons]
        simp only [hek, decide_False]
        exact ih h2

theorem find?_append_fresh {kvs : List (IKey × Val)} {k : IKey} (v : Val)
    (h : kvs.any (fun kv => kv.1 = k) = false) :
    (kvs ++ [(k, v)]).find? (fun e => e.1 = k) = some (k, v) := by
  induction kvs with
  | nil => simp [List.find?_cons]
  | cons e rest ih =>
      simp only [List.any_cons, Bool.or_eq_false_iff] at h
      show ((e :: (rest ++ [(k, v)])).find? (fun e => e.1 = k)) = some (k, v)
      have hek : ¬(e.1 = k) := by simpa using h.1
      rw [List.find?_cons]
      simp only [hek, decide_False]
      exact ih h.2

theorem any_eq_find?_isSome {kvs : List (IKey × Val)} {k : IKey} :
    kvs.any (fun kv => kv.1 = k) = (kvs.find? (fun e => e.1 = k)).isSome := by
  induction kvs with
  | nil => simp
  | cons e rest ih =>
      rw [List.any_cons, List.find?_cons]
      by_cases hek : e.1 = k
      · simp [hek]
      · simp only [hek, decide_False, Bool.false_or]
        exact ih

theorem leafPut_get (l : Leaf) (k : IKey) (v : Val) :
    ((l.put k v).1).get k = (v, true) := by
  match l with
  | .flat k0 v0 =>
      by_cases hek : k0 = k
      · simp [Leaf.put, hek, Leaf.get]
      · simp only [Leaf.put, hek, if_false, Leaf.get]
        rw [List.find?_cons]
        simp [hek, List.find?_cons]
  | .collision hv kvs =>
      by_cases hany : kvs.any (fun kv => kv.1 = k) = true
      · have hput : (Leaf.collision hv kvs).put k v =
            (.collision hv (replaceKV k v kvs), false) := by
          simp [Leaf.put, hany]
        rw [hput]
        simp only [Leaf.get]
        rw [find?_replaceKV_self v hany]
      · have hput : (Leaf.collision hv kvs).put k v =
            (.collision hv (kvs ++ [(k, v)]), true) := by
          simp [Leaf.put, hany]
        rw [hput]
        simp only [Leaf.get]
        rw [find?_append_fresh v (Bool.eq_false_iff.2 hany)]

theorem leafGet_isSome (hv : Nat) (kvs : List (IKey × Val)) (k : IKey) :
    ((Leaf.collision hv kvs).get k).2 = (kvs.find? (fun e => e.1 = k)).isSome := by
  simp only [Leaf.get]
  match hfind : kvs.find? (fun e => e.1 = k) with
  | some kv => simp [hfind]
  | none => simp [hfind]

theorem leafPut_added (l : Leaf) (k : IKey) (v : Val) :
    (l.put k v).2 = !(l.get k).2 := by
  match l with
  | .flat k0 v0 =>
      by_cases hek : k0 = k
      · simp [Leaf.put, hek, Leaf.get]
      · simp [Leaf.put, hek, Leaf.get]
  | .collision hv kvs =>
      rw [leafGet_isSome]
      by_cases hany : kvs.any (fun kv => kv.1 = k) = true
      · have h2 := hany
        rw [any_eq_find?_isSome] at h2
        simp [Leaf.put, hany, h2]
      · have h2 := hany
        rw [any_eq_find?_isSome] at h2
        simp only [Bool.not_eq_true] at h2
        simp [Leaf.put, hany, h2]

theorem leafPut_count (l : Leaf) (k : IKey) (v : Val) :
    ((l.put k v).1).count = l.count + (if (l.put k v).2 then 1 else 0) := by
  match l with
  | .flat k0 v0 =>
      by_cases hek : k0 = k
      · simp [Leaf.put, hek, Leaf.count]
      · simp [Leaf.put, hek, Leaf.count]
  | .collision hv kvs =>
      by_cases hany : kvs.any (fun kv => kv.1 = k) = true
      · simp [Leaf.put, hany, Leaf.count, replaceKV_length]
      · simp [Leaf.put, hany, Leaf.count]

theorem leafGet_false_of_hash_ne {p : Params} {hashF : Nat → Nat} {l : Leaf}
    {dep pre : Nat} {k : IKey} (hwf : leafWF p hashF l dep pre = true)
    (hne : ¬(l.hash = k.hv)) : (l.get k).2 = false := by
  match l with
  | .flat k0 v0 =>
      simp only [Leaf.get]
      have hk0 : ¬(k0 = k) := by
        intro hcon
        exact hne (by rw [Leaf.hash, hcon])
      simp [hk0]
  | .collision hv kvs =>
      rw [leafGet_isSome]
      match hfind : kvs.find? (fun e => e.1 = k) with
      | none => simp [hfind]
      | some kv =>
          exfalso
          simp only [leafWF, Bool.and_eq_true, beq_iff_eq, decide_eq_true_eq] at hwf
          have hmem := find?_key_mem hfind
          have hkeq := find?_key_eq hfind
          have hfacts := (collWF_iff.1 hwf.2) |>.1 kv hmem
          apply hne
          rw [Leaf.hash, ← hfacts.1, hkeq]

theorem leafDel_deleted (l : Leaf) (k : IKey) : (l.del k).2.2 = (l.get k).2 := by
  match l with
  | .flat k0 v0 =>
      by_cases hek : k0 = k
      · simp [Leaf.del, hek, Leaf.get]
      · simp [Leaf.del, hek, Leaf.get]
  | .collision hv kvs =>
      rw [leafGet_isSome]
      simp only [Leaf.del]
      match hfind : kvs.find? (fun e => e.1 = k) with
      | none => simp [hfind]
      | some kv =>
          simp only [hfind, Option.isSome_some]
          split <;> rfl

theorem leafPut_wf {p : Params} {hashF : Nat → Nat} {l : Leaf} {dep pre : Nat}
    {k : IKey} {v : Val} (hwf : leafWF p hashF l dep pre = true)
    (hhash : l.hash = k.hv) (hcons : k.hv = hashF k.bs % p.hashMod) :
    leafWF p hashF ((l.put k v).1) dep pre = true := by
  match l with
  | .flat k0 v0 =>
      simp only [leafWF, Bool.and_eq_true, beq_iff_eq, decide_eq_true_eq] at hwf
      have hk0 : k0.hv = k.hv := hhash
      by_cases hek : k0 = k
      · simp only [Leaf.put, hek, if_true]
        simp only [leafWF, Bool.and_eq_true, beq_iff_eq, decide_eq_true_eq]
        exact ⟨⟨by rw [← hk0]; exact hwf.1.1, by rw [← hk0]; exact hwf.1.2⟩, hcons⟩
      · simp only [Leaf.put, hek, if_false]
        simp only [leafWF, Bool.and_eq_true, beq_iff_eq, decide_eq_true_eq]
        refine ⟨⟨⟨hwf.1.1, hwf.1.2⟩, by simp⟩, ?_⟩
        rw [collWF_iff]
        constructor
        · intro kv hkv
          rcases List.mem_cons.1 hkv with rfl | hkv
          · exact ⟨rfl, hwf.2⟩
          · have : kv = (k, v) := by simpa using hkv
            subst this
            exact ⟨hk0.symm, hcons⟩
        · refine List.pairwise_cons.2 ⟨?_, by simp⟩
          intro b hb
          have : b = (k, v) := by simpa using hb
          subst this
          intro hcon
          apply hek
          exact ikey_eq hcon (hk0)
  | .collision hv kvs =>
      simp only [leafWF, Bool.and_eq_true, beq_iff_eq, decide_eq_true_eq] at hwf
      have hkhv : k.hv = hv := by rw [← hhash]; rfl
      by_cases hany : kvs.any (fun kv => kv.1 = k) = true
      · have hput : (Leaf.collision hv kvs).put k v =
            (.collision hv (replaceKV k v kvs), false) := by
          simp [Leaf.put, hany]
        rw [hput]
        simp only [leafWF, Bool.and_eq_true, beq_iff_eq, decide_eq_true_eq]
        refine ⟨⟨⟨hwf.1.1.1, hwf.1.1.2⟩, ?_⟩, collWF_replaceKV hwf.2 hkhv hcons⟩
        have := hwf.1.2
        rwa [← replaceKV_length k v kvs] at this
      · have hput : (Leaf.collision hv kvs).put k v =
            (.collision hv (kvs ++ [(k, v)]), true) := by
          simp [Leaf.put, hany]
        rw [hput]
        simp only [leafWF, Bool.and_eq_true, beq_iff_eq, decide_eq_true_eq]
        have habs : ∀ kv ∈ kvs, ¬(kv.1 = k) := by
          intro kv hkv hcon
          apply hany
          rw [List.any_eq_true]
          exact ⟨kv, hkv, by simpa using hcon⟩
        refine ⟨⟨⟨hwf.1.1.1, hwf.1.1.2⟩, ?_⟩, collWF_append hwf.2 hkhv hcons habs⟩
        have := hwf.1.2
        simp only [List.length_append, List.length_cons, List.length_nil]
        omega

theorem leafDel_count {p : Params} {hashF : Nat → Nat} {l : Leaf} {dep pre : Nat}
    {k : IKey} {nl? : Option Leaf} {v : Val}
    (hwf : leafWF p hashF l dep pre = true)
    (hdel : l.del k = (nl?, v, true)) :
    (match nl? with | none => 0 | some nl => nl.count) + 1 = l.count := by
  match l with
  | .flat k0 v0 =>
      by_cases hek : k0 = k
      · simp only [Leaf.del, hek, if_true, Prod.mk.injEq] at hdel
        obtain ⟨rfl, -, -⟩ := hdel
        simp [Leaf.count]
      · simp [Leaf.del, hek] at hdel
  | .collision hv kvs =>
      simp only [leafWF, Bool.and_eq_true, beq_iff_eq, decide_eq_true_eq] at hwf
      simp only [Leaf.del] at hdel
      split at hdel
      · simp at hdel
      · rename_i kv hfind
        split at hdel
        · rename_i hfil
          simp only [Prod.mk.injEq] at hdel
          obtain ⟨rfl, -, -⟩ := hdel
          have hlen := collWF_filter_length hwf.2 hfind
          rw [hfil] at hlen
          simpa [Leaf.count] using hlen
        · rename_i k1 v1 hfil
          simp only [Prod.mk.injEq] at hdel
          obtain ⟨rfl, -, -⟩ := hdel
          have hlen := collWF_filter_length hwf.2 hfind
          rw [hfil] at hlen
          simpa [Leaf.count] using hlen
        · rename_i rest hfil1 hfil2
          simp only [Prod.mk.injEq] at hdel
          obtain ⟨rfl, -, -⟩ := hdel
          have hlen := collWF_filter_length hwf.2 hfind
          simpa [Leaf.count] using hlen

theorem leafDel_wf {p : Params} {hashF : Nat → Nat} {l : Leaf} {dep pre : Nat}
    {k : IKey} {nl : Leaf} {v : Val}
    (hwf : leafWF p hashF l dep pre = true)
    (hdel : l.del k = (some nl, v, true)) :
    leafWF p hashF nl dep pre = true := by
  match l with
  | .flat k0 v0 =>
      by_cases hek : k0 = k
      · simp [Leaf.del, hek] at hdel
      · simp [Leaf.del, hek] at hdel
  | .collision hv kvs =>
      simp only [leafWF, Bool.and_eq_true, beq_iff_eq, decide_eq_true_eq] at hwf
      simp only [Leaf.del] at hdel
      split at hdel
      · simp at hdel
      · rename_i kv hfind
        split at hdel
        · simp at hdel
        · rename_i k1 v1 hfil
          simp only [Prod.mk.injEq, Option.some.injEq] at hdel
          obtain ⟨rfl, -, -⟩ := hdel
          have hmem : (k1, v1) ∈ kvs := by
            apply List.mem_of_mem_filter (p := fun e => ¬(e.1 = k))
            rw [hfil]
            simp
          have hfacts := (collWF_iff.1 hwf.2).1 (k1, v1) hmem
          simp only [leafWF, Bool.and_eq_true, beq_iff_eq, decide_eq_true_eq]
          refine ⟨⟨?_, ?_⟩, hfacts.2⟩
          · rw [hfacts.1]
            exact hwf.1.1.1
          · rw [hfacts.1]
            exact hwf.1.1.2
        · rename_i rest hfil1 hfil2
          simp only [Prod.mk.injEq, Option.some.injEq] at hdel
          obtain ⟨rfl, -, -⟩ := hdel
          simp only [leafWF, Bool.and_eq_true, beq_iff_eq, decide_eq_true_eq]
          have hsub := collWF_filter hwf.2 (fun e => ¬(e.1 = k))
          refine ⟨⟨⟨hwf.1.1.1, hwf.1.1.2⟩, ?_⟩, hsub⟩
          match hshape : kvs.filter (fun e => ¬(e.1 = k)) with
          | [] => exact absurd hshape hfil1
          | [(a, b)] => exact absurd hshape (hfil2 a b)
          | a :: b :: t =>
              simp only [decide_not] at hshape ⊢
              rw [hshape]
              simp

/-! ## Facts about slot lists -/

theorem slotsWF_iff {p : Params} {hashF : Nat → Nat} {slots : List (Nat × Node)}
    {d pre : Nat} :
    slotsWF p hashF slots d pre = true ↔
      (∀ e ∈ slots, e.1 < p.indexLimit ∧
        nodeWF p hashF e.2 (d + 1) (pre + e.1 * p.indexLimit ^ d) = true) ∧
      slots.Pairwise (fun a b => ¬(a.1 = b.1)) := by
  induction slots with
  | nil => simp [slotsWF]
  | cons e rest ih =>
      obtain ⟨i, n⟩ := e
      simp only [slotsWF, Bool.and_eq_true, decide_eq_true_eq, ih,
        List.pairwise_cons, List.mem_cons, Bool.not_eq_true', List.any_eq_false,
        beq_eq_false_iff_ne, ne_eq]
      constructor
      · rintro ⟨⟨⟨hi, hfresh⟩, hn⟩, hrest1, hrest2⟩
        refine ⟨?_, ?_, hrest2⟩
        · rintro e2 (rfl | he2)
          · exact ⟨hi, hn⟩
          · exact hrest1 e2 he2
        · intro b hb hcon
          exact hfresh b hb (by simpa using hcon.symm)
      · rintro ⟨h1, h2, h3⟩
        refine ⟨⟨⟨(h1 _ (Or.inl rfl)).1, ?_⟩, (h1 _ (Or.inl rfl)).2⟩,
          fun e2 he2 => h1 e2 (Or.inr he2), h3⟩
        intro b hb hcon
        refine h2 b hb (Eq.symm ?_)
        simpa using hcon

theorem find?_slot_eq {slots : List (Nat × Node)} {idx : Nat} {e : Nat × Node}
    (h : slots.find? (fun e => e.1 = idx) = some e) : e.1 = idx := by
  have := List.find?_some h
  simpa using this

theorem slotsWF_found {p : Params} {hashF : Nat → Nat} {slots : List (Nat × Node)}
    {d pre idx : Nat} {e : Nat × Node}
    (hwf : slotsWF p hashF slots d pre = true)
    (h : slots.find? (fun e => e.1 = idx) = some e) :
    e.1 = idx ∧ e.1 < p.indexLimit ∧
      nodeWF p hashF e.2 (d + 1) (pre + idx * p.indexLimit ^ d) = true := by
  have hkeq := find?_slot_eq h
  have hmem := List.mem_of_find?_eq_some h
  have hfacts := (slotsWF_iff.1 hwf).1 e hmem
  exact ⟨hkeq, hfacts.1, by rw [← hkeq]; exact hfacts.2⟩

theorem find?_replaceSlot_self {slots : List (Nat × Node)} {idx : Nat} (c : Node)
    {e0 : Nat × Node} (h : slots.find? (fun e => e.1 = idx) = some e0) :
    (replaceSlot idx c slots).find? (fun e => e.1 = idx) = some (idx, c) := by
  induction slots with
  | nil => simp at h
  | cons e rest ih =>
      rw [List.find?_cons] at h
      simp only [replaceSlot]
      by_cases hek : e.1 = idx
      · simp [hek, List.find?_cons]
      · rw [if_neg hek, List.find?_cons]
        simp only [hek, decide_False]
        apply ih
        simpa [hek] using h

theorem find?_replaceSlot_ne {slots : List (Nat × Node)} {idx j : Nat} (c : Node)
    (hne : ¬(j = idx)) :
    (replaceSlot idx c slots).find? (fun e => e.1 = j) =
      slots.find? (fun e => e.1 = j) := by
  induction slots with
  | nil => rfl
  | cons e rest ih =>
      simp only [replaceSlot]
      by_cases hek : e.1 = idx
      · rw [if_pos hek, List.find?_cons, List.find?_cons]
        have h1 : ¬(idx = j) := fun hcon => hne hcon.symm
        have h2 : ¬(e.1 = j) := by rw [hek]; exact h1
        simp [h1, h2]
      · rw [if_neg hek, List.find?_cons, List.find?_cons]
        by_cases hej : e.1 = j
        · simp [hej]
        · simp only [hej, decide_False]
          exact ih

theorem length_replaceSlot (idx : Nat) (c : Node) (slots : List (Nat × Node)) :
    (replaceSlot idx c slots).length = slots.length := by
  induction slots with
  | nil => rfl
  | cons e rest ih =>
      simp only [replaceSlot]
      by_cases hek : e.1 = idx
      · simp [hek]
      · simp [hek, ih]

theorem kvCountSlots_replaceSlot {slots : List (Nat × Node)} {idx : Nat} {c : Node}
    {e0 : Nat × Node} (h : slots.find? (fun e => e.1 = idx) = some e0) :
    kvCountSlots (replaceSlot idx c slots) + kvCount e0.2 =
      kvCountSlots slots + kvCount c := by
  induction slots with
  | nil => simp at h
  | cons e rest ih =>
      rw [List.find?_cons] at h
      simp only [replaceSlot]
      by_cases hek : e.1 = idx
      · rw [if_pos hek]
        have he0 : e = e0 := by simpa [hek] using h
        subst he0
        obtain ⟨i, n⟩ := e
        simp only [kvCountSlots]
        omega
      · rw [if_neg hek]
        have h2 : rest.find? (fun e => e.1 = idx) = some e0 := by
          simpa [hek] using h
        have := ih h2
        obtain ⟨i, n⟩ := e
        simp only [kvCountSlots]
        omega

theorem mem_replaceSlot {slots : List (Nat × Node)} {idx : Nat} {c : Node}
    {e : Nat × Node} (he : e ∈ replaceSlot idx c slots) :
    e = (idx, c) ∨ e ∈ slots := by
  induction slots with
  | nil => simp [replaceSlot] at he
  | cons a rest ih =>
      simp only [replaceSlot] at he
      by_cases hak : a.1 = idx
      · rw [if_pos hak] at he
        rcases List.mem_cons.1 he with rfl | he
        · exact Or.inl rfl
        · exact Or.inr (List.mem_cons_of_mem _ he)
      · rw [if_neg hak] at he
        rcases List.mem_cons.1 he with rfl | he
        · exact Or.inr (List.mem_cons_self _ _)
        · rcases ih he with h2 | h2
          · exact Or.inl h2
          · exact Or.inr (List.mem_cons_of_mem _ h2)

theorem replaceSlot_keys (idx : Nat) (c : Node) (slots : List (Nat × Node)) :
    (replaceSlot idx c slots).map Prod.fst = slots.map Prod.fst := by
  induction slots with
  | nil => rfl
  | cons a rest ih =>
      simp only [replaceSlot]
      by_cases hak : a.1 = idx
      · simp [← hak]
      · rw [if_neg hak]
        simp [ih]

theorem slotsWF_replaceSlot {p : Params} {hashF : Nat → Nat}
    {slots : List (Nat × Node)} {d pre idx : Nat} {c : Node} {e0 : Nat × Node}
    (hwf : slotsWF p hashF slots d pre = true)
    (h : slots.find? (fun e => e.1 = idx) = some e0)
    (hc : nodeWF p hashF c (d + 1) (pre + idx * p.indexLimit ^ d) = true) :
    slotsWF p hashF (replaceSlot idx c slots) d pre = true := by
  have hidx := (slotsWF_found hwf h).2.1
  rw [(slotsWF_found hwf h).1] at hidx
  rw [slotsWF_iff] at hwf ⊢
  constructor
  · intro e he
    rcases mem_replaceSlot he with rfl | he
    · exact ⟨hidx, hc⟩
    · exact hwf.1 e he
  · have hpw : (slots.map Prod.fst).Pairwise (fun a b => ¬(a = b)) :=
      (List.pairwise_map).2 hwf.2
    have hpw2 : ((replaceSlot idx c slots).map Prod.fst).Pairwise
        (fun a b => ¬(a = b)) := by rw [replaceSlot_keys]; exact hpw
    exact (List.pairwise_map).1 hpw2

theorem slotsWF_cons {p : Params} {hashF : Nat → Nat} {slots : List (Nat × Node)}
    {d pre idx : Nat} {c : Node}
    (hwf : slotsWF p hashF slots d pre = true)
    (hfresh : slots.find? (fun e => e.1 = idx) = none)
    (hidx : idx < p.indexLimit)
    (hc : nodeWF p hashF c (d + 1) (pre + idx * p.indexLimit ^ d) = true) :
    slotsWF p hashF ((idx, c) :: slots) d pre = true := by
  rw [slotsWF_iff] at hwf ⊢
  have hf2 : ∀ e ∈ slots, ¬(e.1 = idx) := by
    intro e he
    simpa using List.find?_eq_none.1 hfresh e he
  constructor
  · intro e he
    rcases List.mem_cons.1 he with rfl | he
    · exact ⟨hidx, hc⟩
    · exact hwf.1 e he
  · exact List.pairwise_cons.2 ⟨fun b hb hcon => hf2 b hb (by simpa using hcon.symm), hwf.2⟩

theorem slotsWF_filter {p : Params} {hashF : Nat → Nat} {slots : List (Nat × Node)}
    {d pre : Nat} (hwf : slotsWF p hashF slots d pre = true)
    (pred : Nat × Node → Bool) :
    slotsWF p hashF (slots.filter pred) d pre = true := by
  rw [slotsWF_iff] at hwf ⊢
  exact ⟨fun e he => hwf.1 e (List.mem_of_mem_filter he),
    hwf.2.sublist (List.filter_sublist slots)⟩

theorem filterSlot_ne_of_not_mem {slots : List (Nat × Node)} {idx : Nat}
    (h : ∀ e ∈ slots, ¬(e.1 = idx)) :
    slots.filter (fun e => ¬(e.1 = idx)) = slots := by
  apply List.filter_eq_self.2
  intro e he
  simpa using h e he

theorem kvCountSlots_filter {p : Params} {hashF : Nat → Nat}
    {slots : List (Nat × Node)} {d pre idx : Nat} {e0 : Nat × Node}
    (hwf : slotsWF p hashF slots d pre = true)
    (h : slots.find? (fun e => e.1 = idx) = some e0) :
    kvCountSlots (slots.filter (fun e => ¬(e.1 = idx))) + kvCount e0.2 =
      kvCountSlots slots := by
  induction slots with
  | nil => simp at h
  | cons e rest ih =>
      rw [List.find?_cons] at h
      rw [slotsWF_iff] at hwf
      by_cases hek : e.1 = idx
      · have he0 : e = e0 := by simpa [hek] using h
        subst he0
        have hrest : ∀ e2 ∈ rest, ¬(e2.1 = idx) := by
          intro e2 he2 hcon
          have := (List.pairwise_cons.1 hwf.2).1 e2 he2
          rw [hek, hcon] at this
          exact this rfl
        have hfil := filterSlot_ne_of_not_mem hrest
        rw [List.filter_cons]
        rw [if_neg (by simpa using hek)]
        rw [hfil]
        obtain ⟨i, n⟩ := e
        simp only [kvCountSlots]
        omega
      · have h2 : rest.find? (fun e => e.1 = idx) = some e0 := by
          simpa [hek] using h
        have hwfr : slotsWF p hashF rest d pre = true := by
          rw [slotsWF_iff]
          exact ⟨fun e2 he2 => hwf.1 e2 (List.mem_cons_of_mem _ he2),
            (List.pairwise_cons.1 hwf.2).2⟩
        have := ih hwfr h2
        rw [List.filter_cons]
        rw [if_pos (by simpa using hek)]
        obtain ⟨i, n⟩ := e
        simp only [kvCountSlots]
        omega

theorem lengthSlots_filter {p : Params} {hashF : Nat → Nat}
    {slots : List (Nat × Node)} {d pre idx : Nat} {e0 : Nat × Node}
    (hwf : slotsWF p hashF slots d pre = true)
    (h : slots.find? (fun e => e.1 = idx) = some e0) :
    (slots.filter (fun e => ¬(e.1 = idx))).length + 1 = slots.length := by
  induction slots with
  | nil => simp at h
  | cons e rest ih =>
      rw [List.find?_cons] at h
      rw [slotsWF_iff] at hwf
      by_cases hek : e.1 = idx
      · have hrest : ∀ e2 ∈ rest, ¬(e2.1 = idx) := by
          intro e2 he2 hcon
          have := (List.pairwise_cons.1 hwf.2).1 e2 he2
          rw [hek, hcon] at this
          exact this rfl
        have hfil := filterSlot_ne_of_not_mem hrest
        rw [List.filter_cons, if_neg (by simpa using hek), hfil]
        simp
      · have h2 : rest.find? (fun e => e.1 = idx) = some e0 := by
          simpa [hek] using h
        have hwfr : slotsWF p hashF rest d pre = true := by
          rw [slotsWF_iff]
          exact ⟨fun e2 he2 => hwf.1 e2 (List.mem_cons_of_mem _ he2),
            (List.pairwise_cons.1 hwf.2).2⟩
        have := ih hwfr h2
        rw [List.filter_cons, if_pos (by simpa using hek)]
        simp only [List.length_cons]
        omega

theorem find?_filterSlot_ne {slots : List (Nat × Node)} {idx j : Nat}
    (hne : ¬(j = idx)) :
    (slots.filter (fun e => ¬(e.1 = idx))).find? (fun e => e.1 = j) =
      slots.find? (fun e => e.1 = j) := by
  induction slots with
  | nil => rfl
  | cons e rest ih =>
      rw [List.filter_cons]
      by_cases hek : e.1 = idx
      · rw [if_neg (by simpa using hek)]
        rw [List.find?_cons]
        have hej : ¬(e.1 = j) := by
          rw [hek]
          exact fun hcon => hne hcon.symm
        simp only [hej, decide_False]
        exact ih
      · rw [if_pos (by simpa using hek)]
        rw [List.find?_cons, List.find?_cons]
        by_cases hej : e.1 = j
        · simp [hej]
        · simp only [hej, decide_False]
          exact ih

theorem kvCount_le_kvCountSlots {slots : List (Nat × Node)} {e : Nat × Node}
    (he : e ∈ slots) : kvCount e.2 ≤ kvCountSlots slots := by
  induction slots with
  | nil => simp at he
  | cons a rest ih =>
      rcases List.mem_cons.1 he with rfl | he
      · obtain ⟨i, n⟩ := e
        simp only [kvCountSlots]
        omega
      · have := ih he
        obtain ⟨i, n⟩ := a
        simp only [kvCountSlots]
        omega

/-! ## The hash-indexed walk -/

/-- Well-formedness of a `find` stack relative to hash `hv`: the element
sitting above a tail `rest` is a table at depth `rest.length` (the bottom
of the stack is the root at depth 0), well-formed below the prefix of `hv`
at that depth. -/
def stackWF (p : Params) (hashF : Nat → Nat) (hv : Nat) : List Node → Prop
  | [] => True
  | t :: rest =>
      isLeafNode t = false ∧
      nodeWF p hashF t rest.length (hv % p.indexLimit ^ rest.length) = true ∧
      stackWF p hashF hv rest

/-- The spine property of a `find` stack: each parent holds the element
above it at the digit of `hv` at the parent's own depth. -/
inductive SpineF (p : Params) (hv : Nat) : List Node → Node → Prop
  | nil (cur : Node) : SpineF p hv [] cur
  | cons (parent : Node) (rest : List Node) (cur : Node) :
      SpineF p hv rest parent →
      tget parent (p.index hv rest.length) = some cur →
      SpineF p hv (parent :: rest) cur

theorem getLoop_eq_findLoop (p : Params) (k : IKey) :
    ∀ (fuel depth : Nat) (t : Node) (path : List Node),
      getLoop p k fuel depth t =
        (findLoop p k.hv fuel depth t path).map
          (fun r => match r.2.1 with
            | none => (none, false)
            | some l => l.get k) := by
  intro fuel
  induction fuel with
  | zero => intro depth t path; rfl
  | succ fuel ih =>
      intro depth t path
      simp only [getLoop, findLoop]
      match htget : tget t (p.index k.hv depth) with
      | none => simp
      | some (.leaf l) => simp
      | some (.table f d hp slots) =>
          by_cases hmax : depth == p.maxDepth
          · simp [hmax]
          · simp only [hmax, Bool.false_eq_true, if_false, ite_false]
            exact ih (depth + 1) (.table f d hp slots) (t :: path)

theorem findLoop_extends (p : Params) (hv : Nat) :
    ∀ (fuel depth : Nat) (t : Node) (path : List Node) (res : List Node × Option Leaf × Nat),
      findLoop p hv fuel depth t path = some res →
      ∃ stk : List Node, res.1 = stk ++ path ∧ stk ≠ [] := by
  intro fuel
  induction fuel with
  | zero => intro depth t path res h; exact absurd h (by simp [findLoop])
  | succ fuel ih =>
      intro depth t path res h
      simp only [findLoop] at h
      match htget : tget t (p.index hv depth) with
      | none =>
          rw [htget] at h
          obtain ⟨rfl⟩ := Option.some.inj h
          exact ⟨[t], rfl, by simp⟩
      | some (.leaf l) =>
          rw [htget] at h
          obtain ⟨rfl⟩ := Option.some.inj h
          exact ⟨[t], rfl, by simp⟩
      | some (.table f d hp slots) =>
          rw [htget] at h
          by_cases hmax : (depth == p.maxDepth) = true
          · simp [hmax] at h
          · simp only [hmax, Bool.false_eq_true, if_false, ite_false] at h
            obtain ⟨stk, hstk, hne⟩ := ih (depth + 1) (.table f d hp slots) (t :: path) res h
            exact ⟨stk ++ [t], by simpa using hstk, by simp⟩

theorem findLoop_spec (p : Params) (hashF : Nat → Nat) (hv : Nat) :
    ∀ (fuel depth : Nat) (t : Node) (path : List Node),
      depth + fuel = p.depthLimit →
      path.length = depth →
      isLeafNode t = false →
      nodeWF p hashF t depth (hv % p.indexLimit ^ depth) = true →
      SpineF p hv path t →
      stackWF p hashF hv path →
      ∃ (cur : Node) (rest : List Node) (leaf? : Option Leaf),
        findLoop p hv fuel depth t path =
          some (cur :: rest, leaf?, p.index hv rest.length) ∧
        SpineF p hv rest cur ∧
        stackWF p hashF hv (cur :: rest) ∧
        tget cur (p.index hv rest.length) = Option.map Node.leaf leaf? ∧
        (cur :: rest).getLast? = (t :: path).getLast? ∧
        rest.length + 1 ≤ p.depthLimit := by
  intro fuel
  induction fuel with
  | zero =>
      intro depth t path hfuel hlen hleaf hwf hsp hst
      match t, hleaf with
      | .table f d hp slots, _ =>
          simp only [nodeWF, Bool.and_eq_true, beq_iff_eq, decide_eq_true_eq] at hwf
          omega
  | succ fuel ih =>
      intro depth t path hfuel hlen hleaf hwf hsp hst
      match t, hleaf with
      | .table f d hp slots, _ =>
          have hwf' := hwf
          simp only [nodeWF, Bool.and_eq_true, beq_iff_eq, decide_eq_true_eq] at hwf'
          obtain ⟨⟨⟨hd, hhp⟩, hdl⟩, hslots⟩ := hwf'
          simp only [findLoop]
          match htget : tget (.table f d hp slots) (p.index hv depth) with
          | none =>
              refine ⟨.table f d hp slots, path, none, ?_, hsp, ⟨rfl, ?_, hst⟩, ?_, rfl, ?_⟩
              · rw [hlen]
              · rw [hlen]; exact hwf
              · rw [hlen]; exact htget
              · omega
          | some (.leaf l) =>
              refine ⟨.table f d hp slots, path, some l, ?_, hsp, ⟨rfl, ?_, hst⟩, ?_, rfl, ?_⟩
              · rw [hlen]
              · rw [hlen]; exact hwf
              · rw [hlen]; exact htget
              · omega
          | some (.table f2 d2 hp2 slots2) =>
              have hfind : ∃ e : Nat × Node, slots.find? (fun e => e.1 = p.index hv depth) = some e ∧
                  e.2 = .table f2 d2 hp2 slots2 := by
                simp only [tget] at htget
                obtain ⟨e, he1, he2⟩ := Option.map_eq_some'.1 htget
                exact ⟨e, he1, he2⟩
              obtain ⟨e, hfind, he2⟩ := hfind
              have hfound := slotsWF_found hslots hfind
              rw [he2] at hfound
              have hchildWF := hfound.2.2
              have hpre : hv % p.indexLimit ^ depth + p.index hv depth * p.indexLimit ^ depth =
                  hv % p.indexLimit ^ (depth + 1) := (mod_pow_digit p hv depth).symm
              rw [hpre] at hchildWF
              have hchild' := hchildWF
              simp only [nodeWF, Bool.and_eq_true, beq_iff_eq, decide_eq_true_eq] at hchild'
              have hdepth1 : depth + 1 < p.depthLimit := hchild'.1.2
              have hmax : ¬((depth == p.maxDepth) = true) := by
                simp only [beq_iff_eq, Params.maxDepth]
                omega
              have hres := ih (depth + 1) (.table f2 d2 hp2 slots2)
                (.table f d hp slots :: path) (by omega) (by simp [hlen])
                (by simp [isLeafNode]) hchildWF
                (SpineF.cons _ _ _ hsp (by rw [hlen]; exact htget))
                ⟨rfl, by rw [hlen]; exact hwf, hst⟩
              obtain ⟨cur, rest, leaf?, h1, h2, h3, h4, h5, h6⟩ := hres
              refine ⟨cur, rest, leaf?, ?_, h2, h3, h4, ?_, h6⟩
              · show (if (depth == p.maxDepth) = true then none
                    else findLoop p hv fuel (depth + 1) (Node.table f2 d2 hp2 slots2)
                      (Node.table f d hp slots :: path)) =
                  some (cur :: rest, leaf?, p.index hv rest.length)
                rw [if_neg hmax]
                exact h1
              · rw [h5, List.getLast?_cons_cons]

theorem getLoop_step (p : Params) (k : IKey) {fuel depth : Nat} {t child : Node}
    (ht : tget t (p.index k.hv depth) = some child)
    (hchild : isLeafNode child = false)
    (hmax : ¬(depth = p.maxDepth)) :
    getLoop p k (fuel + 1) depth t = getLoop p k fuel (depth + 1) child := by
  cases child with
  | leaf l => simp [isLeafNode] at hchild
  | table f d hp slots =>
      simp only [getLoop, ht]
      rw [if_neg (by simpa using hmax)]

theorem getLoop_leaf (p : Params) (k : IKey) {fuel depth : Nat} {t : Node}
    {l : Leaf} (ht : tget t (p.index k.hv depth) = some (.leaf l)) :
    getLoop p k (fuel + 1) depth t = some (l.get k) := by
  simp [getLoop, ht]

theorem getLoop_miss (p : Params) (k : IKey) {fuel depth : Nat} {t : Node}
    (ht : tget t (p.index k.hv depth) = none) :
    getLoop p k (fuel + 1) depth t = some (none, false) := by
  simp [getLoop, ht]

theorem persistF_nil (p : Params) (h : HamtF) (oldT : Node) (nt? : Option Node) :
    persistF p h oldT nt? [] = { h with root := nt? } := by
  simp [persistF]

theorem persistF_cons (p : Params) (h : HamtF) (oldT : Node) (nt? : Option Node)
    (parent : Node) (rest : List Node) (hne : ¬(h.nentries = 0)) :
    persistF p h oldT nt? (parent :: rest) =
      persistF p h parent
        (some (match nt? with
          | none => tremove parent (p.index (thash oldT) rest.length)
          | some nt => treplace parent (p.index (thash oldT) rest.length) nt))
        rest := by
  simp only [persistF]
  rw [if_neg (by simpa using hne)]

theorem persistF_spec (p : Params) (hashF : Nat → Nat) (hv : Nat) :
    ∀ (rest : List Node) (cur : Node) (nt? : Option Node) (h : HamtF),
      ¬(h.nentries = 0) →
      SpineF p hv rest cur →
      stackWF p hashF hv (cur :: rest) →
      (∀ nt, nt? = some nt → isLeafNode nt = false ∧
        nodeWF p hashF nt rest.length (hv % p.indexLimit ^ rest.length) = true) →
      ∃ r? : Option Node,
        persistF p h cur nt? rest = { h with root := r? } ∧
        kvCountO r? + kvCount cur =
          kvCountO ((cur :: rest).getLast?) + kvCountO nt? ∧
        (∀ nt, nt? = some nt →
          ∃ R : Node, r? = some R ∧ isLeafNode R = false ∧
            nodeWF p hashF R 0 (hv % p.indexLimit ^ 0) = true ∧
            ∀ (k : IKey), k.hv = hv →
              getLoop p k p.depthLimit 0 R =
                getLoop p k (p.depthLimit - rest.length) rest.length nt) ∧
        (nt? = none → rest = [] → r? = none) ∧
        (nt? = none → ¬(rest = []) → ∃ R : Node, r? = some R ∧
          isLeafNode R = false ∧ nodeWF p hashF R 0 (hv % p.indexLimit ^ 0) = true) := by
  intro rest
  induction rest with
  | nil =>
      intro cur nt? h hne hsp hst hnt
      refine ⟨nt?, persistF_nil p h cur nt?, ?_, ?_, fun hnone _ => hnone,
        fun _ hcon => absurd rfl hcon⟩
      · simp only [List.getLast?_singleton, kvCountO_some]
        omega
      · intro nt hnt2
        subst hnt2
        exact ⟨nt, rfl, (hnt nt rfl).1, by simpa using (hnt nt rfl).2,
          fun k hk => by simp⟩
  | cons parent rs ih =>
      intro cur nt? h hne hsp hst hnt
      obtain ⟨hcleaf, hcwf, hpleaf, hpwf, hstrs⟩ :
          isLeafNode cur = false ∧
          nodeWF p hashF cur (rs.length + 1)
            (hv % p.indexLimit ^ (rs.length + 1)) = true ∧
          isLeafNode parent = false ∧
          nodeWF p hashF parent rs.length (hv % p.indexLimit ^ rs.length) = true ∧
          stackWF p hashF hv rs := by
        obtain ⟨h1, h2, h3, h4, h5⟩ := hst
        exact ⟨h1, by simpa using h2, h3, h4, h5⟩
      cases hsp with
      | cons _ _ _ hsp' htg =>
      match cur, hcleaf with
      | .table fc dc hpc slotsc, _ =>
      match parent, hpleaf with
      | .table fp dp hpp slotsp, _ =>
          have hcwf2 := hcwf
          simp only [nodeWF, Bool.and_eq_true, beq_iff_eq, decide_eq_true_eq] at hcwf2
          have hpwf2 := hpwf
          simp only [nodeWF, Bool.and_eq_true, beq_iff_eq, decide_eq_true_eq] at hpwf2
          have hpidx : p.index (thash (Node.table fc dc hpc slotsc)) rs.length =
              p.index hv rs.length := by
            simp only [thash]
            rw [hcwf2.1.1.2]
            exact index_mod_pow p hv (by omega)
          have htg2 : ∃ e : Nat × Node,
              slotsp.find? (fun e => e.1 = p.index hv rs.length) = some e ∧
              e.2 = Node.table fc dc hpc slotsc := by
            simp only [tget] at htg
            obtain ⟨e, he1, he2⟩ := Option.map_eq_some'.1 htg
            exact ⟨e, he1, he2⟩
          obtain ⟨e, hfind, he2⟩ := htg2
          have hpre : hv % p.indexLimit ^ rs.length +
              p.index hv rs.length * p.indexLimit ^ rs.length =
              hv % p.indexLimit ^ (rs.length + 1) := (mod_pow_digit p hv rs.length).symm
          cases nt? with
          | none =>
              -- deletion of the whole subtree below the parent slot
              have hnpwf : nodeWF p hashF
                  (tremove (Node.table fp dp hpp slotsp) (p.index hv rs.length))
                  rs.length (hv % p.indexLimit ^ rs.length) = true := by
                simp only [tremove, nodeWF, Bool.and_eq_true, beq_iff_eq,
                  decide_eq_true_eq]
                exact ⟨⟨⟨hpwf2.1.1.1, hpwf2.1.1.2⟩, hpwf2.1.2⟩,
                  slotsWF_filter hpwf2.2 _⟩
              have hnpcount : kvCount
                    (tremove (Node.table fp dp hpp slotsp) (p.index hv rs.length)) +
                  kvCount (Node.table fc dc hpc slotsc) =
                  kvCount (Node.table fp dp hpp slotsp) := by
                have h5 := kvCountSlots_filter hpwf2.2 hfind
                rw [he2, kvCount_table] at h5
                simp only [tremove, kvCount_table]
                omega
              have hres := ih (Node.table fp dp hpp slotsp)
                (some (tremove (Node.table fp dp hpp slotsp) (p.index hv rs.length)))
                h hne hsp' ⟨rfl, hpwf, hstrs⟩
                (fun nt2 hnt2 => by
                  obtain rfl : nt2 = _ := by simpa using hnt2.symm
                  exact ⟨by simp [tremove, isLeafNode], hnpwf⟩)
              obtain ⟨r?, hreq, hrcount, hrsome, -, -⟩ := hres
              obtain ⟨R, hr, hRleaf, hRwf, -⟩ := hrsome _ rfl
              refine ⟨r?, ?_, ?_, fun _ hcon => by simp at hcon,
                fun _ hcon => by simp at hcon, fun _ _ => ⟨R, hr, hRleaf, hRwf⟩⟩
              · rw [persistF_cons p h _ _ _ _ hne]
                rw [show (match (none : Option Node) with
                    | none => tremove (Node.table fp dp hpp slotsp)
                        (p.index (thash (Node.table fc dc hpc slotsc)) rs.length)
                    | some nt => treplace (Node.table fp dp hpp slotsp)
                        (p.index (thash (Node.table fc dc hpc slotsc)) rs.length) nt) =
                    tremove (Node.table fp dp hpp slotsp) (p.index hv rs.length)
                  from by rw [hpidx]]
                exact hreq
              · simp only [kvCountO_none, kvCountO_some] at hrcount ⊢
                rw [List.getLast?_cons_cons]
                omega
          | some nt =>
              obtain ⟨hntleaf, hntwf⟩ := hnt nt rfl
              have hntwf2 : nodeWF p hashF nt (rs.length + 1)
                  (hv % p.indexLimit ^ (rs.length + 1)) = true := by
                simpa using hntwf
              have hnpwf : nodeWF p hashF
                  (treplace (Node.table fp dp hpp slotsp) (p.index hv rs.length) nt)
                  rs.length (hv % p.indexLimit ^ rs.length) = true := by
                simp only [treplace, nodeWF, Bool.and_eq_true, beq_iff_eq,
                  decide_eq_true_eq]
                refine ⟨⟨⟨hpwf2.1.1.1, hpwf2.1.1.2⟩, hpwf2.1.2⟩, ?_⟩
                apply slotsWF_replaceSlot hpwf2.2 hfind
                rw [hpre]
                exact hntwf2
              have hnpcount : kvCount
                    (treplace (Node.table fp dp hpp slotsp) (p.index hv rs.length) nt) +
                  kvCount (Node.table fc dc hpc slotsc) =
                  kvCount (Node.table fp dp hpp slotsp) + kvCount nt := by
                have h5 := kvCountSlots_replaceSlot (c := nt) hfind
                rw [he2, kvCount_table] at h5
                simp only [treplace, kvCount_table]
                omega
              have hnpget : tget
                  (treplace (Node.table fp dp hpp slotsp) (p.index hv rs.length) nt)
                  (p.index hv rs.length) = some nt := by
                simp only [treplace, tget]
                rw [find?_replaceSlot_self nt hfind]
                rfl
              have hres := ih (Node.table fp dp hpp slotsp)
                (some (treplace (Node.table fp dp hpp slotsp) (p.index hv rs.length) nt))
                h hne hsp' ⟨rfl, hpwf, hstrs⟩
                (fun nt2 hnt2 => by
                  obtain rfl : nt2 = _ := by simpa using hnt2.symm
                  exact ⟨by simp [treplace, isLeafNode], hnpwf⟩)
              obtain ⟨r?, hreq, hrcount, hrsome, -, -⟩ := hres
              obtain ⟨R, hr, hRleaf, hRwf, hRwalk⟩ := hrsome _ rfl
              refine ⟨r?, ?_, ?_, fun nt2 hnt2 => ?_,
                fun hcon _ => by simp at hcon, fun hcon _ => by simp at hcon⟩
              · rw [persistF_cons p h _ _ _ _ hne]
                rw [show (match (some nt : Option Node) with
                    | none => tremove (Node.table fp dp hpp slotsp)
                        (p.index (thash (Node.table fc dc hpc slotsc)) rs.length)
                    | some nt => treplace (Node.table fp dp hpp slotsp)
                        (p.index (thash (Node.table fc dc hpc slotsc)) rs.length) nt) =
                    treplace (Node.table fp dp hpp slotsp) (p.index hv rs.length) nt
                  from by rw [hpidx]]
                exact hreq
              · simp only [kvCountO_none, kvCountO_some] at hrcount ⊢
                rw [List.getLast?_cons_cons]
                omega
              · obtain rfl : nt = nt2 := by simpa using hnt2
                refine ⟨R, hr, hRleaf, hRwf, fun k hk => ?_⟩
                rw [hRwalk k hk]
                have hlen : rs.length < p.depthLimit := hpwf2.1.2
                have hfuel : p.depthLimit - rs.length = (p.depthLimit - (rs.length + 1)) + 1 := by
                  omega
                rw [hfuel]
                have hmax : ¬(rs.length = p.maxDepth) := by
                  match nt, hntleaf with
                  | .table fn dn hpn slotsn, _ =>
                      have := hntwf2
                      simp only [nodeWF, Bool.and_eq_true, beq_iff_eq,
                        decide_eq_true_eq] at this
                      simp only [Params.maxDepth]
                      omega
                rw [getLoop_step p k (by rw [hk]; exact hnpget) hntleaf hmax]
                simp only [List.length_cons]

theorem leafWF_pre {p : Params} {hashF : Nat → Nat} {l : Leaf} {d pre : Nat}
    (h : leafWF p hashF l d pre = true) :
    l.hash % p.indexLimit ^ d = pre ∧ l.hash < p.hashMod := by
  match l with
  | .flat k0 v0 =>
      simp only [leafWF, Bool.and_eq_true, beq_iff_eq, decide_eq_true_eq] at h
      exact ⟨h.1.1, h.1.2⟩
  | .collision hv kvs =>
      simp only [leafWF, Bool.and_eq_true, beq_iff_eq, decide_eq_true_eq] at h
      exact ⟨h.1.1.1, h.1.1.2⟩

theorem leafWF_extend {p : Params} {hashF : Nat → Nat} {l : Leaf} {d pre : Nat}
    (h : leafWF p hashF l d pre = true) :
    leafWF p hashF l (d + 1)
      (pre + p.index l.hash d * p.indexLimit ^ d) = true := by
  have hpre := (leafWF_pre h).1
  match l with
  | .flat k0 v0 =>
      simp only [leafWF, Bool.and_eq_true, beq_iff_eq, decide_eq_true_eq] at h ⊢
      refine ⟨⟨?_, h.1.2⟩, h.2⟩
      rw [mod_pow_digit]
      simp only [Leaf.hash] at hpre
      rw [hpre]
      simp only [Leaf.hash]
  | .collision hv kvs =>
      simp only [leafWF, Bool.and_eq_true, beq_iff_eq, decide_eq_true_eq] at h ⊢
      refine ⟨⟨⟨?_, h.1.1.2⟩, h.1.2⟩, h.2⟩
      rw [mod_pow_digit]
      simp only [Leaf.hash] at hpre
      rw [hpre]
      simp only [Leaf.hash]

theorem mergeLeaf_count (l : Leaf) (k : IKey) (v : Val) :
    (mergeLeaf l k v).count = l.count + 1 := by
  match l with
  | .flat k0 v0 => rfl
  | .collision hv kvs => simp [mergeLeaf, Leaf.count]

theorem createTable_spec (p : Params) (hashF : Nat → Nat) (sf : Bool) :
    ∀ (fuel d : Nat) (l1 : Leaf) (k : IKey) (v : Val) (pre : Nat),
      d + fuel = p.depthLimit →
      d < p.depthLimit →
      leafWF p hashF l1 d pre = true →
      k.hv % p.indexLimit ^ d = pre →
      k.hv < p.hashMod →
      k.hv = hashF k.bs % p.hashMod →
      ¬(l1.hash = k.hv) →
      nodeWF p hashF (createTable p sf fuel d l1 k v) d pre = true ∧
      isLeafNode (createTable p sf fuel d l1 k v) = false ∧
      kvCount (createTable p sf fuel d l1 k v) = l1.count + 1 ∧
      getLoop p k fuel d (createTable p sf fuel d l1 k v) = some (v, true) := by
  intro fuel
  induction fuel with
  | zero =>
      intro d l1 k v pre hfuel hdlt hl1 hkpre hklt hkcons hne
      omega
  | succ fuel ih =>
      intro d l1 k v pre hfuel hdlt hl1 hkpre hklt hkcons hne
      have hl1pre := (leafWF_pre hl1).1
      have hl1lt := (leafWF_pre hl1).2
      have hidx1lt := index_lt p l1.hash d
      have hidx2lt := index_lt p k.hv d
      simp only [createTable]
      by_cases heq : (p.index l1.hash d == p.index k.hv d) = true
      · -- digits still collide
        rw [if_pos heq]
        have heq2 : p.index l1.hash d = p.index k.hv d := by simpa using heq
        have hagree : l1.hash % p.indexLimit ^ (d + 1) =
            k.hv % p.indexLimit ^ (d + 1) := by
          rw [mod_pow_digit, mod_pow_digit, hl1pre, hkpre, heq2]
        have hdne : ¬(d = p.maxDepth) := by
          intro hcon
          apply hne
          apply hash_eq_of_mod_eq p hl1lt hklt
          have : d + 1 = p.depthLimit := by
            simp only [Params.maxDepth] at hcon
            omega
          rw [← this]
          exact hagree
        rw [if_neg (by simpa using hdne)]
        have hdlt2 : d + 1 < p.depthLimit := by
          simp only [Params.maxDepth] at hdne
          omega
        have hext := leafWF_extend hl1
        rw [heq2] at hext
        have hih := ih (d + 1) l1 k v (pre + p.index k.hv d * p.indexLimit ^ d)
          (by omega) hdlt2 hext
          (by rw [mod_pow_digit, hkpre]) hklt hkcons hne
        obtain ⟨hihwf, hihleaf, hihcount, hihget⟩ := hih
        refine ⟨?_, rfl, ?_, ?_⟩
        · simp only [nodeWF, Bool.and_eq_true, beq_iff_eq, decide_eq_true_eq]
          refine ⟨⟨⟨by trivial, hl1pre⟩, hdlt⟩, ?_⟩
          simp only [slotsWF, Bool.and_eq_true, decide_eq_true_eq, List.any_nil,
            Bool.not_false]
          refine ⟨⟨⟨hidx1lt, by trivial⟩, ?_⟩, by trivial⟩
          rw [heq2]
          exact hihwf
        · rw [kvCount_table, kvCountSlots_cons, kvCountSlots_nil]
          simpa using hihcount
        · have hstep : tget (Node.table sf d (l1.hash % p.indexLimit ^ d)
              [(p.index l1.hash d, createTable p sf fuel (d + 1) l1 k v)])
              (p.index k.hv d) = some (createTable p sf fuel (d + 1) l1 k v) := by
            simp only [tget, heq2, List.find?_cons, decide_True]
            rfl
          rw [getLoop_step p k hstep hihleaf hdne]
          exact hihget
      · -- the digits differ here
        rw [if_neg heq]
        have hne2 : ¬(p.index l1.hash d = p.index k.hv d) := by simpa using heq
        refine ⟨?_, rfl, ?_, ?_⟩
        · simp only [nodeWF, Bool.and_eq_true, beq_iff_eq, decide_eq_true_eq]
          refine ⟨⟨⟨by trivial, hl1pre⟩, hdlt⟩, ?_⟩
          simp only [slotsWF, Bool.and_eq_true, decide_eq_true_eq, List.any_nil,
            List.any_cons, Bool.or_false, Bool.not_eq_true', beq_eq_false_iff_ne,
            ne_eq, Bool.not_false]
          refine ⟨⟨⟨hidx1lt, fun hcon => hne2 hcon.symm⟩, ?_⟩, ⟨⟨hidx2lt, by trivial⟩, ?_⟩, by trivial⟩
          · have := leafWF_extend hl1
            simpa [nodeWF] using this
          · simp only [nodeWF, leafWF, Bool.and_eq_true, beq_iff_eq,
              decide_eq_true_eq]
            exact ⟨⟨by rw [mod_pow_digit, hkpre], hklt⟩, hkcons⟩
        · rw [kvCount_table, kvCountSlots_cons, kvCountSlots_cons, kvCountSlots_nil]
          simp [kvCount_leaf, Leaf.count]
        · have hstep : tget (Node.table sf d (l1.hash % p.indexLimit ^ d)
              [(p.index l1.hash d, Node.leaf l1),
               (p.index k.hv d, Node.leaf (.flat k v))])
              (p.index k.hv d) = some (Node.leaf (.flat k v)) := by
            simp only [tget, List.find?_cons]
            simp [hne2]
          rw [getLoop_leaf p k hstep]
          simp [Leaf.get]

theorem hamtWF_nonempty {p : Params} {hashF : Nat → Nat} {h : HamtF}
    (hwf : hamtWF p hashF h = true) (hne : ¬(h.nentries = 0)) :
    ∃ rt : Node, h.root = some rt ∧ kvCount rt = h.nentries ∧
      nodeWF p hashF rt 0 0 = true ∧ isLeafNode rt = false := by
  simp only [hamtWF, Bool.and_eq_true, beq_iff_eq, Bool.or_eq_true] at hwf
  match hroot : h.root with
  | none =>
      rw [hroot] at hwf
      rcases hwf.2 with h2 | h2
      · exact absurd (by simpa using h2) hne
      · simp at h2
  | some rt =>
      rw [hroot] at hwf
      rcases hwf.2 with h2 | h2
      · exact absurd (by simpa using h2) hne
      · simp only [Bool.and_eq_true, Bool.not_eq_true'] at h2
        exact ⟨rt, rfl, by simpa [kvCountO_some] using hwf.1, h2.1, h2.2⟩

theorem findF_spec {p : Params} {hashF : Nat → Nat} {h : HamtF} (k : IKey)
    (hwf : hamtWF p hashF h = true) (hne : ¬(h.nentries = 0)) :
    ∃ (rt cur : Node) (rest : List Node) (leaf? : Option Leaf),
      h.root = some rt ∧ kvCount rt = h.nentries ∧
      h.find p k = some (cur :: rest, leaf?, p.index k.hv rest.length) ∧
      SpineF p k.hv rest cur ∧
      stackWF p hashF k.hv (cur :: rest) ∧
      tget cur (p.index k.hv rest.length) = Option.map Node.leaf leaf? ∧
      (cur :: rest).getLast? = some rt ∧
      rest.length + 1 ≤ p.depthLimit := by
  obtain ⟨rt, hroot, hcount, hrtwf, hrtleaf⟩ := hamtWF_nonempty hwf hne
  have hrtwf0 : nodeWF p hashF rt 0 (k.hv % p.indexLimit ^ 0) = true := by
    simpa [Nat.mod_one] using hrtwf
  have hspec := findLoop_spec p hashF k.hv p.depthLimit 0 rt []
    (by omega) rfl hrtleaf hrtwf0 (SpineF.nil rt) trivial
  obtain ⟨cur, rest, leaf?, h1, h2, h3, h4, h5, h6⟩ := hspec
  refine ⟨rt, cur, rest, leaf?, hroot, hcount, ?_, h2, h3, h4, by simpa using h5, h6⟩
  simp only [HamtF.find, hroot]
  exact h1

theorem getF_eq_find {p : Params} {hashF : Nat → Nat} {h : HamtF} {bs : Nat}
    {rt : Node} (hne : ¬(h.nentries = 0)) (hroot : h.root = some rt) :
    h.Get p hashF bs =
      (h.find p (p.newKey hashF bs)).map
        (fun r => match r.2.1 with
          | none => (none, false)
          | some l => l.get (p.newKey hashF bs)) := by
  simp only [HamtF.Get, HamtF.find, hroot]
  rw [if_neg (by simpa using hne)]
  exact getLoop_eq_findLoop p (p.newKey hashF bs) p.depthLimit 0 rt []

theorem putF_assemble (p : Params) (hashF : Nat → Nat) (h : HamtF) (bs : Nat)
    (v : Val) (rt cur newTable : Node) (rest : List Node) (added : Bool)
    (hne : ¬(h.nentries = 0))
    (hcount : kvCount rt = h.nentries)
    (hsp : SpineF p (p.newKey hashF bs).hv rest cur)
    (hst : stackWF p hashF (p.newKey hashF bs).hv (cur :: rest))
    (hlast : (cur :: rest).getLast? = some rt)
    (hNTleaf : isLeafNode newTable = false)
    (hNTwf : nodeWF p hashF newTable rest.length
      ((p.newKey hashF bs).hv % p.indexLimit ^ rest.length) = true)
    (hNTcount : kvCount newTable = kvCount cur + (if added then 1 else 0))
    (hNTget : getLoop p (p.newKey hashF bs) (p.depthLimit - rest.length)
      rest.length newTable = some (v, true)) :
    hamtWF p hashF
      (persistF p (if added then { h with nentries := h.nentries + 1 } else h)
        cur (some newTable) rest) = true ∧
    (persistF p (if added then { h with nentries := h.nentries + 1 } else h)
        cur (some newTable) rest).Get p hashF bs = some (v, true) ∧
    (persistF p (if added then { h with nentries := h.nentries + 1 } else h)
        cur (some newTable) rest).nentries =
      h.nentries + (if added then 1 else 0) ∧
    (persistF p (if added then { h with nentries := h.nentries + 1 } else h)
        cur (some newTable) rest).grade = h.grade ∧
    (persistF p (if added then { h with nentries := h.nentries + 1 } else h)
        cur (some newTable) rest).startFixed = h.startFixed := by
  set nh := if added then { h with nentries := h.nentries + 1 } else h with hnh
  have hnhne : ¬(nh.nentries = 0) := by
    rw [hnh]
    cases added
    · simpa using hne
    · simp
  have hnhn : nh.nentries = h.nentries + (if added then 1 else 0) := by
    rw [hnh]
    cases added <;> simp
  have hnhg : nh.grade = h.grade := by
    rw [hnh]
    cases added <;> simp
  have hnhs : nh.startFixed = h.startFixed := by
    rw [hnh]
    cases added <;> simp
  have hps := persistF_spec p hashF (p.newKey hashF bs).hv rest cur
    (some newTable) nh hnhne hsp hst
    (fun nt hnt2 => by
      obtain rfl : newTable = nt := by simpa using hnt2
      exact ⟨hNTleaf, hNTwf⟩)
  obtain ⟨r?, heq, hcnt, hsome, -, -⟩ := hps
  obtain ⟨R, hr, hRleaf, hRwf, hRwalk⟩ := hsome newTable rfl
  subst hr
  rw [hlast] at hcnt
  simp only [kvCountO_some] at hcnt
  have hRcount : kvCount R = h.nentries + (if added then 1 else 0) := by
    omega
  rw [heq]
  have hget : ({ nh with root := some R } : HamtF).Get p hashF bs = some (v, true) := by
    simp only [HamtF.Get]
    rw [if_neg (by simpa using hnhne)]
    rw [hRwalk (p.newKey hashF bs) rfl]
    exact hNTget
  refine ⟨?_, hget, by simpa using hnhn, by simpa using hnhg, by simpa using hnhs⟩
  simp only [hamtWF, Bool.and_eq_true, beq_iff_eq, Bool.or_eq_true, kvCountO_some]
  constructor
  · simpa [hRcount] using hnhn.symm
  · right
    simp only [Bool.and_eq_true, Bool.not_eq_true']
    exact ⟨by simpa [Nat.mod_one] using hRwf, hRleaf⟩

theorem createRootTable_spec (p : Params) (hashF : Nat → Nat) (bs : Nat) (v : Val)
    (hdl : 0 < p.depthLimit) :
    nodeWF p hashF (createRootTable p (p.newKey hashF bs) v) 0 0 = true ∧
    isLeafNode (createRootTable p (p.newKey hashF bs) v) = false ∧
    kvCount (createRootTable p (p.newKey hashF bs) v) = 1 ∧
    getLoop p (p.newKey hashF bs) p.depthLimit 0
      (createRootTable p (p.newKey hashF bs) v) = some (v, true) := by
  set k := p.newKey hashF bs with hk
  have hklt : k.hv < p.hashMod := by
    rw [hk]
    exact Nat.mod_lt _ (pow_iL_pos p _)
  have hkcons : k.hv = hashF k.bs % p.hashMod := by rw [hk]; rfl
  have hidx : p.index k.hv 0 < p.indexLimit := index_lt p k.hv 0
  refine ⟨?_, rfl, rfl, ?_⟩
  · simp only [createRootTable, nodeWF, Bool.and_eq_true, beq_iff_eq,
      decide_eq_true_eq, slotsWF, List.any_nil, Bool.not_false, leafWF]
    refine ⟨⟨⟨by trivial, by trivial⟩, hdl⟩, ⟨⟨hidx, by trivial⟩, ?_⟩, by trivial⟩
    refine ⟨⟨?_, hklt⟩, hkcons⟩
    simp only [pow_zero, pow_one, Nat.zero_add, Nat.mul_one]
    simp only [Params.index, pow_zero, Nat.div_one]
  · have hfuel : p.depthLimit = (p.depthLimit - 1) + 1 := by omega
    rw [hfuel]
    have hstep : tget (createRootTable p k v) (p.index k.hv 0) =
        some (Node.leaf (.flat k v)) := by
      simp [createRootTable, tget, List.find?_cons]
    rw [getLoop_leaf p k hstep]
    simp [Leaf.get]

theorem putF_spec (p : Params) (hashF : Nat → Nat) (h : HamtF) (bs : Nat) (v : Val)
    (hdl : 0 < p.depthLimit) (hwf : hamtWF p hashF h = true) :
    ∃ (h2 : HamtF) (added : Bool),
      h.Put p hashF bs v = some (h2, added) ∧
      hamtWF p hashF h2 = true ∧
      h2.Get p hashF bs = some (v, true) ∧
      h2.nentries = h.nentries + (if added then 1 else 0) ∧
      h2.grade = h.grade ∧ h2.startFixed = h.startFixed ∧
      (∃ x, h.Get p hashF bs = some (x, !added)) := by
  by_cases hne : h.nentries = 0
  · -- insertion into the empty structure
    obtain ⟨hcrwf, hcrleaf, hcrcount, hcrget⟩ := createRootTable_spec p hashF bs v hdl
    refine ⟨{ h with
        root := some (createRootTable p (p.newKey hashF bs) v)
        nentries := h.nentries + 1 }, true, ?_, ?_, ?_, by simp, rfl, rfl, ?_⟩
    · simp only [HamtF.Put]
      rw [if_pos (by simpa using hne)]
    · simp only [hamtWF, Bool.and_eq_true, beq_iff_eq, Bool.or_eq_true,
        kvCountO_some, hcrcount]
      refine ⟨by omega, Or.inr ?_⟩
      simp only [Bool.and_eq_true, Bool.not_eq_true']
      exact ⟨hcrwf, hcrleaf⟩
    · simp only [HamtF.Get]
      rw [if_neg (by simp)]
      exact hcrget
    · refine ⟨none, ?_⟩
      simp only [HamtF.Get]
      rw [if_pos (by simpa using hne)]
      rfl
  · -- the structure already holds entries
    obtain ⟨rt, cur, rest, leaf?, hroot, hrtcount, hfind, hsp, hst, htg, hlast, hrest⟩ :=
      findF_spec (p.newKey hashF bs) hwf hne
    set k := p.newKey hashF bs with hk
    have hklt : k.hv < p.hashMod := by
      rw [hk]
      exact Nat.mod_lt _ (pow_iL_pos p _)
    have hkcons : k.hv = hashF k.bs % p.hashMod := by rw [hk]; rfl
    have hstC := hst
    obtain ⟨hcleaf, hcwf, hstrest⟩ : isLeafNode cur = false ∧
        nodeWF p hashF cur rest.length (k.hv % p.indexLimit ^ rest.length) = true ∧
        stackWF p hashF k.hv rest := hstC
    match cur, hcleaf, hcwf, hsp, hst, htg, hlast with
    | .table fc dc hpc slotsc, _, hcwf, hsp, hst, htg, hlast =>
    have hcwf2 := hcwf
    simp only [nodeWF, Bool.and_eq_true, beq_iff_eq, decide_eq_true_eq] at hcwf2
    obtain ⟨⟨⟨hdcd, hhpc⟩, hdclt⟩, hslotsc⟩ := hcwf2
    have hidxlt := index_lt p k.hv rest.length
    match leaf?, htg with
    | none, htg =>
        -- the terminal slot is empty: insert a fresh flat leaf
        have hfresh : slotsc.find? (fun e => e.1 = p.index k.hv rest.length) = none := by
          simp only [tget, Option.map_none', Option.map_eq_none'] at htg
          exact htg
        have hflatwf : nodeWF p hashF (Node.leaf (.flat k v)) (rest.length + 1)
            (k.hv % p.indexLimit ^ rest.length +
              p.index k.hv rest.length * p.indexLimit ^ rest.length) = true := by
          simp only [nodeWF, leafWF, Bool.and_eq_true, beq_iff_eq, decide_eq_true_eq]
          exact ⟨⟨by rw [mod_pow_digit], hklt⟩, hkcons⟩
        have hnt : ∀ f2 : Bool,
            isLeafNode (Node.table f2 dc hpc
              ((p.index k.hv rest.length, Node.leaf (.flat k v)) :: slotsc)) = false ∧
            nodeWF p hashF (Node.table f2 dc hpc
              ((p.index k.hv rest.length, Node.leaf (.flat k v)) :: slotsc))
              rest.length (k.hv % p.indexLimit ^ rest.length) = true ∧
            kvCount (Node.table f2 dc hpc
              ((p.index k.hv rest.length, Node.leaf (.flat k v)) :: slotsc)) =
              kvCount (Node.table fc dc hpc slotsc) + 1 ∧
            getLoop p k (p.depthLimit - rest.length) rest.length
              (Node.table f2 dc hpc
                ((p.index k.hv rest.length, Node.leaf (.flat k v)) :: slotsc)) =
              some (v, true) := by
          intro f2
          refine ⟨rfl, ?_, ?_, ?_⟩
          · simp only [nodeWF, Bool.and_eq_true, beq_iff_eq, decide_eq_true_eq]
            exact ⟨⟨⟨hdcd, hhpc⟩, hdclt⟩, slotsWF_cons hslotsc hfresh hidxlt hflatwf⟩
          · rw [kvCount_table, kvCountSlots_cons, kvCount_table, kvCount_leaf]
            simp [Leaf.count]
            omega
          · have hfuel : p.depthLimit - rest.length =
                (p.depthLimit - rest.length - 1) + 1 := by omega
            rw [hfuel]
            have hstep : tget (Node.table f2 dc hpc
                ((p.index k.hv rest.length, Node.leaf (.flat k v)) :: slotsc))
                (p.index k.hv rest.length) = some (Node.leaf (.flat k v)) := by
              simp [tget, List.find?_cons]
            rw [getLoop_leaf p k hstep]
            simp [Leaf.get]
        have hput : ∃ nt0f : Bool, h.Put p hashF bs v =
            some (persistF p (if true then { h with nentries := h.nentries + 1 } else h)
              (Node.table fc dc hpc slotsc)
              (some (Node.table nt0f dc hpc
                ((p.index k.hv rest.length, Node.leaf (.flat k v)) :: slotsc)))
              rest, true) := by
          by_cases hupg : (h.grade && tlen (Node.table fc dc hpc slotsc) + 1 ==
              UpgradeThreshold) = true
          · refine ⟨true, ?_⟩
            simp only [HamtF.Put, ← hk]
            rw [if_neg (by simpa using hne), hfind]
            simp [hupg, upgradeToFixedTable, tinsert]
          · refine ⟨fc, ?_⟩
            simp only [HamtF.Put, ← hk]
            rw [if_neg (by simpa using hne), hfind]
            simp [hupg, tinsert]
        obtain ⟨nt0f, hput⟩ := hput
        obtain ⟨hA, hB, hC, hD⟩ := hnt nt0f
        have has := putF_assemble p hashF h bs v rt (Node.table fc dc hpc slotsc)
          (Node.table nt0f dc hpc
            ((p.index k.hv rest.length, Node.leaf (.flat k v)) :: slotsc))
          rest true hne hrtcount (by rw [← hk]; exact hsp) (by rw [← hk]; exact hst)
          hlast hA (by rw [← hk]; exact hB) (by simpa using hC)
          (by rw [← hk]; exact hD)
        refine ⟨_, true, hput, has.1, has.2.1, has.2.2.1, has.2.2.2.1, has.2.2.2.2, ?_⟩
        refine ⟨none, ?_⟩
        rw [getF_eq_find hne hroot, ← hk, hfind]
        rfl
    | some leaf, htg =>
        have hfound : ∃ e : Nat × Node,
            slotsc.find? (fun e => e.1 = p.index k.hv rest.length) = some e ∧
            e.2 = Node.leaf leaf := by
          rcases hf : slotsc.find? (fun e => e.1 = p.index k.hv rest.length) with _ | e
          · simp [tget, hf] at htg
          · simp only [tget, hf, Option.map_some'] at htg
            exact ⟨e, hf, by simpa using htg⟩
        obtain ⟨e, hfound, he2⟩ := hfound
        have hleafwf : leafWF p hashF leaf (rest.length + 1)
            (k.hv % p.indexLimit ^ rest.length +
              p.index k.hv rest.length * p.indexLimit ^ rest.length) = true := by
          have := (slotsWF_found hslotsc hfound).2.2
          rw [he2] at this
          simpa [nodeWF] using this
        by_cases hhash : (leaf.hash == k.hv) = true
        · -- a leaf with the same hash absorbs the pair
          have hhash2 : leaf.hash = k.hv := by simpa using hhash
          rcases hlp : leaf.put k v with ⟨nl, added⟩
          have hnlwf := @leafPut_wf p hashF leaf (rest.length + 1)
            (k.hv % p.indexLimit ^ rest.length +
              p.index k.hv rest.length * p.indexLimit ^ rest.length) k v
            hleafwf hhash2 hkcons
          rw [hlp] at hnlwf
          have hnlget := leafPut_get leaf k v
          rw [hlp] at hnlget
          have hnladded := leafPut_added leaf k v
          rw [hlp] at hnladded
          have hnlcount := leafPut_count leaf k v
          rw [hlp] at hnlcount
          simp only at hnlwf hnlget hnladded hnlcount
          have hput : h.Put p hashF bs v =
              some (persistF p (if added then { h with nentries := h.nentries + 1 } else h)
                (Node.table fc dc hpc slotsc)
                (some (treplace (Node.table fc dc hpc slotsc)
                  (p.index k.hv rest.length) (Node.leaf nl)))
                rest, added) := by
            simp only [HamtF.Put, ← hk]
            rw [if_neg (by simpa using hne), hfind]
            simp [hhash, hlp]
          have hntwf : nodeWF p hashF (treplace (Node.table fc dc hpc slotsc)
              (p.index k.hv rest.length) (Node.leaf nl)) rest.length
              (k.hv % p.indexLimit ^ rest.length) = true := by
            simp only [treplace, nodeWF, Bool.and_eq_true, beq_iff_eq,
              decide_eq_true_eq]
            refine ⟨⟨⟨hdcd, hhpc⟩, hdclt⟩, ?_⟩
            apply slotsWF_replaceSlot hslotsc hfound
            simpa [nodeWF] using hnlwf
          have hntcount : kvCount (treplace (Node.table fc dc hpc slotsc)
              (p.index k.hv rest.length) (Node.leaf nl)) =
              kvCount (Node.table fc dc hpc slotsc) +
                (if added then 1 else 0) := by
            have h5 := kvCountSlots_replaceSlot (c := Node.leaf nl) hfound
            rw [he2] at h5
            simp only [treplace, kvCount_table, kvCount_leaf] at h5 ⊢
            omega
          have hntget : getLoop p k (p.depthLimit - rest.length) rest.length
              (treplace (Node.table fc dc hpc slotsc)
                (p.index k.hv rest.length) (Node.leaf nl)) = some (v, true) := by
            have hfuel : p.depthLimit - rest.length =
                (p.depthLimit - rest.length - 1) + 1 := by omega
            rw [hfuel]
            have hstep : tget (treplace (Node.table fc dc hpc slotsc)
                (p.index k.hv rest.length) (Node.leaf nl))
                (p.index k.hv rest.length) = some (Node.leaf nl) := by
              simp only [treplace, tget]
              rw [find?_replaceSlot_self _ hfound]
              rfl
            rw [getLoop_leaf p k hstep]
            rw [hnlget]
          have has := putF_assemble p hashF h bs v rt (Node.table fc dc hpc slotsc)
            (treplace (Node.table fc dc hpc slotsc)
              (p.index k.hv rest.length) (Node.leaf nl))
            rest added hne hrtcount (by rw [← hk]; exact hsp) (by rw [← hk]; exact hst)
            hlast (by simp [treplace, isLeafNode]) (by rw [← hk]; exact hntwf)
            (by simpa using hntcount) (by rw [← hk]; exact hntget)
          refine ⟨_, added, hput, has.1, has.2.1, has.2.2.1, has.2.2.2.1,
            has.2.2.2.2, ?_⟩
          refine ⟨(leaf.get k).1, ?_⟩
          rw [getF_eq_find hne hroot, ← hk, hfind]
          simp only [Option.map_some']
          have hba : (!added) = (leaf.get k).2 := by
            rw [hnladded, Bool.not_not]
          rw [hba]
        · -- a leaf with a different hash is pushed one level down
          have hhash2 : ¬(leaf.hash = k.hv) := by simpa using hhash
          have hd1lt : rest.length + 1 < p.depthLimit := by
            rcases Nat.lt_or_ge (rest.length + 1) p.depthLimit with hlt | hge
            · exact hlt
            · exfalso
              have hdeq : rest.length + 1 = p.depthLimit := by omega
              have hpre := (leafWF_pre hleafwf).1
              have hlt2 := (leafWF_pre hleafwf).2
              apply hhash2
              apply hash_eq_of_mod_eq p hlt2 hklt
              rw [← hdeq] at *
              rw [hpre, mod_pow_digit]
          obtain ⟨hctwf, hctleaf, hctcount, hctget⟩ := createTable_spec p hashF
            h.startFixed (p.depthLimit - (rest.length + 1)) (rest.length + 1)
            leaf k v
            (k.hv % p.indexLimit ^ rest.length +
              p.index k.hv rest.length * p.indexLimit ^ rest.length)
            (by omega) hd1lt hleafwf (by rw [mod_pow_digit]) hklt hkcons hhash2
          have hput : h.Put p hashF bs v =
              some (persistF p { h with nentries := h.nentries + 1 }
                (Node.table fc dc hpc slotsc)
                (some (treplace (Node.table fc dc hpc slotsc)
                  (p.index k.hv rest.length)
                  (createTable p h.startFixed (p.depthLimit - (rest.length + 1))
                    (rest.length + 1) leaf k v)))
                rest, true) := by
            simp only [HamtF.Put, ← hk]
            rw [if_neg (by simpa using hne), hfind]
            simp [hhash]
          have hntwf : nodeWF p hashF (treplace (Node.table fc dc hpc slotsc)
              (p.index k.hv rest.length)
              (createTable p h.startFixed (p.depthLimit - (rest.length + 1))
                (rest.length + 1) leaf k v)) rest.length
              (k.hv % p.indexLimit ^ rest.length) = true := by
            simp only [treplace, nodeWF, Bool.and_eq_true, beq_iff_eq,
              decide_eq_true_eq]
            exact ⟨⟨⟨hdcd, hhpc⟩, hdclt⟩, slotsWF_replaceSlot hslotsc hfound hctwf⟩
          have hntcount : kvCount (treplace (Node.table fc dc hpc slotsc)
              (p.index k.hv rest.length)
              (createTable p h.startFixed (p.depthLimit - (rest.length + 1))
                (rest.length + 1) leaf k v)) =
              kvCount (Node.table fc dc hpc slotsc) + 1 := by
            have h5 := kvCountSlots_replaceSlot
              (c := createTable p h.startFixed (p.depthLimit - (rest.length + 1))
                (rest.length + 1) leaf k v) hfound
            rw [he2] at h5
            simp only [treplace, kvCount_table, kvCount_leaf] at h5 ⊢
            omega
          have hntget : getLoop p k (p.depthLimit - rest.length) rest.length
              (treplace (Node.table fc dc hpc slotsc)
                (p.index k.hv rest.length)
                (createTable p h.startFixed (p.depthLimit - (rest.length + 1))
                  (rest.length + 1) leaf k v)) = some (v, true) := by
            have hfuel : p.depthLimit - rest.length =
                (p.depthLimit - rest.length - 1) + 1 := by omega
            rw [hfuel]
            have hstep : tget (treplace (Node.table fc dc hpc slotsc)
                (p.index k.hv rest.length)
                (createTable p h.startFixed (p.depthLimit - (rest.length + 1))
                  (rest.length + 1) leaf k v))
                (p.index k.hv rest.length) =
                some (createTable p h.startFixed (p.depthLimit - (rest.length + 1))
                  (rest.length + 1) leaf k v) := by
              simp only [treplace, tget]
              rw [find?_replaceSlot_self _ hfound]
              rfl
            have hmax2 : ¬(rest.length = p.maxDepth) := by
              simp only [Params.maxDepth]
              omega
            rw [getLoop_step p k hstep hctleaf hmax2]
            have hfuel2 : p.depthLimit - rest.length - 1 =
                p.depthLimit - (rest.length + 1) := by omega
            rw [hfuel2]
            exact hctget
          have has := putF_assemble p hashF h bs v rt (Node.table fc dc hpc slotsc)
            (treplace (Node.table fc dc hpc slotsc)
              (p.index k.hv rest.length)
              (createTable p h.startFixed (p.depthLimit - (rest.length + 1))
                (rest.length + 1) leaf k v))
            rest true hne hrtcount (by rw [← hk]; exact hsp) (by rw [← hk]; exact hst)
            hlast (by simp [treplace, isLeafNode]) (by rw [← hk]; exact hntwf)
            (by simpa using hntcount) (by rw [← hk]; exact hntget)
          refine ⟨_, true, hput, has.1, has.2.1, has.2.2.1, has.2.2.2.1,
            has.2.2.2.2, ?_⟩
          refine ⟨(leaf.get k).1, ?_⟩
          rw [getF_eq_find hne hroot, ← hk, hfind]
          simp only [Option.map_some']
          have hmiss := leafGet_false_of_hash_ne hleafwf hhash2
          have hget2 : leaf.get k = ((leaf.get k).1, false) := by
            rw [← hmiss]
          simp only [Bool.not_true]
          exact congrArg some hget2

theorem persistF_empty (p : Params) (h : HamtF) (cur : Node) (nt? : Option Node)
    (rest : List Node) (h0 : h.nentries = 0) :
    persistF p h cur nt? rest = { h with root := nt? } := by
  cases rest with
  | nil => simp [persistF]
  | cons parent rs =>
      simp only [persistF]
      rw [if_pos (by simpa using h0)]

theorem spine_count_le {p : Params} {hv : Nat} :
    ∀ {rest : List Node} {cur rt : Node}, SpineF p hv rest cur →
      (cur :: rest).getLast? = some rt → kvCount cur ≤ kvCount rt := by
  intro rest cur rt hsp
  induction hsp with
  | nil c =>
      intro hlast
      simp only [List.getLast?_singleton, Option.some.injEq] at hlast
      subst hlast
      exact le_refl _
  | cons parent rs c hsp htget ih =>
      intro hlast
      rw [List.getLast?_cons_cons] at hlast
      refine le_trans ?_ (ih hlast)
      match parent, htget with
      | .table f d hp slots, htget =>
          simp only [tget, Option.map_eq_some'] at htget
          obtain ⟨e, he1, he2⟩ := htget
          have hmem := List.mem_of_find?_eq_some he1
          rw [kvCount_table, ← he2]
          exact kvCount_le_kvCountSlots hmem

theorem delF_assemble (p : Params) (hashF : Nat → Nat) (h : HamtF) (bs : Nat)
    (rt cur : Node) (nt? : Option Node) (rest : List Node)
    (hne : ¬(h.nentries = 0))
    (hcount : kvCount rt = h.nentries)
    (hsp : SpineF p (p.newKey hashF bs).hv rest cur)
    (hst : stackWF p hashF (p.newKey hashF bs).hv (cur :: rest))
    (hlast : (cur :: rest).getLast? = some rt)
    (hNT : ∀ nt, nt? = some nt → isLeafNode nt = false ∧
      nodeWF p hashF nt rest.length
        ((p.newKey hashF bs).hv % p.indexLimit ^ rest.length) = true)
    (hNTcount : kvCountO nt? + 1 = kvCount cur) :
    hamtWF p hashF
      (persistF p { h with nentries := h.nentries - 1 } cur nt? rest) = true ∧
    (persistF p { h with nentries := h.nentries - 1 } cur nt? rest).nentries =
      h.nentries - 1 ∧
    (persistF p { h with nentries := h.nentries - 1 } cur nt? rest).grade =
      h.grade ∧
    (persistF p { h with nentries := h.nentries - 1 } cur nt? rest).startFixed =
      h.startFixed := by
  have hcle : kvCount cur ≤ kvCount rt := spine_count_le hsp hlast
  by_cases h1 : h.nentries = 1
  · have h0 : ({ h with nentries := h.nentries - 1 } : HamtF).nentries = 0 := by
      simp [h1]
    rw [persistF_empty p _ cur nt? rest h0]
    have hnt0 : kvCountO nt? = 0 := by omega
    refine ⟨?_, by simp [h1], rfl, rfl⟩
    simp only [hamtWF, Bool.and_eq_true, beq_iff_eq, Bool.or_eq_true]
    exact ⟨by simp [hnt0, h1], Or.inl (by simp [h1])⟩
  · have hne2 : ¬(({ h with nentries := h.nentries - 1 } : HamtF).nentries = 0) := by
      simp only []
      omega
    obtain ⟨r?, heq, hcnt, hsome, hnone1, hnone2⟩ :=
      persistF_spec p hashF (p.newKey hashF bs).hv rest cur nt?
        { h with nentries := h.nentries - 1 } hne2 hsp hst hNT
    rw [heq]
    rw [hlast] at hcnt
    simp only [kvCountO_some, hcount] at hcnt
    have hrcnt : kvCountO r? = h.nentries - 1 := by omega
    refine ⟨?_, rfl, rfl, rfl⟩
    simp only [hamtWF, Bool.and_eq_true, beq_iff_eq, Bool.or_eq_true]
    refine ⟨by simpa using hrcnt, Or.inr ?_⟩
    have hR : ∃ R, r? = some R ∧ isLeafNode R = false ∧
        nodeWF p hashF R 0 ((p.newKey hashF bs).hv % p.indexLimit ^ 0) = true := by
      cases hnt : nt? with
      | some nt =>
          obtain ⟨R, hr1, hr2, hr3, _⟩ := hsome nt hnt
          exact ⟨R, hr1, hr2, hr3⟩
      | none =>
          refine hnone2 hnt ?_
          intro hrnil
          subst hrnil
          have : cur = rt := by simpa using hlast
          subst this
          rw [hnt] at hNTcount
          simp only [kvCountO_none] at hNTcount
          omega
    obtain ⟨R, hr1, hr2, hr3⟩ := hR
    subst hr1
    simp only [kvCountO_some] at hrcnt ⊢
    simp only [Bool.and_eq_true, Bool.not_eq_true']
    exact ⟨by simpa [Nat.mod_one] using hr3, hr2⟩

theorem delF_spec (p : Params) (hashF : Nat → Nat) (h h' : HamtF) (bs : Nat)
    (v : Val) (b : Bool)
    (hwf : hamtWF p hashF h = true)
    (hdel : h.Del p hashF bs = some (h', v, b)) :
    hamtWF p hashF h' = true ∧
    h'.grade = h.grade ∧ h'.startFixed = h.startFixed ∧
    (b = false → h' = h ∧ v = none) ∧
    (b = true → h'.nentries + 1 = h.nentries) := by
  by_cases hne : h.nentries = 0
  · have hd2 : h.Del p hashF bs = some (h, none, false) := by
      simp only [HamtF.Del]
      rw [if_pos (by simpa using hne)]
    rw [hd2] at hdel
    simp only [Option.some.injEq, Prod.mk.injEq] at hdel
    obtain ⟨h1, h2, h3⟩ := hdel
    subst h1; subst h2; subst h3
    exact ⟨hwf, rfl, rfl, fun _ => ⟨rfl, rfl⟩, by simp⟩
  · obtain ⟨rt, cur, rest, leaf?, hroot, hrtcount, hfind, hsp, hst, htg, hlast, hrest⟩ :=
      findF_spec (p.newKey hashF bs) hwf hne
    set k := p.newKey hashF bs with hk
    have hstC := hst
    obtain ⟨hcleaf, hcwf, hstrest⟩ : isLeafNode cur = false ∧
        nodeWF p hashF cur rest.length (k.hv % p.indexLimit ^ rest.length) = true ∧
        stackWF p hashF k.hv rest := hstC
    match cur, hcleaf, hcwf, hsp, hst, htg, hlast with
    | .table fc dc hpc slotsc, _, hcwf, hsp, hst, htg, hlast =>
    have hcwf2 := hcwf
    simp only [nodeWF, Bool.and_eq_true, beq_iff_eq, decide_eq_true_eq] at hcwf2
    obtain ⟨⟨⟨hdcd, hhpc⟩, hdclt⟩, hslotsc⟩ := hcwf2
    match leaf?, htg with
    | none, htg =>
        have hd2 : h.Del p hashF bs = some (h, none, false) := by
          simp only [HamtF.Del, ← hk]
          rw [if_neg (by simpa using hne), hfind]
        rw [hd2] at hdel
        simp only [Option.some.injEq, Prod.mk.injEq] at hdel
        obtain ⟨h1, h2, h3⟩ := hdel
        subst h1; subst h2; subst h3
        exact ⟨hwf, rfl, rfl, fun _ => ⟨rfl, rfl⟩, by simp⟩
    | some leaf, htg =>
        have hfound : ∃ e : Nat × Node,
            slotsc.find? (fun e => e.1 = p.index k.hv rest.length) = some e ∧
            e.2 = Node.leaf leaf := by
          rcases hf : slotsc.find? (fun e => e.1 = p.index k.hv rest.length) with _ | e
          · simp [tget, hf] at htg
          · simp only [tget, hf, Option.map_some'] at htg
            exact ⟨e, hf, by simpa using htg⟩
        obtain ⟨e, hfound, he2⟩ := hfound
        have hleafwf : leafWF p hashF leaf (rest.length + 1)
            (k.hv % p.indexLimit ^ rest.length +
              p.index k.hv rest.length * p.indexLimit ^ rest.length) = true := by
          have := (slotsWF_found hslotsc hfound).2.2
          rw [he2] at this
          simpa [nodeWF] using this
        rcases hld : leaf.del k with ⟨nl?, val, deleted⟩
        cases deleted with
        | false =>
            have hd2 : h.Del p hashF bs = some (h, none, false) := by
              simp only [HamtF.Del, ← hk]
              rw [if_neg (by simpa using hne), hfind]
              simp [hld]
            rw [hd2] at hdel
            simp only [Option.some.injEq, Prod.mk.injEq] at hdel
            obtain ⟨h1, h2, h3⟩ := hdel
            subst h1; subst h2; subst h3
            exact ⟨hwf, rfl, rfl, fun _ => ⟨rfl, rfl⟩, by simp⟩
        | true =>
            have hcnt := leafDel_count hleafwf hld
            cases nl? with
            | some nl =>
                have hd2 : h.Del p hashF bs =
                    some (persistF p { h with nentries := h.nentries - 1 }
                      (Node.table fc dc hpc slotsc)
                      (some (treplace (Node.table fc dc hpc slotsc)
                        (p.index k.hv rest.length) (Node.leaf nl))) rest,
                      val, true) := by
                  simp only [HamtF.Del, ← hk]
                  rw [if_neg (by simpa using hne), hfind]
                  simp [hld]
                have hnlwf := leafDel_wf hleafwf hld
                have hNT : ∀ nt, (some (treplace (Node.table fc dc hpc slotsc)
                    (p.index k.hv rest.length) (Node.leaf nl)) : Option Node) =
                      some nt →
                    isLeafNode nt = false ∧
                    nodeWF p hashF nt rest.length
                      (k.hv % p.indexLimit ^ rest.length) = true := by
                  intro nt hnt
                  obtain rfl : treplace (Node.table fc dc hpc slotsc)
                      (p.index k.hv rest.length) (Node.leaf nl) = nt := by
                    simpa using hnt
                  refine ⟨by simp [treplace, isLeafNode], ?_⟩
                  simp only [treplace, nodeWF, Bool.and_eq_true, beq_iff_eq,
                    decide_eq_true_eq]
                  refine ⟨⟨⟨hdcd, hhpc⟩, hdclt⟩, ?_⟩
                  apply slotsWF_replaceSlot hslotsc hfound
                  simpa [nodeWF] using hnlwf
                have hNTcount : kvCountO (some (treplace (Node.table fc dc hpc slotsc)
                    (p.index k.hv rest.length) (Node.leaf nl))) + 1 =
                    kvCount (Node.table fc dc hpc slotsc) := by
                  have h5 := kvCountSlots_replaceSlot
                    (c := Node.leaf nl) hfound
                  rw [he2] at h5
                  have hcnt2 : nl.count + 1 = leaf.count := by simpa using hcnt
                  simp only [kvCountO_some, treplace, kvCount_table,
                    kvCount_leaf] at h5 ⊢
                  omega
                have has := delF_assemble p hashF h bs rt
                  (Node.table fc dc hpc slotsc)
                  (some (treplace (Node.table fc dc hpc slotsc)
                    (p.index k.hv rest.length) (Node.leaf nl))) rest
                  hne hrtcount (by rw [← hk]; exact hsp) (by rw [← hk]; exact hst)
                  hlast (by rw [← hk]; exact hNT) hNTcount
                rw [hd2] at hdel
                simp only [Option.some.injEq, Prod.mk.injEq] at hdel
                obtain ⟨h1, h2, h3⟩ := hdel
                subst h2; subst h3
                rw [← h1]
                refine ⟨has.1, has.2.2.1, has.2.2.2, by simp, ?_⟩
                intro _
                rw [has.2.1]
                omega
            | none =>
                have hlc1 : leaf.count = 1 := by
                  simpa using hcnt.symm
                have hflt := kvCountSlots_filter hslotsc hfound
                rw [he2, kvCount_leaf, hlc1] at hflt
                by_cases hzero : (tlen (tremove (Node.table fc dc hpc slotsc)
                    (p.index k.hv rest.length)) == 0) = true
                · -- the terminal table is emptied: the slot chain is removed
                  have hd2 : h.Del p hashF bs =
                      some (persistF p { h with nentries := h.nentries - 1 }
                        (Node.table fc dc hpc slotsc) none rest, val, true) := by
                    simp only [HamtF.Del, ← hk]
                    rw [if_neg (by simpa using hne), hfind]
                    simp [hld, tremove] at hzero ⊢
                    simp [hzero]
                  have hNTcount : kvCountO (none : Option Node) + 1 =
                      kvCount (Node.table fc dc hpc slotsc) := by
                    have hemp : slotsc.filter
                        (fun e => ¬(e.1 = p.index k.hv rest.length)) = [] := by
                      simp only [tremove, tlen, beq_iff_eq,
                        List.length_eq_zero] at hzero
                      exact hzero
                    rw [hemp, kvCountSlots_nil] at hflt
                    simp only [kvCountO_none, kvCount_table]
                    omega
                  have has := delF_assemble p hashF h bs rt
                    (Node.table fc dc hpc slotsc) none rest
                    hne hrtcount (by rw [← hk]; exact hsp) (by rw [← hk]; exact hst)
                    hlast (by intro nt hnt; cases hnt) hNTcount
                  rw [hd2] at hdel
                  simp only [Option.some.injEq, Prod.mk.injEq] at hdel
                  obtain ⟨h1, h2, h3⟩ := hdel
                  subst h2; subst h3
                  rw [← h1]
                  refine ⟨has.1, has.2.2.1, has.2.2.2, by simp, ?_⟩
                  intro _
                  rw [has.2.1]
                  omega
                · -- at least one child remains (with an optional downgrade)
                  have hNT2 : ∀ f2 : Bool,
                      isLeafNode (Node.table f2 dc hpc (slotsc.filter
                        (fun e => ¬(e.1 = p.index k.hv rest.length)))) = false ∧
                      nodeWF p hashF (Node.table f2 dc hpc (slotsc.filter
                        (fun e => ¬(e.1 = p.index k.hv rest.length))))
                        rest.length (k.hv % p.indexLimit ^ rest.length) = true ∧
                      kvCountO (some (Node.table f2 dc hpc (slotsc.filter
                        (fun e => ¬(e.1 = p.index k.hv rest.length))))) + 1 =
                        kvCount (Node.table fc dc hpc slotsc) := by
                    intro f2
                    refine ⟨rfl, ?_, ?_⟩
                    · simp only [nodeWF, Bool.and_eq_true, beq_iff_eq,
                        decide_eq_true_eq]
                      exact ⟨⟨⟨hdcd, hhpc⟩, hdclt⟩, slotsWF_filter hslotsc _⟩
                    · simp only [kvCountO_some, kvCount_table]
                      omega
                  have hd2 : ∃ f2 : Bool, h.Del p hashF bs =
                      some (persistF p { h with nentries := h.nentries - 1 }
                        (Node.table fc dc hpc slotsc)
                        (some (Node.table f2 dc hpc (slotsc.filter
                          (fun e => ¬(e.1 = p.index k.hv rest.length))))) rest,
                        val, true) := by
                    by_cases hdg : (h.grade && tlen (tremove
                        (Node.table fc dc hpc slotsc)
                        (p.index k.hv rest.length)) == DowngradeThreshold) = true
                    · refine ⟨false, ?_⟩
                      simp only [HamtF.Del, ← hk]
                      rw [if_neg (by simpa using hne), hfind]
                      simp [hld, tremove] at hzero hdg ⊢
                      simp [hzero, hdg, downgradeToSparseTable, DowngradeThreshold]
                      rw [if_neg (by decide)]
                    · refine ⟨fc, ?_⟩
                      simp only [HamtF.Del, ← hk]
                      rw [if_neg (by simpa using hne), hfind]
                      simp [hld, tremove] at hzero hdg ⊢
                      simp [hzero, hdg, tremove]
                      rw [if_neg (fun hc => hdg hc.1 hc.2)]
                  obtain ⟨f2, hd2⟩ := hd2
                  obtain ⟨hA, hB, hC⟩ := hNT2 f2
                  have has := delF_assemble p hashF h bs rt
                    (Node.table fc dc hpc slotsc)
                    (some (Node.table f2 dc hpc (slotsc.filter
                      (fun e => ¬(e.1 = p.index k.hv rest.length))))) rest
                    hne hrtcount (by rw [← hk]; exact hsp) (by rw [← hk]; exact hst)
                    hlast ?_ hC
                  · rw [hd2] at hdel
                    simp only [Option.some.injEq, Prod.mk.injEq] at hdel
                    obtain ⟨h1, h2, h3⟩ := hdel
                    subst h2; subst h3
                    rw [← h1]
                    refine ⟨has.1, has.2.2.1, has.2.2.2, by simp, ?_⟩
                    intro _
                    rw [has.2.1]
                    omega
                  · intro nt hnt
                    obtain rfl : Node.table f2 dc hpc (slotsc.filter
                        (fun e => ¬(e.1 = p.index k.hv rest.length))) = nt := by
                      simpa using hnt
                    exact ⟨hA, by rw [← hk]; exact hB⟩

mutual

theorem visitKeyVals_eq_kvCount : ∀ (n : Node), visitKeyVals n = kvCount n
  | .leaf (.flat _ _) => rfl
  | .leaf (.collision _ _) => rfl
  | .table f d hp slots => by
      rw [kvCount_table]
      simp only [visitKeyVals]
      exact visitKeyValsSlots_eq_kvCountSlots slots

theorem visitKeyValsSlots_eq_kvCountSlots :
    ∀ (slots : List (Nat × Node)), visitKeyValsSlots slots = kvCountSlots slots
  | [] => rfl
  | (i, n) :: rest => by
      rw [kvCountSlots_cons]
      simp only [visitKeyValsSlots]
      rw [visitKeyVals_eq_kvCount n, visitKeyValsSlots_eq_kvCountSlots rest]

end

theorem countKeyVals_eq_nentries {p : Params} {hashF : Nat → Nat} {h : HamtF}
    (hwf : hamtWF p hashF h = true) : h.CountKeyVals = h.nentries := by
  simp only [hamtWF, Bool.and_eq_true, beq_iff_eq] at hwf
  obtain ⟨hcnt, _⟩ := hwf
  simp only [HamtF.CountKeyVals]
  cases hroot : h.root with
  | none => rw [hroot] at hcnt; simpa using hcnt
  | some rt =>
      rw [hroot] at hcnt
      show visitKeyVals rt = h.nentries
      rw [visitKeyVals_eq_kvCount]
      simpa using hcnt

theorem reachF_wf {p : Params} {hashF : Nat → Nat} (hdl : 0 < p.depthLimit)
    {h : HamtF} (hr : ReachF p hashF h) : hamtWF p hashF h = true := by
  induction hr with
  | new opt => rfl
  | @put h0 h1 bs v b hr hput ih =>
      obtain ⟨h2, added, hput2, hwf2, _⟩ := putF_spec p hashF h0 bs v hdl ih
      rw [hput2] at hput
      simp only [Option.some.injEq, Prod.mk.injEq] at hput
      rw [← hput.1]
      exact hwf2
  | @del h0 h1 bs v b hr hdel ih =>
      exact (delF_spec p hashF h0 h1 bs v b ih hdel).1

theorem getF_ne_none {p : Params} {hashF : Nat → Nat} {h : HamtF} (bs : Nat)
    (hwf : hamtWF p hashF h = true) :
    ∃ r, h.Get p hashF bs = some r := by
  by_cases hne : h.nentries = 0
  · refine ⟨(none, false), ?_⟩
    simp only [HamtF.Get]
    rw [if_pos (by simpa using hne)]
  · obtain ⟨rt, cur, rest, leaf?, hroot, _, hfind, _, _, _, _, _⟩ :=
      findF_spec (p.newKey hashF bs) hwf hne
    rw [getF_eq_find hne hroot, hfind]
    exact ⟨_, rfl⟩

theorem delF_miss {p : Params} {hashF : Nat → Nat} {h : HamtF} {bs : Nat}
    {x : Val} (hwf : hamtWF p hashF h = true)
    (hget : h.Get p hashF bs = some (x, false)) :
    h.Del p hashF bs = some (h, none, false) := by
  by_cases hne : h.nentries = 0
  · simp only [HamtF.Del]
    rw [if_pos (by simpa using hne)]
  · obtain ⟨rt, cur, rest, leaf?, hroot, hrtcount, hfind, hsp, hst, htg, hlast, hrest⟩ :=
      findF_spec (p.newKey hashF bs) hwf hne
    set k := p.newKey hashF bs with hk
    rw [getF_eq_find hne hroot, ← hk, hfind] at hget
    match leaf?, hfind, hget with
    | none, hfind, hget =>
        simp only [HamtF.Del, ← hk]
        rw [if_neg (by simpa using hne), hfind]
    | some leaf, hfind, hget =>
        simp only [Option.map_some', Option.some.injEq] at hget
        have hgf : (leaf.get k).2 = false := by
          rw [hget]
        have hdf : (leaf.del k).2.2 = false := by
          rw [leafDel_deleted]
          exact hgf
        rcases hld : leaf.del k with ⟨nl?, val, deleted⟩
        rw [hld] at hdf
        simp only at hdf
        subst hdf
        simp only [HamtF.Del, ← hk]
        rw [if_neg (by simpa using hne), hfind]
        simp [hld]

theorem twoPlus_leaf (l : Leaf) (d : Nat) : twoPlus (.leaf l) d = true := rfl

theorem twoPlus_table (f : Bool) (dd hp d : Nat) (slots : List (Nat × Node)) :
    twoPlus (.table f dd hp slots) d =
      ((d == 0 || 2 ≤ slots.length ||
        (slots.length == 1 &&
          !(slots.head?.map (fun e => isLeafNode e.2)).getD true))
        && twoPlusSlots slots d) := rfl

theorem twoPlusSlots_nil (d : Nat) : twoPlusSlots [] d = true := rfl

theorem twoPlusSlots_cons (e : Nat × Node) (rest : List (Nat × Node)) (d : Nat) :
    twoPlusSlots (e :: rest) d = (twoPlus e.2 (d + 1) && twoPlusSlots rest d) := by
  obtain ⟨i, n⟩ := e
  rfl

theorem twoPlusSlots_iff {slots : List (Nat × Node)} {d : Nat} :
    twoPlusSlots slots d = true ↔ ∀ e ∈ slots, twoPlus e.2 (d + 1) = true := by
  induction slots with
  | nil => simp [twoPlusSlots_nil]
  | cons e rest ih =>
      rw [twoPlusSlots_cons, Bool.and_eq_true, ih]
      constructor
      · rintro ⟨h1, h2⟩ e2 he2
        rcases List.mem_cons.1 he2 with rfl | he2
        · exact h1
        · exact h2 e2 he2
      · intro hall
        exact ⟨hall e (List.mem_cons_self _ _), fun e2 he2 =>
          hall e2 (List.mem_cons_of_mem _ he2)⟩

theorem twoPlusSlots_replaceSlot {slots : List (Nat × Node)} {idx : Nat}
    {c : Node} {d : Nat} (hs : twoPlusSlots slots d = true)
    (hc : twoPlus c (d + 1) = true) :
    twoPlusSlots (replaceSlot idx c slots) d = true := by
  rw [twoPlusSlots_iff] at hs ⊢
  intro e he
  rcases mem_replaceSlot he with rfl | he
  · exact hc
  · exact hs e he

theorem twoPlusSlots_filter {slots : List (Nat × Node)} {d : Nat}
    (hs : twoPlusSlots slots d = true) (pred : Nat × Node → Bool) :
    twoPlusSlots (slots.filter pred) d = true := by
  rw [twoPlusSlots_iff] at hs ⊢
  intro e he
  exact hs e (List.mem_of_mem_filter he)

theorem tset_none (t : Node) (idx : Nat) : tset t idx none = tremove t idx := rfl

theorem tset_insert {t : Node} {idx : Nat} (c : Node) (h : tget t idx = none) :
    tset t idx (some c) = tinsert t idx c := by
  simp [tset, h]

theorem tset_replace {t : Node} {idx : Nat} {c0 : Node} (c : Node)
    (h : tget t idx = some c0) : tset t idx (some c) = treplace t idx c := by
  simp [tset, h]

theorem leafWF_retarget {p : Params} {hashF : Nat → Nat} {l : Leaf}
    {d pre : Nat} (h : leafWF p hashF l d pre = true) (d2 : Nat) :
    leafWF p hashF l d2 (l.hash % p.indexLimit ^ d2) = true := by
  match l with
  | .flat k0 v0 =>
      simp only [leafWF, Bool.and_eq_true, beq_iff_eq, decide_eq_true_eq,
        Leaf.hash] at h ⊢
      exact ⟨⟨trivial, h.1.2⟩, h.2⟩
  | .collision hv kvs =>
      simp only [leafWF, Bool.and_eq_true, beq_iff_eq, decide_eq_true_eq,
        Leaf.hash] at h ⊢
      exact ⟨⟨⟨trivial, h.1.1.2⟩, h.1.2⟩, h.2⟩

theorem createTable_isTable (p : Params) (sf : Bool) (fuel d : Nat) (l1 : Leaf)
    (k : IKey) (v : Val) :
    isLeafNode (createTable p sf fuel d l1 k v) = false := by
  cases fuel with
  | zero => rfl
  | succ fuel =>
      simp only [createTable]
      split
      · rfl
      · rfl

theorem createTable_twoPlus (p : Params) (sf : Bool) :
    ∀ (fuel d : Nat) (l1 : Leaf) (k : IKey) (v : Val),
      d + fuel = p.depthLimit →
      d < p.depthLimit →
      l1.hash % p.indexLimit ^ d = k.hv % p.indexLimit ^ d →
      l1.hash < p.hashMod →
      k.hv < p.hashMod →
      ¬(l1.hash = k.hv) →
      twoPlus (createTable p sf fuel d l1 k v) d = true := by
  intro fuel
  induction fuel with
  | zero =>
      intro d l1 k v hsum hlt _ _ _ _
      omega
  | succ fuel ih =>
      intro d l1 k v hsum hlt hpre hb1 hb2 hne
      by_cases hidx : (p.index l1.hash d == p.index k.hv d) = true
      · have hidx2 : p.index l1.hash d = p.index k.hv d := by simpa using hidx
        have hpre2 : l1.hash % p.indexLimit ^ (d + 1) =
            k.hv % p.indexLimit ^ (d + 1) := by
          rw [mod_pow_digit, mod_pow_digit, hpre, hidx2]
        by_cases hmax : (d == p.maxDepth) = true
        · exfalso
          have hd : d = p.depthLimit - 1 := by
            simpa [Params.maxDepth] using hmax
          apply hne
          apply hash_eq_of_mod_eq p hb1 hb2
          have hdl : d + 1 = p.depthLimit := by omega
          rw [← hdl]
          exact hpre2
        · have hmax2 : ¬(d = p.depthLimit - 1) := by
            simpa [Params.maxDepth] using hmax
          have hchild : isLeafNode (createTable p sf fuel (d + 1) l1 k v) = false :=
            createTable_isTable p sf fuel (d + 1) l1 k v
          simp only [createTable, hidx, if_true, hmax, Bool.false_eq_true, if_false]
          rw [twoPlus_table, Bool.and_eq_true]
          constructor
          · simp [hchild]
          · rw [twoPlusSlots_cons, Bool.and_eq_true]
            refine ⟨?_, twoPlusSlots_nil d⟩
            exact ih (d + 1) l1 k v (by omega) (by omega) hpre2 hb1 hb2 hne
      · simp only [createTable, hidx, Bool.false_eq_true, if_false]
        rw [twoPlus_table, Bool.and_eq_true]
        constructor
        · simp
        · rw [twoPlusSlots_cons, Bool.and_eq_true]
          exact ⟨twoPlus_leaf _ _, by
            rw [twoPlusSlots_cons, Bool.and_eq_true]
            exact ⟨twoPlus_leaf _ _, twoPlusSlots_nil d⟩⟩

theorem twoPlus_children {f : Bool} {d hp depth : Nat} {slots : List (Nat × Node)}
    (htp : twoPlus (.table f d hp slots) depth = true) :
    twoPlusSlots slots depth = true := by
  rw [twoPlus_table, Bool.and_eq_true] at htp
  exact htp.2

theorem twoPlus_top_pos {f : Bool} {d hp depth : Nat} {slots : List (Nat × Node)}
    (htp : twoPlus (.table f d hp slots) depth = true)
    (hd : ¬(depth = 0)) : 1 ≤ slots.length := by
  rw [twoPlus_table, Bool.and_eq_true] at htp
  have htop := htp.1
  rcases hlen : slots.length with _ | n
  · exfalso
    have hnil : slots = [] := List.length_eq_zero.1 hlen
    subst hnil
    simp [hd] at htop
  · omega

theorem twoPlus_found_leaf {f : Bool} {d hp depth idx : Nat}
    {slots : List (Nat × Node)} {e : Nat × Node} {l : Leaf}
    (htp : twoPlus (.table f d hp slots) depth = true)
    (hfind : slots.find? (fun e => e.1 = idx) = some e)
    (he : e.2 = .leaf l) (hd : ¬(depth = 0)) : 2 ≤ slots.length := by
  by_contra hlt
  have hmem := List.mem_of_find?_eq_some hfind
  have hpos : 0 < slots.length :=
    List.length_pos.2 (List.ne_nil_of_mem hmem)
  have h1 : slots.length = 1 := by omega
  obtain ⟨e0, he0⟩ := List.length_eq_one.1 h1
  subst he0
  have he0e : e = e0 := by simpa using hmem
  subst he0e
  rw [twoPlus_table, Bool.and_eq_true] at htp
  have htop := htp.1
  simp [hd, he, isLeafNode] at htop

theorem twoPlus_insert_leaf {f : Bool} {d hp depth : Nat}
    {slots : List (Nat × Node)} (idx : Nat) (l : Leaf)
    (htp : twoPlus (.table f d hp slots) depth = true) :
    twoPlus (.table f d hp ((idx, .leaf l) :: slots)) depth = true := by
  have htpC := htp
  rw [twoPlus_table, Bool.and_eq_true] at htpC ⊢
  obtain ⟨htop, hsl⟩ := htpC
  constructor
  · by_cases hd : depth = 0
    · simp [hd]
    · have h1 := twoPlus_top_pos htp hd
      simp only [Bool.or_eq_true, decide_eq_true_eq, List.length_cons]
      exact Or.inl (Or.inr (by omega))
  · rw [twoPlusSlots_cons, Bool.and_eq_true]
    exact ⟨twoPlus_leaf _ _, hsl⟩

theorem twoPlus_replace_leaf {f : Bool} {d hp depth idx : Nat}
    {slots : List (Nat × Node)} {e : Nat × Node} {l : Leaf} (nl : Leaf)
    (htp : twoPlus (.table f d hp slots) depth = true)
    (hfind : slots.find? (fun e => e.1 = idx) = some e)
    (he : e.2 = .leaf l) :
    twoPlus (.table f d hp (replaceSlot idx (.leaf nl) slots)) depth = true := by
  have htpC := htp
  rw [twoPlus_table, Bool.and_eq_true] at htpC ⊢
  obtain ⟨htop, hsl⟩ := htpC
  constructor
  · by_cases hd : depth = 0
    · simp [hd]
    · have h2 := twoPlus_found_leaf htp hfind he hd
      simp only [Bool.or_eq_true, decide_eq_true_eq, length_replaceSlot]
      exact Or.inl (Or.inr h2)
  · exact twoPlusSlots_replaceSlot hsl (twoPlus_leaf _ _)

theorem twoPlus_replace_table {f : Bool} {d hp depth idx : Nat}
    {slots : List (Nat × Node)} {e : Nat × Node} {c : Node}
    (htp : twoPlus (.table f d hp slots) depth = true)
    (hfind : slots.find? (fun e => e.1 = idx) = some e)
    (hc : isLeafNode c = false) (hctp : twoPlus c (depth + 1) = true) :
    twoPlus (.table f d hp (replaceSlot idx c slots)) depth = true := by
  rw [twoPlus_table, Bool.and_eq_true] at htp ⊢
  obtain ⟨htop, hsl⟩ := htp
  constructor
  · simp only [Bool.or_eq_true, Bool.and_eq_true, beq_iff_eq,
      decide_eq_true_eq] at htop ⊢
    rcases htop with (hd0 | h2) | ⟨h1, _⟩
    · exact Or.inl (Or.inl hd0)
    · refine Or.inl (Or.inr ?_)
      rw [length_replaceSlot]
      exact h2
    · refine Or.inr ⟨by rw [length_replaceSlot]; exact h1, ?_⟩
      obtain ⟨e0, he0⟩ := List.length_eq_one.1 h1
      subst he0
      rw [List.find?_cons] at hfind
      rcases hdec : (decide (e0.1 = idx)) with _ | _
      · rw [hdec] at hfind
        simp at hfind
      · have he01 : e0.1 = idx := of_decide_eq_true hdec
        simp only [replaceSlot, he01, if_pos]
        simp [hc]
  · exact twoPlusSlots_replaceSlot hsl hctp

theorem put64Go_spec (hashF : Nat → Nat) (grade fullinit : Bool) (k : IKey) (v : Val)
    (hklt : k.hv < p64.hashMod) (hkcons : k.hv = hashF k.bs % p64.hashMod) :
    ∀ (fuel : Nat) {depth : Nat} {t t2 : Node} {ins : Bool},
      fuel + depth = p64.depthLimit →
      isLeafNode t = false →
      nodeWF p64 hashF t depth (k.hv % p64.indexLimit ^ depth) = true →
      put64Go grade fullinit k v fuel depth t = some (t2, ins) →
      isLeafNode t2 = false ∧
      nodeWF p64 hashF t2 depth (k.hv % p64.indexLimit ^ depth) = true ∧
      kvCount t2 = kvCount t + (if ins then 1 else 0) ∧
      getLoop p64 k fuel depth t2 = some (v, true) ∧
      (twoPlus t depth = true → twoPlus t2 depth = true) := by
  intro fuel
  induction fuel with
  | zero =>
      intro depth t t2 ins hsum hleaf hwf hput
      simp [put64Go] at hput
  | succ fuel ih =>
      intro depth t t2 ins hsum hleaf hwf hput
      match t, hleaf, hwf, hput with
      | .table f d hp slots, _, hwf, hput =>
      have hwf2 := hwf
      simp only [nodeWF, Bool.and_eq_true, beq_iff_eq, decide_eq_true_eq] at hwf2
      obtain ⟨⟨⟨hdd, hhp⟩, hdlt⟩, hslots⟩ := hwf2
      have hidxlt : p64.index k.hv depth < p64.indexLimit := index_lt p64 k.hv depth
      rcases htg : tget (Node.table f d hp slots) (p64.index k.hv depth) with _ | c
      · -- empty slot: insert a fresh flat leaf (with a possible upgrade)
        have hfresh : slots.find? (fun e => e.1 = p64.index k.hv depth) = none := by
          simpa [tget, Option.map_eq_none'] using htg
        have hflatwf : nodeWF p64 hashF (Node.leaf (.flat k v)) (depth + 1)
            (k.hv % p64.indexLimit ^ depth +
              p64.index k.hv depth * p64.indexLimit ^ depth) = true := by
          simp only [nodeWF, leafWF, Bool.and_eq_true, beq_iff_eq, decide_eq_true_eq]
          exact ⟨⟨by rw [mod_pow_digit], hklt⟩, hkcons⟩
        have hkey : ∀ f2 : Bool,
            isLeafNode (Node.table f2 d hp
              ((p64.index k.hv depth, Node.leaf (.flat k v)) :: slots)) = false ∧
            nodeWF p64 hashF (Node.table f2 d hp
              ((p64.index k.hv depth, Node.leaf (.flat k v)) :: slots)) depth
              (k.hv % p64.indexLimit ^ depth) = true ∧
            kvCount (Node.table f2 d hp
              ((p64.index k.hv depth, Node.leaf (.flat k v)) :: slots)) =
              kvCount (Node.table f d hp slots) + 1 ∧
            getLoop p64 k (fuel + 1) depth (Node.table f2 d hp
              ((p64.index k.hv depth, Node.leaf (.flat k v)) :: slots)) =
              some (v, true) ∧
            (twoPlus (Node.table f d hp slots) depth = true →
              twoPlus (Node.table f2 d hp
                ((p64.index k.hv depth, Node.leaf (.flat k v)) :: slots)) depth = true) := by
          intro f2
          refine ⟨rfl, ?_, ?_, ?_, ?_⟩
          · simp only [nodeWF, Bool.and_eq_true, beq_iff_eq, decide_eq_true_eq]
            exact ⟨⟨⟨hdd, hhp⟩, hdlt⟩, slotsWF_cons hslots hfresh hidxlt hflatwf⟩
          · rw [kvCount_table, kvCountSlots_cons, kvCount_table, kvCount_leaf]
            simp [Leaf.count]
            omega
          · have hstep : tget (Node.table f2 d hp
                ((p64.index k.hv depth, Node.leaf (.flat k v)) :: slots))
                (p64.index k.hv depth) = some (Node.leaf (.flat k v)) := by
              simp [tget, List.find?_cons]
            rw [getLoop_leaf p64 k hstep]
            simp [Leaf.get]
          · intro htp
            have htp2 := twoPlus_insert_leaf (p64.index k.hv depth) (.flat k v) htp
            rw [twoPlus_table, Bool.and_eq_true] at htp2 ⊢
            exact htp2
        simp only [put64Go, htg] at hput
        rw [tset_insert _ htg] at hput
        simp only [tinsert] at hput
        by_cases hupg : (grade &&
            !tfixed (Node.table f d hp
              ((p64.index k.hv depth, Node.leaf (.flat k v)) :: slots)) &&
            upgradeThreshold64 ≤ tlen (Node.table f d hp
              ((p64.index k.hv depth, Node.leaf (.flat k v)) :: slots))) = true
        · rw [if_pos hupg] at hput
          simp only [upgradeToFixedTable, Option.some.injEq, Prod.mk.injEq] at hput
          obtain ⟨ht2, hins⟩ := hput
          subst ht2; subst hins
          exact hkey true
        · rw [if_neg hupg] at hput
          simp only [Option.some.injEq, Prod.mk.injEq] at hput
          obtain ⟨ht2, hins⟩ := hput
          subst ht2; subst hins
          exact hkey f
      · rcases hfound2 : slots.find? (fun e => e.1 = p64.index k.hv depth) with _ | e
        · exfalso
          simp [tget, hfound2] at htg
        have he2 : e.2 = c := by
          simpa [tget, hfound2] using htg
        cases c with
        | leaf l =>
            have hlwf : leafWF p64 hashF l (depth + 1)
                (k.hv % p64.indexLimit ^ depth +
                  p64.index k.hv depth * p64.indexLimit ^ depth) = true := by
              have := (slotsWF_found hslots hfound2).2.2
              rw [he2] at this
              simpa [nodeWF] using this
            by_cases hhash : (l.hash == k.hv) = true
            · -- equal hash: the leaf absorbs the pair
              have hhash2 : l.hash = k.hv := by simpa using hhash
              simp only [put64Go, htg] at hput
              rw [if_pos hhash] at hput
              rw [tset_replace (Node.leaf (l.put k v).1) htg] at hput
              simp only [treplace, Option.some.injEq, Prod.mk.injEq] at hput
              obtain ⟨ht2, hins⟩ := hput
              subst ht2; subst hins
              have hnlwf := @leafPut_wf p64 hashF l (depth + 1)
                (k.hv % p64.indexLimit ^ depth +
                  p64.index k.hv depth * p64.indexLimit ^ depth) k v
                hlwf hhash2 hkcons
              refine ⟨rfl, ?_, ?_, ?_, ?_⟩
              · simp only [nodeWF, Bool.and_eq_true, beq_iff_eq, decide_eq_true_eq]
                refine ⟨⟨⟨hdd, hhp⟩, hdlt⟩, ?_⟩
                apply slotsWF_replaceSlot hslots hfound2
                simpa [nodeWF] using hnlwf
              · have h5 := kvCountSlots_replaceSlot
                  (c := Node.leaf (l.put k v).1) hfound2
                rw [he2] at h5
                have h6 := leafPut_count l k v
                simp only [kvCount_table, kvCount_leaf] at h5 ⊢
                by_cases hin : (l.put k v).2 = true
                · rw [if_pos hin] at h6 ⊢
                  omega
                · rw [if_neg hin] at h6 ⊢
                  omega
              · have hstep : tget (Node.table f d hp
                    (replaceSlot (p64.index k.hv depth)
                      (Node.leaf (l.put k v).1) slots))
                    (p64.index k.hv depth) = some (Node.leaf (l.put k v).1) := by
                  simp only [tget]
                  rw [find?_replaceSlot_self _ hfound2]
                  rfl
                rw [getLoop_leaf p64 k hstep, leafPut_get]
              · intro htp
                exact twoPlus_replace_leaf (l.put k v).1 htp hfound2 he2
            · -- different hash: push both leaves into a fresh subtree
              have hhash2 : ¬(l.hash = k.hv) := by simpa using hhash
              by_cases hmax : (depth == p64.maxDepth) = true
              · exfalso
                simp only [put64Go, htg] at hput
                rw [if_neg hhash, if_pos hmax] at hput
                exact Option.noConfusion hput
              have hmax2 : ¬(depth = p64.depthLimit - 1) := by
                simpa [Params.maxDepth] using hmax
              have hd1lt : depth + 1 < p64.depthLimit := by omega
              obtain ⟨hctwf, hctleaf, hctcount, hctget⟩ :=
                createTable_spec p64 hashF fullinit
                  (p64.depthLimit - (depth + 1)) (depth + 1) l k v
                  (k.hv % p64.indexLimit ^ depth +
                    p64.index k.hv depth * p64.indexLimit ^ depth)
                  (by omega) hd1lt hlwf (by rw [mod_pow_digit]) hklt hkcons hhash2
              simp only [put64Go, htg] at hput
              rw [if_neg hhash, if_neg hmax] at hput
              rw [tset_replace (createTable p64 fullinit
                (p64.depthLimit - (depth + 1)) (depth + 1) l k v) htg] at hput
              simp only [treplace, Option.some.injEq, Prod.mk.injEq] at hput
              obtain ⟨ht2, hins⟩ := hput
              subst ht2; subst hins
              refine ⟨rfl, ?_, ?_, ?_, ?_⟩
              · simp only [nodeWF, Bool.and_eq_true, beq_iff_eq, decide_eq_true_eq]
                exact ⟨⟨⟨hdd, hhp⟩, hdlt⟩,
                  slotsWF_replaceSlot hslots hfound2 hctwf⟩
              · have h5 := kvCountSlots_replaceSlot
                  (c := createTable p64 fullinit (p64.depthLimit - (depth + 1))
                    (depth + 1) l k v) hfound2
                rw [he2] at h5
                simp only [kvCount_table, kvCount_leaf, hctcount] at h5 ⊢
                rw [if_pos trivial]
                omega
              · have hstep : tget (Node.table f d hp
                    (replaceSlot (p64.index k.hv depth)
                      (createTable p64 fullinit (p64.depthLimit - (depth + 1))
                        (depth + 1) l k v) slots))
                    (p64.index k.hv depth) =
                    some (createTable p64 fullinit (p64.depthLimit - (depth + 1))
                      (depth + 1) l k v) := by
                  simp only [tget]
                  rw [find?_replaceSlot_self _ hfound2]
                  rfl
                rw [getLoop_step p64 k hstep hctleaf (by
                  simpa [Params.maxDepth] using hmax2)]
                have hfeq : fuel = p64.depthLimit - (depth + 1) := by omega
                rw [hfeq]
                exact hctget
              · intro htp
                apply twoPlus_replace_table htp hfound2 hctleaf
                apply createTable_twoPlus p64 fullinit
                  (p64.depthLimit - (depth + 1)) (depth + 1) l k v
                  (by omega) hd1lt
                · have hpre := (leafWF_pre hlwf).1
                  rw [hpre, mod_pow_digit]
                · exact (leafWF_pre hlwf).2
                · exact hklt
                · exact hhash2
        | table f1 d1 hp1 slots1 =>
            have hcwf : nodeWF p64 hashF (Node.table f1 d1 hp1 slots1) (depth + 1)
                (k.hv % p64.indexLimit ^ (depth + 1)) = true := by
              have := (slotsWF_found hslots hfound2).2.2
              rw [he2] at this
              rw [mod_pow_digit]
              exact this
            have hmax2 : ¬(depth = p64.depthLimit - 1) := by
              intro hcon
              have := hcwf
              simp only [nodeWF, Bool.and_eq_true, decide_eq_true_eq] at this
              omega
            simp only [put64Go, htg] at hput
            rcases hrec : put64Go grade fullinit k v fuel (depth + 1)
                (Node.table f1 d1 hp1 slots1) with _ | r2
            · rw [hrec] at hput
              simp at hput
            · obtain ⟨t2c, insc⟩ := r2
              simp only [hrec] at hput
              rw [tset_replace t2c htg] at hput
              simp only [treplace, Option.some.injEq, Prod.mk.injEq] at hput
              obtain ⟨ht2, hins⟩ := hput
              subst ht2; subst hins
              obtain ⟨hcleaf2, hcwf2, hccount, hcget, hctp⟩ :=
                ih (by omega)
                  (show isLeafNode (Node.table f1 d1 hp1 slots1) = false from rfl)
                  hcwf hrec
              refine ⟨rfl, ?_, ?_, ?_, ?_⟩
              · simp only [nodeWF, Bool.and_eq_true, beq_iff_eq, decide_eq_true_eq]
                refine ⟨⟨⟨hdd, hhp⟩, hdlt⟩, ?_⟩
                apply slotsWF_replaceSlot hslots hfound2
                rw [← mod_pow_digit]
                exact hcwf2
              · have h5 := kvCountSlots_replaceSlot (c := t2c) hfound2
                rw [he2] at h5
                simp only [kvCount_table] at h5 hccount ⊢
                by_cases hin : insc = true
                · rw [if_pos hin] at hccount ⊢
                  omega
                · rw [if_neg hin] at hccount ⊢
                  omega
              · have hstep : tget (Node.table f d hp
                    (replaceSlot (p64.index k.hv depth) t2c slots))
                    (p64.index k.hv depth) = some t2c := by
                  simp only [tget]
                  rw [find?_replaceSlot_self _ hfound2]
                  rfl
                rw [getLoop_step p64 k hstep hcleaf2 (by
                  simpa [Params.maxDepth] using hmax2)]
                exact hcget
              · intro htp
                apply twoPlus_replace_table htp hfound2 hcleaf2
                apply hctp
                have := twoPlus_children htp
                rw [twoPlusSlots_iff] at this
                have he3 := this e (List.mem_of_find?_eq_some hfound2)
                rw [he2] at he3
                exact he3

theorem replaceSlot_replaceSlot (idx : Nat) (c1 c2 : Node)
    (slots : List (Nat × Node)) :
    replaceSlot idx c2 (replaceSlot idx c1 slots) = replaceSlot idx c2 slots := by
  induction slots with
  | nil => rfl
  | cons e rest ih =>
      by_cases he : e.1 = idx
      · simp [replaceSlot, he]
      · simp [replaceSlot, he, ih]

theorem del64Go_spec (hashF : Nat → Nat) (grade : Bool) (k : IKey) :
    ∀ (fuel : Nat) {depth : Nat} {t t2 : Node} {val : Val},
      fuel + depth = p64.depthLimit →
      isLeafNode t = false →
      nodeWF p64 hashF t depth (k.hv % p64.indexLimit ^ depth) = true →
      del64Go grade k fuel depth t = some (t2, val) →
      isLeafNode t2 = false ∧
      nodeWF p64 hashF t2 depth (k.hv % p64.indexLimit ^ depth) = true ∧
      kvCount t2 + 1 = kvCount t ∧
      (twoPlus t depth = true →
        twoPlus t2 depth = true ∨
        ∃ (f2 : Bool) (d2 hp2 i2 : Nat) (l2 : Leaf),
          t2 = Node.table f2 d2 hp2 [(i2, Node.leaf l2)]) := by
  intro fuel
  induction fuel with
  | zero =>
      intro depth t t2 val hsum hleaf hwf hdel
      simp [del64Go] at hdel
  | succ fuel ih =>
      intro depth t t2 val hsum hleaf hwf hdel
      match t, hleaf, hwf, hdel with
      | .table f d hp slots, _, hwf, hdel =>
      have hwf2 := hwf
      simp only [nodeWF, Bool.and_eq_true, beq_iff_eq, decide_eq_true_eq] at hwf2
      obtain ⟨⟨⟨hdd, hhp⟩, hdlt⟩, hslots⟩ := hwf2
      have hidxlt : p64.index k.hv depth < p64.indexLimit := index_lt p64 k.hv depth
      rcases htg : tget (Node.table f d hp slots) (p64.index k.hv depth) with _ | c
      · simp only [del64Go, htg] at hdel
        exact Option.noConfusion hdel
      · rcases hfound2 : slots.find? (fun e => e.1 = p64.index k.hv depth) with _ | e
        · exfalso
          simp [tget, hfound2] at htg
        have he2 : e.2 = c := by
          simpa [tget, hfound2] using htg
        cases c with
        | leaf l =>
            have hlwf : leafWF p64 hashF l (depth + 1)
                (k.hv % p64.indexLimit ^ depth +
                  p64.index k.hv depth * p64.indexLimit ^ depth) = true := by
              have := (slotsWF_found hslots hfound2).2.2
              rw [he2] at this
              simpa [nodeWF] using this
            rcases hld : l.del k with ⟨nl?, dval, deleted⟩
            cases deleted with
            | false =>
                simp only [del64Go, htg, hld] at hdel
                exact Option.noConfusion hdel
            | true =>
                have hcnt := leafDel_count hlwf hld
                cases nl? with
                | some nl =>
                    have hnlcnt : nl.count + 1 = l.count := by simpa using hcnt
                    simp only [del64Go, htg, hld, Option.map_some',
                      Option.isNone_some, Bool.and_false, Bool.false_and,
                      Bool.false_eq_true, if_false] at hdel
                    rw [tset_replace (Node.leaf nl) htg] at hdel
                    simp only [treplace, Option.some.injEq, Prod.mk.injEq] at hdel
                    obtain ⟨ht2, hval⟩ := hdel
                    subst ht2; subst hval
                    have hnlwf := leafDel_wf hlwf hld
                    refine ⟨rfl, ?_, ?_, ?_⟩
                    · simp only [nodeWF, Bool.and_eq_true, beq_iff_eq,
                        decide_eq_true_eq]
                      refine ⟨⟨⟨hdd, hhp⟩, hdlt⟩, ?_⟩
                      apply slotsWF_replaceSlot hslots hfound2
                      simpa [nodeWF] using hnlwf
                    · have h5 := kvCountSlots_replaceSlot
                        (c := Node.leaf nl) hfound2
                      rw [he2] at h5
                      simp only [kvCount_table, kvCount_leaf] at h5 ⊢
                      omega
                    · intro htp
                      exact Or.inl (twoPlus_replace_leaf nl htp hfound2 he2)
                | none =>
                    have hlc1 : l.count = 1 := by simpa using hcnt.symm
                    have hflt := kvCountSlots_filter hslots hfound2
                    rw [he2, kvCount_leaf, hlc1] at hflt
                    have hlen := lengthSlots_filter hslots hfound2
                    have hkey : ∀ f2 : Bool,
                        isLeafNode (Node.table f2 d hp (slots.filter
                          (fun e => ¬(e.1 = p64.index k.hv depth)))) = false ∧
                        nodeWF p64 hashF (Node.table f2 d hp (slots.filter
                          (fun e => ¬(e.1 = p64.index k.hv depth)))) depth
                          (k.hv % p64.indexLimit ^ depth) = true ∧
                        kvCount (Node.table f2 d hp (slots.filter
                          (fun e => ¬(e.1 = p64.index k.hv depth)))) + 1 =
                          kvCount (Node.table f d hp slots) ∧
                        (twoPlus (Node.table f d hp slots) depth = true →
                          twoPlus (Node.table f2 d hp (slots.filter
                            (fun e => ¬(e.1 = p64.index k.hv depth)))) depth = true ∨
                          ∃ (f3 : Bool) (d3 hp3 i3 : Nat) (l3 : Leaf),
                            Node.table f2 d hp (slots.filter
                              (fun e => ¬(e.1 = p64.index k.hv depth))) =
                            Node.table f3 d3 hp3 [(i3, Node.leaf l3)]) := by
                      intro f2
                      refine ⟨rfl, ?_, ?_, ?_⟩
                      · simp only [nodeWF, Bool.and_eq_true, beq_iff_eq,
                          decide_eq_true_eq]
                        exact ⟨⟨⟨hdd, hhp⟩, hdlt⟩, slotsWF_filter hslots _⟩
                      · simp only [kvCount_table]
                        omega
                      · intro htp
                        have hch := twoPlusSlots_filter (twoPlus_children htp)
                          (fun e => ¬(e.1 = p64.index k.hv depth))
                        by_cases hd0 : depth = 0
                        · refine Or.inl ?_
                          rw [twoPlus_table, Bool.and_eq_true]
                          exact ⟨by simp [hd0], hch⟩
                        · have h2 := twoPlus_found_leaf htp hfound2 he2 hd0
                          rcases hflen : (slots.filter
                              (fun e => ¬(e.1 = p64.index k.hv depth))).length
                            with _ | n
                          · omega
                          · rcases n with _ | m
                            · -- exactly one child remains
                              obtain ⟨e1, he1⟩ := List.length_eq_one.1 hflen
                              rcases he12 : e1.2 with l3 | ⟨f3, d3, hp3, slots3⟩
                              · refine Or.inr ⟨f2, d, hp, e1.1, l3, ?_⟩
                                rw [he1, ← he12]
                              · refine Or.inl ?_
                                rw [twoPlus_table, Bool.and_eq_true]
                                constructor
                                · rw [he1]
                                  simp [he12, isLeafNode]
                                · exact hch
                            · refine Or.inl ?_
                              rw [twoPlus_table, Bool.and_eq_true]
                              refine ⟨?_, hch⟩
                              simp only [Bool.or_eq_true, decide_eq_true_eq]
                              exact Or.inl (Or.inr (by omega))
                    simp only [del64Go, htg, hld, Option.map_none', tset_none,
                      tremove] at hdel
                    split at hdel
                    · simp only [downgradeToSparseTable, Option.some.injEq,
                        Prod.mk.injEq] at hdel
                      obtain ⟨ht2, hval⟩ := hdel
                      subst hval
                      subst ht2
                      exact hkey false
                    · simp only [Option.some.injEq, Prod.mk.injEq] at hdel
                      obtain ⟨ht2, hval⟩ := hdel
                      subst hval
                      subst ht2
                      exact hkey f
        | table f1 d1 hp1 slots1 =>
            have hcwf : nodeWF p64 hashF (Node.table f1 d1 hp1 slots1) (depth + 1)
                (k.hv % p64.indexLimit ^ (depth + 1)) = true := by
              have := (slotsWF_found hslots hfound2).2.2
              rw [he2] at this
              rw [mod_pow_digit]
              exact this
            simp only [del64Go, htg] at hdel
            rcases hrec : del64Go grade k fuel (depth + 1)
                (Node.table f1 d1 hp1 slots1) with _ | r2
            · rw [hrec] at hdel
              simp at hdel
            · obtain ⟨t2c, dval⟩ := r2
              simp only [hrec] at hdel
              obtain ⟨hcleaf2, hcwf2, hccount, hctp⟩ :=
                ih (by omega)
                  (show isLeafNode (Node.table f1 d1 hp1 slots1) = false from rfl)
                  hcwf hrec
              have hthash : thash t2c = k.hv % p64.indexLimit ^ (depth + 1) := by
                match t2c, hcleaf2, hcwf2 with
                | .table fc dc hpc slotsc, _, hcwf2 =>
                    simp only [nodeWF, Bool.and_eq_true, beq_iff_eq,
                      decide_eq_true_eq] at hcwf2
                    exact hcwf2.1.1.2
              have hidx2 : p64.index (thash t2c) depth = p64.index k.hv depth := by
                rw [hthash]
                exact index_mod_pow p64 k.hv (Nat.lt_succ_self depth)
              rw [tset_replace t2c htg, hidx2] at hdel
              have htgq1 : tget (treplace (Node.table f d hp slots)
                  (p64.index k.hv depth) t2c) (p64.index k.hv depth) = some t2c := by
                simp only [treplace, tget]
                rw [find?_replaceSlot_self _ hfound2]
                rfl
              by_cases hone : (tlen t2c == 1) = true
              · rw [if_pos hone] at hdel
                rcases hE : entry0 t2c with _ | c2
                · simp only [hE] at hdel
                  simp only [Option.some.injEq, Prod.mk.injEq] at hdel
                  obtain ⟨ht2, hval⟩ := hdel
                  subst hval
                  -- an empty child table cannot report one entry
                  exfalso
                  match t2c, hone, hE with
                  | .table fc dc hpc slotsc, hone, hE =>
                      simp only [tlen, beq_iff_eq] at hone
                      obtain ⟨e1, he1⟩ := List.length_eq_one.1 hone
                      subst he1
                      simp [entry0] at hE
                · cases c2 with
                  | leaf l2 =>
                      simp only [hE] at hdel
                      rw [tset_replace (Node.leaf l2) htgq1] at hdel
                      simp only [treplace, Option.some.injEq, Prod.mk.injEq] at hdel
                      obtain ⟨ht2, hval⟩ := hdel
                      subst hval
                      subst ht2
                      rw [replaceSlot_replaceSlot]
                      -- the collapsed child is a singleton table holding `l2`
                      obtain ⟨fc, dc, hpc, i2, hl2⟩ : ∃ (fc : Bool) (dc hpc i2 : Nat),
                          t2c = Node.table fc dc hpc [(i2, Node.leaf l2)] := by
                        match t2c, hone, hE with
                        | .table fc dc hpc slotsc, hone, hE =>
                            simp only [tlen, beq_iff_eq] at hone
                            obtain ⟨e1, he1⟩ := List.length_eq_one.1 hone
                            subst he1
                            simp only [entry0, List.head?_cons, Option.map_some',
                              Option.some.injEq] at hE
                            obtain ⟨i2x, n2x⟩ := e1
                            exact ⟨fc, dc, hpc, i2x, by simpa using hE⟩
                      -- well-formedness of the lifted leaf at the parent level
                      have hl2wf : leafWF p64 hashF l2 (depth + 1)
                          (k.hv % p64.indexLimit ^ depth +
                            p64.index k.hv depth * p64.indexLimit ^ depth) = true := by
                        have hcwfC := hcwf2
                        rw [hl2] at hcwfC
                        simp only [nodeWF, Bool.and_eq_true, beq_iff_eq,
                          decide_eq_true_eq] at hcwfC
                        have hsl2 := hcwfC.2
                        have hfnd : [(i2, Node.leaf l2)].find?
                            (fun e => e.1 = i2) = some (i2, Node.leaf l2) := by
                          simp
                        have h9 := (slotsWF_found hsl2 hfnd).2.2
                        have hl2wf1 : leafWF p64 hashF l2 (depth + 1 + 1)
                            (k.hv % p64.indexLimit ^ (depth + 1) +
                              i2 * p64.indexLimit ^ (depth + 1)) = true := by
                          simpa [nodeWF] using h9
                        have hpre := (leafWF_pre hl2wf1).1
                        have hret := leafWF_retarget hl2wf1 (depth + 1)
                        have hmod : l2.hash % p64.indexLimit ^ (depth + 1) =
                            k.hv % p64.indexLimit ^ (depth + 1) := by
                          have hstep : l2.hash % p64.indexLimit ^ (depth + 1) =
                              (l2.hash % p64.indexLimit ^ (depth + 1 + 1)) %
                                p64.indexLimit ^ (depth + 1) := by
                            rw [Nat.mod_mod_of_dvd]
                            exact pow_dvd_pow _ (Nat.le_succ _)
                          rw [hstep, hpre, mod_add_high]
                          exact Nat.mod_lt _ (pow_iL_pos p64 _)
                        rw [hmod, mod_pow_digit] at hret
                        exact hret
                      refine ⟨rfl, ?_, ?_, ?_⟩
                      · simp only [nodeWF, Bool.and_eq_true, beq_iff_eq,
                          decide_eq_true_eq]
                        refine ⟨⟨⟨hdd, hhp⟩, hdlt⟩, ?_⟩
                        apply slotsWF_replaceSlot hslots hfound2
                        simpa [nodeWF] using hl2wf
                      · have h5b := kvCountSlots_replaceSlot
                          (c := Node.leaf l2) hfound2
                        rw [he2] at h5b
                        have hc2 : kvCount t2c = l2.count := by
                          rw [hl2, kvCount_table, kvCountSlots_cons,
                            kvCountSlots_nil, kvCount_leaf]
                          omega
                        simp only [kvCount_table, kvCount_leaf] at h5b hccount ⊢
                        omega
                      · intro htp
                        have hch : twoPlusSlots (replaceSlot (p64.index k.hv depth)
                            (Node.leaf l2) slots) depth = true :=
                          twoPlusSlots_replaceSlot (twoPlus_children htp)
                            (twoPlus_leaf _ _)
                        by_cases hd0 : depth = 0
                        · refine Or.inl ?_
                          rw [twoPlus_table, Bool.and_eq_true]
                          exact ⟨by simp [hd0], hch⟩
                        · have h2 : 1 ≤ slots.length := twoPlus_top_pos htp hd0
                          rcases hsl : slots.length with _ | n
                          · omega
                          · rcases n with _ | m
                            · -- the parent itself shrinks to a lone leaf child
                              obtain ⟨e1, he1⟩ := List.length_eq_one.1 hsl
                              subst he1
                              have hee : e = e1 := by
                                have := List.mem_of_find?_eq_some hfound2
                                simpa using this
                              have he1i : e1.1 = p64.index k.hv depth := by
                                rw [← hee]
                                exact find?_slot_eq hfound2
                              refine Or.inr ⟨f, d, hp, p64.index k.hv depth, l2, ?_⟩
                              simp only [replaceSlot, he1i, if_pos]
                            · refine Or.inl ?_
                              rw [twoPlus_table, Bool.and_eq_true]
                              refine ⟨?_, hch⟩
                              simp only [Bool.or_eq_true, decide_eq_true_eq,
                                length_replaceSlot]
                              exact Or.inl (Or.inr (by omega))
                  | table fE dE hpE slotsE =>
                      simp only [hE] at hdel
                      simp only [Option.some.injEq, Prod.mk.injEq] at hdel
                      obtain ⟨ht2, hval⟩ := hdel
                      subst hval
                      rw [← ht2]
                      have htp2c : twoPlus t2c (depth + 1) = true → True := fun _ => trivial
                      refine ⟨rfl, ?_, ?_, ?_⟩
                      · simp only [treplace, nodeWF, Bool.and_eq_true, beq_iff_eq,
                          decide_eq_true_eq]
                        refine ⟨⟨⟨hdd, hhp⟩, hdlt⟩, ?_⟩
                        apply slotsWF_replaceSlot hslots hfound2
                        rw [← mod_pow_digit]
                        exact hcwf2
                      · have h5 := kvCountSlots_replaceSlot (c := t2c) hfound2
                        rw [he2] at h5
                        simp only [treplace, kvCount_table] at h5 hccount ⊢
                        omega
                      · intro htp
                        refine Or.inl ?_
                        simp only [treplace]
                        apply twoPlus_replace_table htp hfound2 hcleaf2
                        rcases hctp (by
                          have := twoPlus_children htp
                          rw [twoPlusSlots_iff] at this
                          have h6 := this e (List.mem_of_find?_eq_some hfound2)
                          rw [he2] at h6
                          exact h6) with h7 | ⟨f3, d3, hp3, i3, l3, h7⟩
                        · exact h7
                        · exfalso
                          rw [h7] at hE
                          simp [entry0] at hE
              · rw [if_neg hone] at hdel
                simp only [Option.some.injEq, Prod.mk.injEq] at hdel
                obtain ⟨ht2, hval⟩ := hdel
                subst hval
                rw [← ht2]
                refine ⟨rfl, ?_, ?_, ?_⟩
                · simp only [treplace, nodeWF, Bool.and_eq_true, beq_iff_eq,
                    decide_eq_true_eq]
                  refine ⟨⟨⟨hdd, hhp⟩, hdlt⟩, ?_⟩
                  apply slotsWF_replaceSlot hslots hfound2
                  rw [← mod_pow_digit]
                  exact hcwf2
                · have h5 := kvCountSlots_replaceSlot (c := t2c) hfound2
                  rw [he2] at h5
                  simp only [treplace, kvCount_table] at h5 hccount ⊢
                  omega
                · intro htp
                  refine Or.inl ?_
                  simp only [treplace]
                  apply twoPlus_replace_table htp hfound2 hcleaf2
                  rcases hctp (by
                    have := twoPlus_children htp
                    rw [twoPlusSlots_iff] at this
                    have h6 := this e (List.mem_of_find?_eq_some hfound2)
                    rw [he2] at h6
                    exact h6) with h7 | ⟨f3, d3, hp3, i3, l3, h7⟩
                  · exact h7
                  · exfalso
                    rw [h7] at hone
                    simp [tlen] at hone

theorem del64Go_miss (grade : Bool) (k : IKey) :
    ∀ (fuel : Nat) {depth : Nat} {t : Node} {x : Val},
      getLoop p64 k fuel depth t = some (x, false) →
      del64Go grade k fuel depth t = none := by
  intro fuel
  induction fuel with
  | zero =>
      intro depth t x hget
      simp [getLoop] at hget
  | succ fuel ih =>
      intro depth t x hget
      rcases htg : tget t (p64.index k.hv depth) with _ | c
      · match t with
        | .leaf l => rfl
        | .table f d hp slots => simp [del64Go, htg]
      · cases c with
        | leaf l =>
            rw [getLoop_leaf p64 k htg] at hget
            simp only [Option.some.injEq] at hget
            have hgf : (l.get k).2 = false := by rw [hget]
            have hdf : (l.del k).2.2 = false := by
              rw [leafDel_deleted]
              exact hgf
            rcases hld : l.del k with ⟨nl?, dval, deleted⟩
            rw [hld] at hdf
            simp only at hdf
            subst hdf
            match t, htg with
            | .table f d hp slots, htg => simp [del64Go, htg, hld]
        | table f1 d1 hp1 slots1 =>
            by_cases hmax : (depth = p64.maxDepth)
            · exfalso
              match t, htg with
              | .table f d hp slots, htg =>
                  simp only [getLoop, htg] at hget
                  rw [if_pos (by simpa using hmax)] at hget
                  exact Option.noConfusion hget
            · rw [getLoop_step p64 k htg rfl hmax] at hget
              have hrec := ih hget
              match t, htg with
              | .table f d hp slots, htg => simp [del64Go, htg, hrec]

theorem put64_spec (hashF : Nat → Nat) {h h2 : Hamt64} {bs : Nat} {v : Val}
    {ins : Bool}
    (hwf : hamt64WF hashF h = true)
    (htp : match h.root with
           | none => True
           | some rt => twoPlus rt 0 = true)
    (hput : h.Put hashF bs v = some (h2, ins)) :
    hamt64WF hashF h2 = true ∧
    (match h2.root with
     | none => True
     | some rt => twoPlus rt 0 = true) ∧
    h2.Get hashF bs = some (v, true) ∧
    h2.nentries = h.nentries + (if ins then 1 else 0) ∧
    h2.grade = h.grade ∧ h2.fullinit = h.fullinit := by
  have hklt : (p64.newKey hashF bs).hv < p64.hashMod :=
    Nat.mod_lt _ (pow_iL_pos p64 _)
  have hkcons : (p64.newKey hashF bs).hv = hashF (p64.newKey hashF bs).bs %
      p64.hashMod := rfl
  simp only [hamt64WF, Bool.and_eq_true, beq_iff_eq] at hwf
  obtain ⟨hcnt, hrootwf⟩ := hwf
  rcases hroot : h.root with _ | rt
  · -- empty structure: a fresh root table is created
    rw [hroot] at hcnt
    simp only [kvCountO_none] at hcnt
    obtain ⟨hcrwf, hcrleaf, hcrcount, hcrget⟩ :=
      createRootTable_spec p64 hashF bs v (by decide)
    simp only [Hamt64.Put, hroot, Option.some.injEq, Prod.mk.injEq] at hput
    obtain ⟨hh2, hins⟩ := hput
    subst hins
    rw [← hh2]
    refine ⟨?_, ?_, ?_, by simp [← hcnt], rfl, rfl⟩
    · simp only [hamt64WF, Bool.and_eq_true, beq_iff_eq, kvCountO_some,
        hcrcount]
      refine ⟨by omega, ?_⟩
      simp only [Bool.and_eq_true, Bool.not_eq_true']
      exact ⟨hcrwf, hcrleaf⟩
    · simp only [createRootTable]
      rw [twoPlus_table, Bool.and_eq_true]
      constructor
      · simp
      · rw [twoPlusSlots_cons, Bool.and_eq_true]
        exact ⟨twoPlus_leaf _ _, twoPlusSlots_nil _⟩
    · simp only [Hamt64.Get]
      exact hcrget
  · rw [hroot] at hcnt hrootwf htp
    simp only [kvCountO_some] at hcnt
    simp only [Bool.and_eq_true, Bool.not_eq_true'] at hrootwf
    obtain ⟨hrtwf, hrtleaf⟩ := hrootwf
    simp only [Hamt64.Put, hroot] at hput
    rcases hgo : put64Go h.grade h.fullinit (p64.newKey hashF bs) v
        p64.depthLimit 0 rt with _ | r2
    · rw [hgo] at hput
      exact Option.noConfusion hput
    · obtain ⟨rt2, ins2⟩ := r2
      simp only [hgo, Option.some.injEq, Prod.mk.injEq] at hput
      obtain ⟨hh2, hins⟩ := hput
      subst hins
      obtain ⟨hleaf2, hwf2, hcount2, hget2, htp2⟩ :=
        put64Go_spec hashF h.grade h.fullinit (p64.newKey hashF bs) v
          hklt hkcons p64.depthLimit (by omega) hrtleaf
          (by simpa [Nat.mod_one] using hrtwf) hgo
      rw [← hh2]
      refine ⟨?_, ?_, ?_, by simp, rfl, rfl⟩
      · simp only [hamt64WF, Bool.and_eq_true, beq_iff_eq, kvCountO_some]
        refine ⟨by rw [hcount2, hcnt], ?_⟩
        simp only [Bool.and_eq_true, Bool.not_eq_true']
        exact ⟨by simpa [Nat.mod_one] using hwf2, hleaf2⟩
      · simp only []
        exact htp2 htp
      · simp only [Hamt64.Get]
        exact hget2

theorem del64_spec (hashF : Nat → Nat) {h h2 : Hamt64} {bs : Nat} {v : Val}
    {b : Bool}
    (hwf : hamt64WF hashF h = true)
    (htp : match h.root with
           | none => True
           | some rt => twoPlus rt 0 = true)
    (hdel : h.Del hashF bs = (h2, v, b)) :
    hamt64WF hashF h2 = true ∧
    (match h2.root with
     | none => True
     | some rt => twoPlus rt 0 = true) ∧
    (b = false → h2 = h) ∧
    (b = true → h2.nentries + 1 = h.nentries) ∧
    h2.grade = h.grade ∧ h2.fullinit = h.fullinit := by
  have hwfC := hwf
  simp only [hamt64WF, Bool.and_eq_true, beq_iff_eq] at hwfC
  obtain ⟨hcnt, hrootwf⟩ := hwfC
  rcases hroot : h.root with _ | rt
  · simp only [Hamt64.Del, hroot, Prod.mk.injEq] at hdel
    obtain ⟨hh2, hv2, hb2⟩ := hdel
    subst hh2; subst hv2; subst hb2
    exact ⟨hwf, by rw [hroot]; trivial, fun _ => rfl, by simp, rfl, rfl⟩
  · rw [hroot] at hcnt hrootwf htp
    simp only [kvCountO_some] at hcnt
    simp only [Bool.and_eq_true, Bool.not_eq_true'] at hrootwf
    obtain ⟨hrtwf, hrtleaf⟩ := hrootwf
    simp only [Hamt64.Del, hroot] at hdel
    rcases hgo : del64Go h.grade (p64.newKey hashF bs) p64.depthLimit 0 rt
        with _ | r2
    · rw [hgo] at hdel
      simp only [Prod.mk.injEq] at hdel
      obtain ⟨hh2, hv2, hb2⟩ := hdel
      subst hh2; subst hv2; subst hb2
      exact ⟨hwf, by rw [hroot]; trivial, fun _ => rfl, by simp, rfl, rfl⟩
    · obtain ⟨rt2, dval⟩ := r2
      simp only [hgo, Prod.mk.injEq] at hdel
      obtain ⟨hh2, hv2, hb2⟩ := hdel
      subst hv2; subst hb2
      obtain ⟨hleaf2, hwf2, hcount2, htp2⟩ :=
        del64Go_spec hashF h.grade (p64.newKey hashF bs) p64.depthLimit
          (by omega) hrtleaf (by simpa [Nat.mod_one] using hrtwf) hgo
      rw [← hh2]
      have htp0 : twoPlus rt2 0 = true := by
        rcases htp2 htp with h7 | ⟨f3, d3, hp3, i3, l3, h7⟩
        · exact h7
        · rw [h7, twoPlus_table, Bool.and_eq_true]
          refine ⟨by simp, ?_⟩
          rw [twoPlusSlots_cons, Bool.and_eq_true]
          exact ⟨twoPlus_leaf _ _, twoPlusSlots_nil _⟩
      by_cases hzero : (tlen rt2 == 0) = true
      · have hc0 : kvCount rt2 = 0 := by
          match rt2, hzero with
          | .table f2 d2 hp2 slots2, hzero =>
              simp only [tlen, beq_iff_eq, List.length_eq_zero] at hzero
              subst hzero
              rfl
        refine ⟨?_, ?_, by simp, fun _ => by simp only []; omega, rfl, rfl⟩
        · simp only [hamt64WF, Bool.and_eq_true, beq_iff_eq]
          rw [if_pos (show tlen rt2 = 0 from by simpa using hzero)]
          simp only [kvCountO_none]
          exact ⟨by omega, trivial⟩
        · simp only []
          rw [if_pos hzero]
          trivial
      · refine ⟨?_, ?_, by simp, fun _ => by simp only []; omega, rfl, rfl⟩
        · simp only [hamt64WF, Bool.and_eq_true, beq_iff_eq]
          rw [if_neg (show ¬(tlen rt2 = 0) from by simpa using hzero)]
          simp only [kvCountO_some]
          refine ⟨by omega, ?_⟩
          simp only [Bool.and_eq_true, Bool.not_eq_true']
          exact ⟨by simpa [Nat.mod_one] using hwf2, hleaf2⟩
        · simp only []
          rw [if_neg hzero]
          exact htp0

theorem del64_miss (hashF : Nat → Nat) {h : Hamt64} {bs : Nat} {x : Val}
    (hget : h.Get hashF bs = some (x, false)) :
    h.Del hashF bs = (h, none, false) := by
  rcases hroot : h.root with _ | rt
  · simp [Hamt64.Del, hroot]
  · simp only [Hamt64.Get, hroot] at hget
    have hmiss := del64Go_miss h.grade (p64.newKey hashF bs) p64.depthLimit hget
    simp [Hamt64.Del, hroot, hmiss]

theorem reach64_invariant {hashF : Nat → Nat} {h : Hamt64}
    (hr : Reach64 hashF h) :
    hamt64WF hashF h = true ∧
    (match h.root with
     | none => True
     | some rt => twoPlus rt 0 = true) := by
  induction hr with
  | new opt =>
      have hbase : ∀ g f2 : Bool, hamt64WF hashF ⟨none, 0, g, f2⟩ = true ∧
          (match (⟨none, 0, g, f2⟩ : Hamt64).root with
           | none => True
           | some rt => twoPlus rt 0 = true) := fun g f2 => ⟨rfl, trivial⟩
      simp only [New64]
      by_cases h1 : (opt == CompTablesOnly) = true
      · rw [if_pos h1]
        exact hbase false false
      · rw [if_neg h1]
        by_cases h2 : (opt == FullTablesOnly) = true
        · rw [if_pos h2]
          exact hbase false true
        · rw [if_neg h2]
          exact hbase true false
  | @put h0 h1 bs v b hr hput ih =>
      have := put64_spec hashF ih.1 ih.2 hput
      exact ⟨this.1, this.2.1⟩
  | @del h0 h1 bs v b hr hdel ih =>
      have := del64_spec hashF ih.1 ih.2 hdel
      exact ⟨this.1, this.2.1⟩

theorem sget?_append {st ext : Store} {a : Nat} (h : a < st.length) :
    sget? (st ++ ext) a = sget? st a := by
  simp only [sget?]
  exact List.get?_append h

theorem tClosed_found {t : STable} {n idx : Nat} {a : Nat}
    (hc : tClosed t n = true) (hs : stslot t idx = some (.ref a)) : a < n := by
  simp only [stslot, Option.map_eq_some'] at hs
  obtain ⟨e, he1, he2⟩ := hs
  have hmem := List.mem_of_find?_eq_some he1
  simp only [tClosed, List.all_eq_true] at hc
  have := hc e hmem
  rw [he2] at this
  simpa using this

theorem srefsClosed_mem {st : Store} {t : STable}
    (hc : srefsClosed st = true) (hm : t ∈ st) : tClosed t st.length = true := by
  simp only [srefsClosed, List.all_eq_true] at hc
  exact hc t hm

theorem sgetLoop_append (p : Params) (k : IKey) {st ext : Store}
    (hcl : srefsClosed st = true) :
    ∀ (fuel depth : Nat) (t : STable), tClosed t st.length = true →
      sgetLoop (st ++ ext) p k fuel depth t = sgetLoop st p k fuel depth t := by
  intro fuel
  induction fuel with
  | zero => intro depth t _; rfl
  | succ fuel ih =>
      intro depth t htc
      simp only [sgetLoop]
      rcases hs : stslot t (p.index k.hv depth) with _ | c
      · simp only [hs]
      · cases c with
        | leaf l => simp only [hs]
        | ref a =>
            have ha : a < st.length := tClosed_found htc hs
            simp only [hs]
            rw [sget?_append ha]
            rcases hg : sget? st a with _ | t3
            · simp only [hg]
            · have ht3 : t3 ∈ st := by
                simp only [sget?] at hg
                exact List.get?_mem hg
              simp only [hg]
              by_cases hmax : (depth == p.maxDepth) = true
              · rw [if_pos hmax, if_pos hmax]
              · rw [if_neg hmax, if_neg hmax]
                exact ih (depth + 1) t3 (srefsClosed_mem hcl ht3)

theorem sGet_frame (p : Params) (hashF : Nat → Nat) {st ext : Store}
    {rootA : Nat} (hcl : srefsClosed st = true) (hroot : rootA < st.length)
    (bs : Nat) :
    sGet (st ++ ext) p hashF rootA bs = sGet st p hashF rootA bs := by
  simp only [sGet]
  rw [sget?_append hroot]
  rcases hg : sget? st rootA with _ | rt
  · rfl
  · have hrt : rt ∈ st := by
      simp only [sget?] at hg
      exact List.get?_mem hg
    exact sgetLoop_append p _ hcl _ 0 rt (srefsClosed_mem hcl hrt)

theorem screateTable_extend (p : Params) (sf : Bool) :
    ∀ (fuel : Nat) (st : Store) (depth : Nat) (l1 : Leaf) (k : IKey) (v : Val),
      ∃ ext, (screateTable p sf st fuel depth l1 k v).1 = st ++ ext := by
  intro fuel
  induction fuel with
  | zero =>
      intro st depth l1 k v
      exact ⟨_, rfl⟩
  | succ fuel ih =>
      intro st depth l1 k v
      simp only [screateTable]
      by_cases h1 : (p.index l1.hash depth == p.index k.hv depth) = true
      · rw [if_pos h1]
        by_cases h2 : (depth == p.maxDepth) = true
        · rw [if_pos h2]
          exact ⟨_, rfl⟩
        · rw [if_neg h2]
          rcases hc : screateTable p sf st fuel (depth + 1) l1 k v with ⟨st1, a⟩
          obtain ⟨ext1, hext1⟩ := ih st (depth + 1) l1 k v
          rw [hc] at hext1
          simp only at hext1
          simp only [alloc, hext1]
          exact ⟨ext1 ++ [⟨sf, depth, l1.hash % p.indexLimit ^ depth,
            [(p.index l1.hash depth, SNode.ref a)]⟩],
            (List.append_assoc _ _ _)⟩
      · rw [if_neg h1]
        exact ⟨_, rfl⟩

theorem spersist_extend (p : Params) :
    ∀ (rest : List Nat) (st : Store) (oldA : Nat) (newA? : Option Nat)
      (st2 : Store) (r? : Option Nat),
      spersist p st oldA newA? rest = some (st2, r?) →
      ∃ ext, st2 = st ++ ext := by
  intro rest
  induction rest with
  | nil =>
      intro st oldA newA? st2 r? h
      simp only [spersist, Option.some.injEq, Prod.mk.injEq] at h
      exact ⟨[], by simp [h.1]⟩
  | cons parent rs ih =>
      intro st oldA newA? st2 r? h
      simp only [spersist] at h
      rcases hp : sget? st parent with _ | pt
      · rw [hp] at h
        exact Option.noConfusion h
      · rcases ho : sget? st oldA with _ | ot
        · rw [hp, ho] at h
          exact Option.noConfusion h
        · rw [hp, ho] at h
          simp only [alloc] at h
          obtain ⟨ext, hext⟩ := ih _ _ _ _ _ h
          rw [hext]
          exact ⟨_ ++ ext, List.append_assoc _ _ _⟩

theorem sPutTerminal_extend (p : Params) (grade sf : Bool) (st : Store)
    (cur : STable) (idx : Nat) (leaf? : Option Leaf) (k : IKey) (v : Val)
    (depth : Nat) :
    ∃ ext, (sPutTerminal p grade sf st cur idx leaf? k v depth).1 = st ++ ext := by
  cases leaf? with
  | none => exact ⟨_, rfl⟩
  | some leaf =>
      by_cases hh : (leaf.hash == k.hv) = true
      · simp only [sPutTerminal]
        rw [if_pos hh]
        exact ⟨_, rfl⟩
      · simp only [sPutTerminal]
        rw [if_neg hh]
        rcases hct : screateTable p sf st (p.depthLimit - (depth + 1))
            (depth + 1) leaf k v with ⟨st0, ca⟩
        obtain ⟨ext0, hext0⟩ := screateTable_extend p sf
          (p.depthLimit - (depth + 1)) st (depth + 1) leaf k v
        rw [hct] at hext0
        simp only at hext0
        simp only [alloc, hext0]
        exact ⟨_, List.append_assoc _ _ _⟩

theorem sPut_extend (p : Params) (hashF : Nat → Nat) {st : Store}
    {rootA : Nat} {grade sf : Bool} {bs : Nat} {v : Val} {st2 : Store}
    {r2 : Nat} {b2 : Bool}
    (h : sPut p hashF st rootA grade sf bs v = some (st2, r2, b2)) :
    ∃ ext, st2 = st ++ ext := by
  simp only [sPut] at h
  rcases hf : sfindLoop st p (p.newKey hashF bs).hv p.depthLimit 0 rootA []
      with _ | ⟨path, leaf?, idx⟩ <;> simp only [hf] at h
  · exact Option.noConfusion h
  · cases path with
    | nil => exact Option.noConfusion h
    | cons curA rest =>
        rcases hc : sget? st curA with _ | cur <;> simp only [hc] at h
        · exact Option.noConfusion h
        · rcases ht : sPutTerminal p grade sf st cur idx leaf?
              (p.newKey hashF bs) v rest.length with ⟨st1, na, added⟩
          rw [ht] at h
          obtain ⟨ext1, hext1⟩ : ∃ ext1, st1 = st ++ ext1 := by
            have hx := sPutTerminal_extend p grade sf st cur idx leaf?
              (p.newKey hashF bs) v rest.length
            rw [ht] at hx
            simpa using hx
          rcases hps : spersist p st1 curA (some na) rest with _ | r3 <;>
            simp only [hps] at h
          · exact Option.noConfusion h
          · obtain ⟨st3, r3?⟩ := r3
            obtain ⟨ext2, hext2⟩ := spersist_extend p rest st1 curA (some na)
              st3 r3? hps
            cases r3? with
            | none =>
                simp only [Option.some.injEq, Prod.mk.injEq] at h
                obtain ⟨h1, _, _⟩ := h
                subst h1
                rw [hext2, hext1]
                exact ⟨_, List.append_assoc _ _ _⟩
            | some r3 =>
                simp only [Option.some.injEq, Prod.mk.injEq] at h
                obtain ⟨h1, _, _⟩ := h
                subst h1
                rw [hext2, hext1]
                exact ⟨_, List.append_assoc _ _ _⟩

theorem tfixed_tset (t : Node) (idx : Nat) (c? : Option Node) :
    tfixed (tset t idx c?) = tfixed t := by
  cases c? with
  | none =>
      cases t with
      | leaf l => rfl
      | table f d hp slots => rfl
  | some c =>
      rw [tset]
      rcases htg : tget t idx with _ | c0
      · cases t with
        | leaf l => rfl
        | table f d hp slots => rfl
      · cases t with
        | leaf l => rfl
        | table f d hp slots => rfl

theorem put64Go_fixed (fullinit : Bool) (k : IKey) (v : Val) :
    ∀ (fuel : Nat) {depth : Nat} {t t2 : Node} {ins : Bool},
      put64Go false fullinit k v fuel depth t = some (t2, ins) →
      tfixed t2 = tfixed t := by
  intro fuel
  induction fuel with
  | zero =>
      intro depth t t2 ins hput
      simp [put64Go] at hput
  | succ fuel ih =>
      intro depth t t2 ins hput
      rcases htg : tget t (p64.index k.hv depth) with _ | c
      · simp only [put64Go, htg] at hput
        simp only [Bool.false_and, Bool.false_eq_true, if_false,
          Option.some.injEq, Prod.mk.injEq] at hput
        rw [← hput.1]
        exact tfixed_tset t _ _
      · cases c with
        | leaf l =>
            simp only [put64Go, htg] at hput
            by_cases hh : (l.hash == k.hv) = true
            · rw [if_pos hh] at hput
              simp only [Option.some.injEq, Prod.mk.injEq] at hput
              rw [← hput.1]
              exact tfixed_tset t _ _
            · rw [if_neg hh] at hput
              by_cases hm : (depth == p64.maxDepth) = true
              · rw [if_pos hm] at hput
                exact Option.noConfusion hput
              · rw [if_neg hm] at hput
                simp only [Option.some.injEq, Prod.mk.injEq] at hput
                rw [← hput.1]
                exact tfixed_tset t _ _
        | table f1 d1 hp1 slots1 =>
            simp only [put64Go, htg] at hput
            rcases hrec : put64Go false fullinit k v fuel (depth + 1)
                (Node.table f1 d1 hp1 slots1) with _ | r2 <;>
              simp only [hrec] at hput
            · exact Option.noConfusion hput
            · obtain ⟨t2c, insc⟩ := r2
              simp only [Option.some.injEq, Prod.mk.injEq] at hput
              rw [← hput.1]
              exact tfixed_tset t _ _

theorem del64Go_fixed (k : IKey) :
    ∀ (fuel : Nat) {depth : Nat} {t t2 : Node} {val : Val},
      del64Go false k fuel depth t = some (t2, val) →
      tfixed t2 = tfixed t := by
  intro fuel
  induction fuel with
  | zero =>
      intro depth t t2 val hdel
      simp [del64Go] at hdel
  | succ fuel ih =>
      intro depth t t2 val hdel
      rcases htg : tget t (p64.index k.hv depth) with _ | c
      · simp only [del64Go, htg] at hdel
        exact Option.noConfusion hdel
      · cases c with
        | leaf l =>
            simp only [del64Go, htg] at hdel
            rcases hld : l.del k with ⟨nl?, dval, deleted⟩
            rw [hld] at hdel
            cases deleted with
            | false => exact Option.noConfusion hdel
            | true =>
                simp only [Bool.false_and, Bool.false_eq_true, if_false,
                  Option.some.injEq, Prod.mk.injEq] at hdel
                rw [← hdel.1]
                exact tfixed_tset t _ _
        | table f1 d1 hp1 slots1 =>
            simp only [del64Go, htg] at hdel
            rcases hrec : del64Go false k fuel (depth + 1)
                (Node.table f1 d1 hp1 slots1) with _ | r2 <;>
              simp only [hrec] at hdel
            · exact Option.noConfusion hdel
            · obtain ⟨t2c, dval⟩ := r2
              by_cases hone : (tlen t2c == 1) = true
              · rw [if_pos hone] at hdel
                rcases hE : entry0 t2c with _ | c2
                · rw [hE] at hdel
                  simp only [Option.some.injEq, Prod.mk.injEq] at hdel
                  rw [← hdel.1]
                  exact tfixed_tset t _ _
                · cases c2 with
                  | leaf l2 =>
                      simp only [hE, Option.some.injEq, Prod.mk.injEq] at hdel
                      rw [← hdel.1, tfixed_tset, tfixed_tset]
                  | table fE dE hpE slotsE =>
                      simp only [hE, Option.some.injEq, Prod.mk.injEq] at hdel
                      rw [← hdel.1]
                      exact tfixed_tset t _ _
              · rw [if_neg hone] at hdel
                simp only [Option.some.injEq, Prod.mk.injEq] at hdel
                rw [← hdel.1]
                exact tfixed_tset t _ _

theorem reach64_rootFixed {hashF : Nat → Nat} {h : Hamt64}
    (hr : Reach64 hashF h) :
    h.grade = false → ∀ rt, h.root = some rt → tfixed rt = true := by
  induction hr with
  | new opt =>
      intro _ rt hrt
      exfalso
      simp only [New64] at hrt
      by_cases h1 : (opt == CompTablesOnly) = true
      · rw [if_pos h1] at hrt
        exact Option.noConfusion hrt
      · rw [if_neg h1] at hrt
        by_cases h2 : (opt == FullTablesOnly) = true
        · rw [if_pos h2] at hrt
          exact Option.noConfusion hrt
        · rw [if_neg h2] at hrt
          exact Option.noConfusion hrt
  | @put h0 h1 bs v b hr hput ih =>
      intro hg rt hrt
      simp only [Hamt64.Put] at hput
      rcases hroot : h0.root with _ | rt0 <;> simp only [hroot] at hput
      · simp only [Option.some.injEq, Prod.mk.injEq] at hput
        rw [← hput.1] at hrt
        simp only [Option.some.injEq] at hrt
        rw [← hrt]
        rfl
      · rcases hgo : put64Go h0.grade h0.fullinit (p64.newKey hashF bs) v
            p64.depthLimit 0 rt0 with _ | r2 <;> simp only [hgo] at hput
        · exact Option.noConfusion hput
        · obtain ⟨rt2, ins2⟩ := r2
          simp only [Option.some.injEq, Prod.mk.injEq] at hput
          have hg0 : h0.grade = false := by
            rw [← hput.1] at hg
            exact hg
          rw [← hput.1] at hrt
          simp only [Option.some.injEq] at hrt
          rw [hg0] at hgo
          have := put64Go_fixed h0.fullinit (p64.newKey hashF bs) v
            p64.depthLimit hgo
          rw [← hrt, this]
          exact ih hg0 rt0 hroot
  | @del h0 h1 bs v b hr hdel ih =>
      intro hg rt hrt
      simp only [Hamt64.Del] at hdel
      rcases hroot : h0.root with _ | rt0 <;>
        simp only [hroot, Prod.mk.injEq] at hdel
      · obtain ⟨hh2, _, _⟩ := hdel
        rw [← hh2] at hrt hg
        rw [hroot] at hrt
        exact Option.noConfusion hrt
      · rcases hgo : del64Go h0.grade (p64.newKey hashF bs) p64.depthLimit 0 rt0
            with _ | r2 <;> simp only [hgo, Prod.mk.injEq] at hdel
        · obtain ⟨hh2, _, _⟩ := hdel
          rw [← hh2] at hrt hg
          rw [hroot] at hrt
          simp only [Option.some.injEq] at hrt
          rw [← hrt]
          exact ih hg rt0 hroot
        · obtain ⟨rt2, dval⟩ := r2
          obtain ⟨hh2, _, _⟩ := hdel
          have hg0 : h0.grade = false := by
            rw [← hh2] at hg
            exact hg
          rw [← hh2] at hrt
          simp only at hrt
          by_cases hzero : (tlen rt2 == 0) = true
          · rw [if_pos hzero] at hrt
            exact Option.noConfusion hrt
          · rw [if_neg hzero] at hrt
            simp only [Option.some.injEq] at hrt
            rw [hg0] at hgo
            have := del64Go_fixed (p64.newKey hashF bs) p64.depthLimit hgo
            rw [← hrt, this]
            exact ih hg0 rt0 hroot

/-- C1: insert-then-get, both flavors: on any map reachable by the public
operations, a successful `Put(k, v)` yields a map whose `Get(k)` returns
`(v, true)`. -/
theorem claim_C1 :
    (∀ (hashF : Nat → Nat) (h h2 : HamtF) (bs : Nat) (v : Val) (ins : Bool),
      ReachF p32 hashF h → h.Put p32 hashF bs v = some (h2, ins) →
      h2.Get p32 hashF bs = some (v, true)) ∧
    (∀ (hashF : Nat → Nat) (h h2 : Hamt64) (bs : Nat) (v : Val) (ins : Bool),
      Reach64 hashF h → h.Put hashF bs v = some (h2, ins) →
      h2.Get hashF bs = some (v, true)) := by
  constructor
  · intro hashF h h2 bs v ins hr hput
    have hwf := reachF_wf (by decide) hr
    obtain ⟨h2x, addedx, hput2, hwf2, hget2, hrest⟩ :=
      putF_spec p32 hashF h bs v (by decide) hwf
    rw [hput2] at hput
    simp only [Option.some.injEq, Prod.mk.injEq] at hput
    rw [← hput.1]
    exact hget2
  · intro hashF h h2 bs v ins hr hput
    obtain ⟨hwf, htp⟩ := reach64_invariant hr
    exact (put64_spec hashF hwf htp hput).2.2.1

theorem claim_C1_witness :
    (∃ h2 ins, (NewF FixedTables).Put p32 (fun n => n) 5 (some 3) =
        some (h2, ins) ∧ h2.Get p32 (fun n => n) 5 = some (some 3, true)) ∧
    (∃ g2 ins, (New64 HybridTables64).Put (fun n => n) 5 (some 3) =
        some (g2, ins) ∧ g2.Get (fun n => n) 5 = some (some 3, true)) := by
  constructor
  · refine ⟨_, _, rfl, ?_⟩
    exact claim_C1.1 (fun n => n) _ _ 5 (some 3) _ (ReachF.new FixedTables) rfl
  · refine ⟨_, _, rfl, ?_⟩
    exact claim_C1.2 (fun n => n) _ _ 5 (some 3) _ (Reach64.new HybridTables64) rfl

/-- C2: persistent non-disturbance, over the heap model: a `Put` on a
closed store only appends fresh tables — every pre-existing cell, the old
root included, is untouched — and the old root answers every `Get` exactly
as before. -/
theorem claim_C2 : ∀ (hashF : Nat → Nat) (st : Store) (rootA : Nat)
    (grade sf : Bool) (bs : Nat) (v : Val) (st2 : Store) (r2 : Nat) (b2 : Bool),
    srefsClosed st = true → rootA < st.length →
    sPut p32 hashF st rootA grade sf bs v = some (st2, r2, b2) →
    (∃ ext, st2 = st ++ ext) ∧
    (∀ a, a < st.length → sget? st2 a = sget? st a) ∧
    (∀ bs2, sGet st2 p32 hashF rootA bs2 = sGet st p32 hashF rootA bs2) := by
  intro hashF st rootA grade sf bs v st2 r2 b2 hcl hroot hput
  obtain ⟨ext, hext⟩ := sPut_extend p32 hashF hput
  subst hext
  exact ⟨⟨ext, rfl⟩, fun a ha => sget?_append ha,
    fun bs2 => sGet_frame p32 hashF hcl hroot bs2⟩

theorem claim_C2_witness :
    ∃ (st2 : Store) (r2 : Nat) (b2 : Bool),
      sPut p32 (fun n => n)
        [⟨true, 0, 0, [(0, SNode.leaf (.flat ⟨0, 0⟩ (some 5)))]⟩] 0
        false false 32 (some 7) = some (st2, r2, b2) ∧
      (∃ ext, st2 =
        [⟨true, 0, 0, [(0, SNode.leaf (.flat ⟨0, 0⟩ (some 5)))]⟩] ++ ext) ∧
      (∀ a, a < 1 → sget? st2 a =
        sget? [⟨true, 0, 0, [(0, SNode.leaf (.flat ⟨0, 0⟩ (some 5)))]⟩] a) ∧
      (∀ bs2, sGet st2 p32 (fun n => n) 0 bs2 =
        sGet [⟨true, 0, 0, [(0, SNode.leaf (.flat ⟨0, 0⟩ (some 5)))]⟩]
          p32 (fun n => n) 0 bs2) := by
  refine ⟨_, _, _, rfl, ?_⟩
  exact claim_C2 (fun n => n) _ 0 false false 32 (some 7) _ _ _
    (by decide) (by decide) rfl

/-- C3 (amended): the structural collapse is applied only by the transient
implementation; the persistent flavor's `Del` never collapses (see the
counterexample), and on the transient side the stated consequence holds in
the weakened form: in every reachable structure each non-root interior
table has at least two children or a sole child that is itself a table. -/
theorem claim_C3 : ∀ (hashF : Nat → Nat) (h : Hamt64),
    Reach64 hashF h → ∀ rt, h.root = some rt → twoPlus rt 0 = true := by
  intro hashF h hr rt hrt
  have h2p := (reach64_invariant hr).2
  rw [hrt] at h2p
  exact h2p

theorem claim_C3_witness :
    ∃ h2 ins, (New64 HybridTables64).Put (fun n => n) 0 (some 0) =
      some (h2, ins) ∧ ∀ rt, h2.root = some rt → twoPlus rt 0 = true := by
  refine ⟨_, _, rfl, ?_⟩
  exact claim_C3 (fun n => n) _ (Reach64.put (Reach64.new HybridTables64) rfl)

/-- C3 is false for the persistent flavor: after `Put 0`, `Put 32`,
`Del 32` (hash = identity) the reachable structure keeps a non-root
interior table with exactly one remaining child, and that child is a leaf —
no collapse was applied and the \"at least 2 children\" consequence fails. -/
theorem claim_C3_counterexample :
    ∃ (h1 : HamtF) (b1 : Bool) (h2 : HamtF) (b2 : Bool) (h3 : HamtF)
      (v3 : Val) (b3 : Bool),
      (NewF HybridTables).Put p32 (fun n => n) 0 (some 0) = some (h1, b1) ∧
      h1.Put p32 (fun n => n) 32 (some 1) = some (h2, b2) ∧
      h2.Del p32 (fun n => n) 32 = some (h3, v3, b3) ∧
      ReachF p32 (fun n => n) h3 ∧ h3.nentries = 1 ∧
      ∃ rt, h3.root = some rt ∧ twoPlus rt 0 = false := by
  have e1 : (NewF HybridTables).Put p32 (fun n => n) 0 (some 0) =
      some (⟨some (.table true 0 0 [(0, .leaf (.flat ⟨0, 0⟩ (some 0)))]),
        1, true, false⟩, true) := rfl
  have e2 : (⟨some (.table true 0 0 [(0, .leaf (.flat ⟨0, 0⟩ (some 0)))]),
        1, true, false⟩ : HamtF).Put p32 (fun n => n) 32 (some 1) =
      some (⟨some (.table true 0 0 [(0, .table false 1 0
          [(0, .leaf (.flat ⟨0, 0⟩ (some 0))),
           (1, .leaf (.flat ⟨32, 32⟩ (some 1)))])]), 2, true, false⟩,
        true) := rfl
  have e3 : (⟨some (.table true 0 0 [(0, .table false 1 0
          [(0, .leaf (.flat ⟨0, 0⟩ (some 0))),
           (1, .leaf (.flat ⟨32, 32⟩ (some 1)))])]), 2, true,
        false⟩ : HamtF).Del p32 (fun n => n) 32 =
      some (⟨some (.table true 0 0 [(0, .table false 1 0
          [(0, .leaf (.flat ⟨0, 0⟩ (some 0)))])]), 1, true, false⟩,
        some 1, true) := rfl
  have r3 := ReachF.del (ReachF.put (ReachF.put (ReachF.new HybridTables) e1) e2) e3
  exact ⟨_, _, _, _, _, _, _, e1, e2, e3, r3, rfl, _, rfl, rfl⟩

/-- C4: deleting an absent key (one `Get` reports as not found) returns
the structure unchanged with the nil sentinel and `false`, in both
flavors. -/
theorem claim_C4 :
    (∀ (hashF : Nat → Nat) (h : HamtF) (bs : Nat) (x : Val),
      ReachF p32 hashF h → h.Get p32 hashF bs = some (x, false) →
      h.Del p32 hashF bs = some (h, none, false)) ∧
    (∀ (hashF : Nat → Nat) (h : Hamt64) (bs : Nat) (x : Val),
      Reach64 hashF h → h.Get hashF bs = some (x, false) →
      h.Del hashF bs = (h, none, false)) := by
  constructor
  · intro hashF h bs x hr hget
    exact delF_miss (reachF_wf (by decide) hr) hget
  · intro hashF h bs x _ hget
    exact del64_miss hashF hget

theorem claim_C4_witness :
    (NewF SparseTables).Del p32 (fun n => n) 7 =
      some (NewF SparseTables, none, false) ∧
    (New64 CompTablesOnly).Del (fun n => n) 7 =
      (New64 CompTablesOnly, none, false) :=
  ⟨claim_C4.1 (fun n => n) _ 7 none (ReachF.new SparseTables) rfl,
   claim_C4.2 (fun n => n) _ 7 none (Reach64.new CompTablesOnly) rfl⟩

/-- C5: a successful `Put` reports `inserted = true` exactly when the key
was previously absent, and `nentries` grows by one exactly when it
reports true. -/
theorem claim_C5 : ∀ (hashF : Nat → Nat) (h h2 : HamtF) (bs : Nat) (v : Val)
    (added : Bool), ReachF p32 hashF h →
    h.Put p32 hashF bs v = some (h2, added) →
    ((∃ x, h.Get p32 hashF bs = some (x, false)) ↔ added = true) ∧
    h2.nentries = h.nentries + (if added then 1 else 0) := by
  intro hashF h h2 bs v added hr hput
  have hwf := reachF_wf (by decide) hr
  obtain ⟨h2x, addedx, hput2, hwf2, hget2, hn2, hg2, hs2, xp, hprev⟩ :=
    putF_spec p32 hashF h bs v (by decide) hwf
  rw [hput2] at hput
  simp only [Option.some.injEq, Prod.mk.injEq] at hput
  obtain ⟨he1, he2⟩ := hput
  subst he1
  subst he2
  refine ⟨⟨?_, ?_⟩, hn2⟩
  · rintro ⟨x0, hx0⟩
    rw [hprev] at hx0
    simp only [Option.some.injEq, Prod.mk.injEq] at hx0
    have := hx0.2
    cases addedx
    · simp at this
    · rfl
  · intro ha
    subst ha
    exact ⟨xp, by simpa using hprev⟩

theorem claim_C5_witness :
    ∃ h2, (NewF FixedTables).Put p32 (fun n => n) 4 (some 9) =
      some (h2, true) ∧
    (((∃ x, (NewF FixedTables).Get p32 (fun n => n) 4 = some (x, false)) ↔
        true = true) ∧
      h2.nentries = (NewF FixedTables).nentries + (if true then 1 else 0)) := by
  refine ⟨_, rfl, ?_⟩
  exact claim_C5 (fun n => n) _ _ 4 (some 9) true (ReachF.new FixedTables) rfl

/-- C6 (amended): both packages use `UPGRADE = B/2`; `DOWNGRADE` is
`3B/8 = 12` in the 32-way package but `B/8 = 8` in the 64-way one, and
hysteresis `DOWNGRADE < UPGRADE` holds in both. -/
theorem claim_C6 :
    UpgradeThreshold = p32.indexLimit / 2 ∧
    DowngradeThreshold = 3 * p32.indexLimit / 8 ∧
    UpgradeThreshold = 16 ∧ DowngradeThreshold = 12 ∧
    upgradeThreshold64 = p64.indexLimit / 2 ∧
    downgradeThreshold64 = p64.indexLimit / 8 ∧
    DowngradeThreshold < UpgradeThreshold ∧
    downgradeThreshold64 < upgradeThreshold64 := by
  refine ⟨by decide, by decide, by decide, by decide, by decide, by decide,
    by decide, by decide⟩

/-- C6 is not exact for the 64-way package: its downgrade threshold is not
`3B/8` (it is `B/8 = 8`, not 24). -/
theorem claim_C6_counterexample :
    ¬(downgradeThreshold64 = 3 * p64.indexLimit / 8) := by decide

/-- C7: on every reachable persistent structure the `Count` traversal's
`KeyVals` total equals `nentries`. -/
theorem claim_C7 : ∀ (hashF : Nat → Nat) (h : HamtF),
    ReachF p32 hashF h → h.CountKeyVals = h.nentries := by
  intro hashF h hr
  exact countKeyVals_eq_nentries (reachF_wf (by decide) hr)

theorem claim_C7_witness :
    ∃ h2 ins, (NewF HybridTables).Put p32 (fun n => n) 3 none =
      some (h2, ins) ∧ h2.CountKeyVals = h2.nentries := by
  refine ⟨_, _, rfl, ?_⟩
  exact claim_C7 (fun n => n) _ (ReachF.put (ReachF.new HybridTables) rfl)

/-- C8: the hash-indexed walk never aborts on a structure reachable by the
public operations (every `Get` returns a value), while on a corrupt
structure that does hold a table child at the maximum depth the walk
aborts (`none`, the model of the Go panic) instead of silently
continuing. -/
theorem claim_C8 :
    (∀ (hashF : Nat → Nat) (h : HamtF) (bs : Nat),
      ReachF p32 hashF h → ∃ r, h.Get p32 hashF bs = some r) ∧
    HamtF.Get p32 (fun n => n)
      { root := some (.table true 0 0 [(0, .table true 1 0 [(0,
          .table true 2 0 [(0, .table true 3 0 [(0, .table true 4 0 [(0,
          .table true 5 0 [(0, .table true 6 0 [])])])])])])])
        nentries := 1
        grade := false
        startFixed := true } 0 = none := by
  constructor
  · intro hashF h bs hr
    exact getF_ne_none bs (reachF_wf (by decide) hr)
  · rfl

theorem claim_C8_witness :
    ∃ r, (NewF FixedTables).Get p32 (fun n => n) 0 = some r :=
  claim_C8.1 (fun n => n) _ 0 (ReachF.new FixedTables)

/-- C9 (amended): the root table is always *created* as a fixed table, in
either flavor and whatever the option; and it remains fixed as long as
grading is disabled.  With grading enabled a deletion can downgrade the
root itself (see the counterexample), so \"always a FixedTable\" does not
hold. -/
theorem claim_C9 :
    (∀ (p : Params) (k : IKey) (v : Val),
      tfixed (createRootTable p k v) = true) ∧
    (∀ (hashF : Nat → Nat) (h : Hamt64), Reach64 hashF h →
      h.grade = false → ∀ rt, h.root = some rt → tfixed rt = true) :=
  ⟨fun _ _ _ => rfl, fun _ _ hr => reach64_rootFixed hr⟩

theorem claim_C9_witness :
    ∃ h2 ins, (New64 CompTablesOnly).Put (fun n => n) 0 (some 0) =
      some (h2, ins) ∧ ∀ rt, h2.root = some rt → tfixed rt = true := by
  refine ⟨_, _, rfl, ?_⟩
  exact claim_C9.2 (fun n => n) _
    (Reach64.put (Reach64.new CompTablesOnly) rfl) rfl

/-- C9 is false as stated: with the hybrid (graded) option, `Put 0`,
`Put 1`, `Del 0` (hash = identity) leaves a reachable, non-empty
structure whose root table is a sparse table. -/
theorem claim_C9_counterexample :
    ∃ (h1 : Hamt64) (b1 : Bool) (h2 : Hamt64) (b2 : Bool) (h3 : Hamt64)
      (v3 : Val) (b3 : Bool),
      (New64 HybridTables64).Put (fun n => n) 0 (some 0) = some (h1, b1) ∧
      h1.Put (fun n => n) 1 (some 1) = some (h2, b2) ∧
      h2.Del (fun n => n) 0 = (h3, v3, b3) ∧
      Reach64 (fun n => n) h3 ∧ h3.nentries = 1 ∧
      ∃ rt, h3.root = some rt ∧ tfixed rt = false := by
  have e1 : (New64 HybridTables64).Put (fun n => n) 0 (some 0) =
      some (⟨some (.table true 0 0 [(0, .leaf (.flat ⟨0, 0⟩ (some 0)))]),
        1, true, false⟩, true) := rfl
  have e2 : (⟨some (.table true 0 0 [(0, .leaf (.flat ⟨0, 0⟩ (some 0)))]),
        1, true, false⟩ : Hamt64).Put (fun n => n) 1 (some 1) =
      some (⟨some (.table true 0 0 [(1, .leaf (.flat ⟨1, 1⟩ (some 1))),
          (0, .leaf (.flat ⟨0, 0⟩ (some 0)))]), 2, true, false⟩, true) := rfl
  have e3 : (⟨some (.table true 0 0 [(1, .leaf (.flat ⟨1, 1⟩ (some 1))),
          (0, .leaf (.flat ⟨0, 0⟩ (some 0)))]), 2, true,
        false⟩ : Hamt64).Del (fun n => n) 0 =
      (⟨some (.table false 0 0 [(1, .leaf (.flat ⟨1, 1⟩ (some 1)))]),
        1, true, false⟩, some 0, true) := rfl
  have r3 := Reach64.del
    (Reach64.put (Reach64.put (Reach64.new HybridTables64) e1) e2) e3
  exact ⟨_, _, _, _, _, _, _, e1, e2, e3, r3, rfl, _, rfl, rfl⟩

/-- C10: a nil value is storable: after `Put(k, nil)` the lookup returns
`(nil, true)`, while on an empty structure every lookup returns
`(nil, false)` — presence is signalled solely by the boolean, so a stored
nil is distinguishable from an absent key. -/
theorem claim_C10 :
    (∀ (hashF : Nat → Nat) (h h2 : HamtF) (bs : Nat) (ins : Bool),
      ReachF p32 hashF h → h.Put p32 hashF bs none = some (h2, ins) →
      h2.Get p32 hashF bs = some (none, true)) ∧
    (∀ (hashF : Nat → Nat) (opt bs : Nat),
      (NewF opt).Get p32 hashF bs = some (none, false)) := by
  constructor
  · intro hashF h h2 bs ins hr hput
    have hwf := reachF_wf (by decide) hr
    obtain ⟨h2x, addedx, hput2, hwf2, hget2, hrest⟩ :=
      putF_spec p32 hashF h bs none (by decide) hwf
    rw [hput2] at hput
    simp only [Option.some.injEq, Prod.mk.injEq] at hput
    rw [← hput.1]
    exact hget2
  · intro hashF opt bs
    rfl

theorem claim_C10_witness :
    ∃ h2 ins, (NewF FixedTables).Put p32 (fun n => n) 6 none =
      some (h2, ins) ∧
    h2.Get p32 (fun n => n) 6 = some (none, true) ∧
    (NewF FixedTables).Get p32 (fun n => n) 6 = some (none, false) := by
  refine ⟨_, _, rfl, ?_, ?_⟩
  · exact claim_C10.1 (fun n => n) _ _ 6 _ (ReachF.new FixedTables) rfl
  · exact claim_C10.2 (fun n => n) FixedTables 6

end GoHamt
